import Mathlib

/-!
Verification development for the ngeo_flowspace repository.

The file shallowly embeds the parts of the code base that the checked
properties are about:

* the `Cn::IpMap` paint map (`src/cnip/export/cn-ip-map.h`,
  `src/cnip/cn-ip-map.cpp`),
* the `Cn::IpSet` facade (`src/cnip/cn-ip.cpp`, `src/cnip/cnip.h`),
* the `ngeo::interval` template (`src/include/ngeo/interval.hpp`),
* the IPv4 network generator (`src/src/ip_base.cpp`,
  `src/include/ngeo/ip_base.hpp`),
* the flowspace layer tree (`src/include/flowspace/flowspace-node.h`,
  `src/src/flowspace-layer.cpp`, `src/include/flowspace/flowspace-layer.h`).

Machine integers (`unsigned int` addresses) are modelled as `Nat` with the
wrap of `+ 1` and `- 1` made explicit modulo `2 ^ 32` exactly where the source
performs unchecked arithmetic.  `std::map` iterators are modelled as indices
into the sorted association list that mirrors the map contents.
-/

namespace NgeoFS

/-- Number of values of an IPv4 address (`IpAddr::Type` is a 32 bit unsigned). -/
def addrCard : Nat := 2 ^ 32

/-- Largest address value, `IpAddr::Max()` / `ip4_addr::MAX`. -/
def addrMax : Nat := addrCard - 1

/-- Unchecked `IpAddr + 1` (`inline IpAddr operator + (IpAddr const&, unsigned int)`

has no wrap checks, so the addition is the wrapping 32 bit one). -/
def addrSucc (a : Nat) : Nat := (a + 1) % addrCard

/-- Unchecked `IpAddr - 1` (wrapping 32 bit subtraction, `0 - 1 = 2^32 - 1`). -/
def addrPred (a : Nat) : Nat := (a + (addrCard - 1)) % addrCard

/-! ### `Cn::IpRange` (src/cnip/export/cn-ip-base.h) -/

/-- Embedding of `Cn::IpRange`: a pair of 32 bit addresses `m_low, m_high`. -/
structure IpRange where
  low : Nat
  high : Nat
deriving DecidableEq, Repr

/-- Embedding of the two argument constructor `IpRange(lower, upper)`, which
sorts its arguments via `std::min` / `std::max`. -/
def IpRange.mk2 (lower upper : Nat) : IpRange :=
  ⟨min lower upper, max lower upper⟩

/-- Embedding of `IpRange::IsCompatible(addr)`:
`m_low <= addr && addr <= m_high`. -/
def IpRange.isCompatible (r : IpRange) (a : Nat) : Bool :=
  r.low ≤ a && a ≤ r.high

/-- Embedding of `IpRange::HasOverlap(src)`:
`src.IsCompatible(m_low) || this->IsCompatible(src.m_low)`. -/
def IpRange.hasOverlap (r src : IpRange) : Bool :=
  src.isCompatible r.low || r.isCompatible src.low

/-- Embedding of `IpRange::IsSubset(other)` (`*this` subset of `other`):
`m_high <= other.m_high && m_low >= other.m_low`. -/
def IpRange.isSubset (r other : IpRange) : Bool :=
  r.high ≤ other.high && r.low ≥ other.low

/-- Embedding of `operator < (IpRange, IpRange)`:
`x.m_low < y.m_low || (x.m_low == y.m_low && x.m_high < y.m_high)`.
This is the key ordering of the `std::map` in `IpMap` and of the
`std::set` in `IpSet`. -/
def IpRange.lt (x y : IpRange) : Bool :=
  x.low < y.low || (x.low == y.low && x.high < y.high)

/-! ### `Cn::IpMap` (src/cnip/export/cn-ip-map.h, src/cnip/cn-ip-map.cpp)

The map key is `IpRange` and the mapped value is a `Color::Handle`.  The
client colour class stores one `int` and `+`, `-`, `==` act on that `int`,
so a colour handle is modelled as an `Int`.  The default constructed
(null) handle used in `std::pair<IpRange, Handle>()` never compares equal
to a stored handle, so the sentinel pair `tmpPair != Pair()` is modelled by
an `Option`.  A `Container::iterator` is modelled as an index into the
sorted association list; the end iterator is the index `m.length`. -/

/-- One entry of the `IpMap` container: a colored segment. -/
structure Seg where
  rng : IpRange
  col : Int
deriving DecidableEq, Repr

/-- The `IpMap` container `std::map<IpRange, Handle>` as its sorted entry list. -/
abbrev PMap := List Seg

/-- Embedding of `m_map.lower_bound(range)`: index of the first entry whose
key is not less than `range` in the `IpRange` ordering. -/
def lowerBound (m : PMap) (r : IpRange) : Nat :=
  match m with
  | [] => 0
  | s :: rest => if s.rng.lt r then lowerBound rest r + 1 else 0

/-- Embedding of `std::map::insert(hint, value)` on the sorted list: if the
key is already present the map is unchanged and the returned iterator refers
to the existing entry, otherwise the entry is placed at its sorted position
and the returned iterator refers to it.  (The hint iterator only affects the
cost of the C++ call, never the result, so it is not part of the model.) -/
def mapInsert (m : PMap) (s : Seg) : PMap × Nat :=
  match m with
  | [] => ([s], 0)
  | t :: rest =>
    if s.rng.lt t.rng then (s :: t :: rest, 0)
    else if s.rng = t.rng then (t :: rest, 0)
    else
      let p := mapInsert rest s
      (t :: p.1, p.2 + 1)

/-- State threaded through the three phases of a paint map operation: the
map contents, the iterator `pos`, the saved pair `tmpPair` (`none` models
the default constructed pair), the `isLeftSpan` flag, and `oob`, which
records that the source dereferenced the end iterator (`pos->first` with
`pos == m_map.end()`).  Where the source compares through such a dereference
the model records the access in `oob` and lets the comparison be false,
which is the de-facto behaviour of the original (the end node of the
concrete `std::map` never compares as an overlapping segment). -/
structure PhaseSt where
  m : PMap
  pos : Nat
  tmp : Option Seg
  leftSpan : Bool
  oob : Bool
deriving Repr

/-- Embedding of `IpMap::InsertToMap(lowAddr, highAddr, color, spanMap, pos)`:
insert `[lowAddr, highAddr] -> color` when `lowAddr <= highAddr`, updating
`pos` to the resulting position, and report whether an insert happened. -/
def insertToMap (lowAddr highAddr : Nat) (color : Int) (m : PMap) (pos : Nat) :
    PMap × Nat × Bool :=
  if lowAddr ≤ highAddr then
    let p := mapInsert m ⟨⟨lowAddr, highAddr⟩, color⟩
    (p.1, p.2, true)
  else
    (m, pos, false)

/-- Embedding of `IpMap::LeftSkew(tmpPair, pos, range)`; `pos` refers to the
predecessor segment that straddles `range`.  The overhang left of `range` is
re-inserted with its original colour and `tmpPair` remembers the segment. -/
def leftSkew (range : IpRange) (st : PhaseSt) : PhaseSt :=
  match st.m.get? st.pos with
  | none => { st with oob := true }
  | some t =>
    let m1 := st.m.eraseIdx st.pos
    let r := insertToMap t.rng.low (addrPred range.low) t.col m1 st.pos
    { st with
      m := r.1
      pos := if r.2.2 then r.2.1 + 1 else st.pos
      tmp := some t }

/-- Embedding of `IpMap::Pt_left` (left phase of paint/uncolor): if the
predecessor of `pos` overlaps `range` it is left-skewed, otherwise `pos` is
restored. -/
def ptLeft (range : IpRange) (st : PhaseSt) : PhaseSt :=
  if st.pos = 0 then st
  else
    match st.m.get? (st.pos - 1) with
    | none => { st with oob := true }
    | some pred =>
      if range.hasOverlap pred.rng then leftSkew range { st with pos := st.pos - 1 }
      else st

/-- Embedding of `IpMap::Upt_left` (left phase of unpaint): as `Pt_left` but
the overhang is only touched when the predecessor's colour equals the
operation colour. -/
def uptLeft (range : IpRange) (color : Int) (st : PhaseSt) : PhaseSt :=
  if st.pos = 0 then st
  else
    match st.m.get? (st.pos - 1) with
    | none => { st with oob := true }
    | some pred =>
      if range.hasOverlap pred.rng && pred.col == color then
        leftSkew range { st with pos := st.pos - 1 }
      else st

/-- The erase loop of `IpMap::Pt_middle`:
`while (pos != end && pos->first.IsSubset(range)) pos = m_map.erase(pos);`. -/
def ptMiddleLoop (range : IpRange) : Nat → PMap → Nat → PMap × Nat
  | 0, m, pos => (m, pos)
  | fuel + 1, m, pos =>
    match m.get? pos with
    | none => (m, pos)
    | some s =>
      if s.rng.isSubset range then ptMiddleLoop range fuel (m.eraseIdx pos) pos
      else (m, pos)

/-- Embedding of `IpMap::Pt_middle` (middle phase of paint/uncolor).  After
the erase loop the source tests `range.HasOverlap(pos->first)` without an
end check; when `pos` is the end the model records the out-of-bounds read in
`oob` (see claim C10) and the test is false. -/
def ptMiddle (range : IpRange) (st : PhaseSt) : PhaseSt :=
  let r := ptMiddleLoop range (st.m.length + 1) st.m st.pos
  let st := { st with m := r.1, pos := r.2 }
  match st.m.get? st.pos with
  | none => { st with oob := true }
  | some s =>
    if range.hasOverlap s.rng then { st with tmp := some s, leftSpan := false }
    else st

/-- Embedding of `IpMap::Pt_right` (right phase of paint). -/
def ptRight (range : IpRange) (color : Int) (st : PhaseSt) : PhaseSt :=
  match st.tmp with
  | some t =>
    let st :=
      if st.leftSpan then st
      else { st with m := st.m.eraseIdx st.pos }
    let p := mapInsert st.m ⟨range, color⟩
    let st := { st with m := p.1, pos := p.2 }
    let r := insertToMap (addrSucc range.high) t.rng.high t.col st.m (st.pos + 1)
    { st with m := r.1, pos := r.2.1 }
  | none =>
    let p := mapInsert st.m ⟨range, color⟩
    { st with m := p.1 }

/-- The scan loop of `IpMap::Upt_middle`: contained segments are erased when
their colour equals the operation colour and skipped otherwise. -/
def uptMiddleLoop (range : IpRange) (color : Int) : Nat → PMap → Nat → PMap × Nat
  | 0, m, pos => (m, pos)
  | fuel + 1, m, pos =>
    match m.get? pos with
    | none => (m, pos)
    | some s =>
      if s.rng.isSubset range then
        if s.col == color then uptMiddleLoop range color fuel (m.eraseIdx pos) pos
        else uptMiddleLoop range color fuel m (pos + 1)
      else (m, pos)

/-- Embedding of `IpMap::Upt_middle` (middle phase of unpaint); the final
overlap test dereferences `pos` without an end check, recorded in `oob`. -/
def uptMiddle (range : IpRange) (color : Int) (st : PhaseSt) : PhaseSt :=
  let r := uptMiddleLoop range color (st.m.length + 1) st.m st.pos
  let st := { st with m := r.1, pos := r.2 }
  match st.m.get? st.pos with
  | none => { st with oob := true }
  | some s =>
    if range.hasOverlap s.rng then { st with tmp := some s, leftSpan := false }
    else st

/-- Embedding of `IpMap::Upt_right` (right phase of unpaint/uncolor). -/
def uptRight (range : IpRange) (st : PhaseSt) : PhaseSt :=
  match st.tmp with
  | some t =>
    let st :=
      if st.leftSpan then st
      else { st with m := st.m.eraseIdx st.pos }
    let st := { st with pos := st.pos + 1 }
    let r := insertToMap (addrSucc range.high) t.rng.high t.col st.m st.pos
    { st with m := r.1, pos := r.2.1 }
  | none => st

/-- Upper bound of the first component of a possibly default `Pair`:
the default constructed `IpRange` is `[IpAddr::Min(), IpAddr::Max()]`, so
`(Pair().first).GetUpperBound()` is the maximal address. -/
def pairUpper (p : Option Seg) : Nat :=
  match p with
  | none => addrMax
  | some s => s.rng.high

/-- Embedding of `IpMap::Bd_left` (left phase of blend): a straddling
predecessor is left-skewed and the overlapped part is re-inserted with the
summed colour. -/
def bdLeft (range : IpRange) (color : Int) (st : PhaseSt) : PhaseSt :=
  if st.pos = 0 then st
  else
    match st.m.get? (st.pos - 1) with
    | none => { st with oob := true }
    | some pred =>
      if range.hasOverlap pred.rng then
        let st := leftSkew range { st with pos := st.pos - 1 }
        match st.tmp with
        | none => { st with oob := true }
        | some t =>
          let r := insertToMap range.low (min range.high t.rng.high) (t.col + color) st.m st.pos
          { st with m := r.1, pos := (if r.2.2 then r.2.1 else st.pos) + 1 }
      else st

/-- The loop of `IpMap::Bd_middle` over segments contained in `range`: the
gap before a contained segment is filled with the plain colour and the
segment is replaced by its blend with the colour.  The loop state carries
`lastPair` in addition to the map and the position. -/
def bdMiddleLoop (range : IpRange) (color : Int) :
    Nat → PMap → Nat → Option Seg → Bool → PMap × Nat × Option Seg × Bool
  | 0, m, pos, lastPair, oob => (m, pos, lastPair, oob)
  | fuel + 1, m, pos, lastPair, oob =>
    match m.get? pos with
    | none => (m, pos, lastPair, oob)
    | some s =>
      if s.rng.isSubset range then
        let gapLow :=
          match lastPair with
          | none => range.low
          | some lp => addrSucc lp.rng.high
        let r := insertToMap gapLow (addrPred s.rng.low) color m pos
        let m := r.1
        let pos := if r.2.2 then r.2.1 + 1 else pos
        match m.get? pos with
        | none => (m, pos, lastPair, true)
        | some lp =>
          let m := m.eraseIdx pos
          let r2 := insertToMap lp.rng.low lp.rng.high (lp.col + color) m pos
          bdMiddleLoop range color fuel r2.1 (r2.2.1 + 1) (some lp) oob
      else (m, pos, lastPair, oob)

/-- Embedding of `IpMap::Bd_middle` (middle phase of blend).  After the loop
the source tests `range.HasOverlap(pos->first)` without an end check; the
model records an end dereference in `oob` and lets the test be false, which
routes the fill of the remaining range through the else branch using the
upper bound of `lastPair` (the default pair's upper bound is the maximal
address, whose unchecked `+ 1` wraps to `0`). -/
def bdMiddle (range : IpRange) (color : Int) (st : PhaseSt) : PhaseSt :=
  let r := bdMiddleLoop range color (st.m.length + 1) st.m st.pos st.tmp false
  let m := r.1
  let pos := r.2.1
  let lastPair := r.2.2.1
  let st := { st with m := m, pos := pos, oob := st.oob || r.2.2.2 }
  match st.m.get? st.pos with
  | none =>
    let st := { st with oob := true }
    let r2 := insertToMap (addrSucc (pairUpper lastPair)) range.high color st.m st.pos
    { st with m := r2.1, pos := r2.2.1 }
  | some s =>
    if range.hasOverlap s.rng then
      let st := { st with tmp := some s, leftSpan := false }
      if st.pos ≠ 0 then
        let r2 := insertToMap (addrSucc (pairUpper lastPair)) (addrPred s.rng.low) color st.m st.pos
        { st with m := r2.1, pos := r2.2.1 }
      else st
    else
      let r2 := insertToMap (addrSucc (pairUpper lastPair)) range.high color st.m st.pos
      { st with m := r2.1, pos := r2.2.1 }

/-- Embedding of `IpMap::Bd_right` (right phase of blend). -/
def bdRight (range : IpRange) (color : Int) (st : PhaseSt) : PhaseSt :=
  match st.tmp with
  | some t =>
    let st :=
      if st.leftSpan then st
      else
        let st := { st with m := st.m.eraseIdx st.pos }
        let st := { st with pos := st.pos + 1 }
        let r := insertToMap t.rng.low range.high (t.col + color) st.m st.pos
        { st with m := r.1, pos := r.2.1 }
    if range.high < t.rng.high then
      let st := { st with pos := st.pos + 1 }
      let r := insertToMap (addrSucc range.high) t.rng.high t.col st.m st.pos
      { st with m := r.1, pos := r.2.1 }
    else st
  | none =>
    let p := mapInsert st.m ⟨range, color⟩
    { st with m := p.1 }

/-- Embedding of `IpMap::Ubd_left` (left phase of unblend). -/
def ubdLeft (range : IpRange) (color : Int) (st : PhaseSt) : PhaseSt :=
  if st.pos = 0 then st
  else
    match st.m.get? (st.pos - 1) with
    | none => { st with oob := true }
    | some pred =>
      if range.hasOverlap pred.rng then
        let st := leftSkew range { st with pos := st.pos - 1 }
        match st.tmp with
        | none => { st with oob := true }
        | some t =>
          let r := insertToMap range.low (min range.high t.rng.high) (t.col - color) st.m st.pos
          { st with m := r.1, pos := if r.2.2 then r.2.1 + 1 else st.pos }
      else st

/-- The loop of `IpMap::Ubd_middle`: each contained segment is replaced by
the segment with the colour subtracted. -/
def ubdMiddleLoop (range : IpRange) (color : Int) : Nat → PMap → Nat → PMap × Nat
  | 0, m, pos => (m, pos)
  | fuel + 1, m, pos =>
    match m.get? pos with
    | none => (m, pos)
    | some s =>
      if s.rng.isSubset range then
        let m := m.eraseIdx pos
        let r := insertToMap s.rng.low s.rng.high (s.col - color) m pos
        ubdMiddleLoop range color fuel r.1 (r.2.1 + 1)
      else (m, pos)

/-- Embedding of `IpMap::Ubd_middle` (middle phase of unblend); the final
overlap test dereferences `pos` without an end check, recorded in `oob`. -/
def ubdMiddle (range : IpRange) (color : Int) (st : PhaseSt) : PhaseSt :=
  let r := ubdMiddleLoop range color (st.m.length + 1) st.m st.pos
  let st := { st with m := r.1, pos := r.2 }
  match st.m.get? st.pos with
  | none => { st with oob := true }
  | some s =>
    if range.hasOverlap s.rng then { st with tmp := some s, leftSpan := false }
    else st

/-- Embedding of `IpMap::Ubd_right` (right phase of unblend). -/
def ubdRight (range : IpRange) (color : Int) (st : PhaseSt) : PhaseSt :=
  match st.tmp with
  | some t =>
    let st :=
      if st.leftSpan then st
      else
        let st := { st with m := st.m.eraseIdx st.pos }
        let st := { st with pos := st.pos + 1 }
        let r := insertToMap t.rng.low range.high (t.col - color) st.m st.pos
        { st with m := r.1, pos := r.2.1 }
    if range.high < t.rng.high then
      let st := { st with pos := st.pos + 1 }
      let r := insertToMap (addrSucc range.high) t.rng.high t.col st.m st.pos
      { st with m := r.1, pos := r.2.1 }
    else st
  | none => st

/-- The inner loop of `IpMap::Coalesce`: starting from `pos`, the index of
the last segment of the maximal run of pairwise adjacent equal-coloured
segments.  When `next_pos` is the end iterator the source dereferences it in
the loop condition; the concrete map's end node never satisfies the
comparison, so the model stops the run there. -/
def coalesceRunEnd (m : PMap) : Nat → Nat → Nat
  | 0, pos => pos
  | fuel + 1, pos =>
    match m.get? pos, m.get? (pos + 1) with
    | some s, some t =>
      if s.rng.high == addrPred t.rng.low && s.col == t.col then
        coalesceRunEnd m fuel (pos + 1)
      else pos
    | _, _ => pos

/-- The outer loop of `IpMap::Coalesce`: each maximal run of adjacent
equal-coloured segments is erased and replaced by the single merged
segment. -/
def coalesceAux (m : PMap) (pos : Nat) : Nat → PMap
  | 0 => m
  | fuel + 1 =>
    match m.get? pos with
    | none => m
    | some first =>
      let e := coalesceRunEnd m (m.length + 1) pos
      if e = pos then coalesceAux m (pos + 1) fuel
      else
        match m.get? e with
        | none => m
        | some last =>
          let m1 := m.take pos ++ m.drop (e + 1)
          let p := mapInsert m1 ⟨IpRange.mk2 first.rng.low last.rng.high, last.col⟩
          coalesceAux p.1 (pos + 1) fuel

/-- Embedding of `IpMap::Coalesce()`. -/
def coalesce (m : PMap) : PMap :=
  coalesceAux m 0 (m.length + 1)

/-- Initial phase state of a single range operation: `pos` is
`m_map.lower_bound(range)`, `tmpPair` is default constructed and
`isLeftSpan` starts `true`. -/
def initSt (range : IpRange) (m : PMap) : PhaseSt :=
  ⟨m, lowerBound m range, none, true, false⟩

/-- Embedding of `IpMap::Paint(range, color)`: the three `Pt` phases
followed by `Coalesce()`.  (`Pt_left` and `Pt_middle` ignore their colour
argument in the source, so the model omits it.) -/
def Paint (range : IpRange) (color : Int) (m : PMap) : PMap :=
  coalesce (ptRight range color (ptMiddle range (ptLeft range (initSt range m)))).m

/-- Embedding of `IpMap::Unpaint(range, color)`: the three `Upt` phases.
The source does **not** call `Coalesce()` here. -/
def Unpaint (range : IpRange) (color : Int) (m : PMap) : PMap :=
  (uptRight range (uptMiddle range color (uptLeft range color (initSt range m)))).m

/-- Embedding of `IpMap::UnColor(range)`: `Pt_left`, `Pt_middle`,
`Upt_right` with a default constructed (null) colour handle, which none of
those three phases reads.  The source does **not** call `Coalesce()` here. -/
def UnColor (range : IpRange) (m : PMap) : PMap :=
  (uptRight range (ptMiddle range (ptLeft range (initSt range m)))).m

/-- Embedding of `IpMap::Blend(range, color)`: the three `Bd` phases
followed by `Coalesce()`. -/
def Blend (range : IpRange) (color : Int) (m : PMap) : PMap :=
  coalesce (bdRight range color (bdMiddle range color (bdLeft range color (initSt range m)))).m

/-- Embedding of `IpMap::Unblend(range, color)`: the three `Ubd` phases
followed by `Coalesce()`. -/
def Unblend (range : IpRange) (color : Int) (m : PMap) : PMap :=
  coalesce (ubdRight range color (ubdMiddle range color (ubdLeft range color (initSt range m)))).m

/-- Whether `Pt_middle` (as used by `Paint` and `UnColor`) reaches its final
overlap test `range.HasOverlap(pos->first)` with `pos == m_map.end()`, i.e.
dereferences the end iterator. -/
def paintMidOob (range : IpRange) (m : PMap) : Bool :=
  (ptMiddle range (ptLeft range (initSt range m))).oob

/-- Whether `Upt_middle` (as used by `Unpaint`) reaches its final overlap
test with `pos == m_map.end()`. -/
def unpaintMidOob (range : IpRange) (color : Int) (m : PMap) : Bool :=
  (uptMiddle range color (uptLeft range color (initSt range m))).oob

/-- Whether `Bd_middle` (as used by `Blend`) reaches its final overlap test
with `pos == m_map.end()`. -/
def blendMidOob (range : IpRange) (color : Int) (m : PMap) : Bool :=
  (bdMiddle range color (bdLeft range color (initSt range m))).oob

/-- Whether `Ubd_middle` (as used by `Unblend`) reaches its final overlap
test with `pos == m_map.end()`. -/
def unblendMidOob (range : IpRange) (color : Int) (m : PMap) : Bool :=
  (ubdMiddle range color (ubdLeft range color (initSt range m))).oob

/-- Well formedness of one stored segment: a non-empty interval of 32 bit
addresses. -/
def segOK (s : Seg) : Bool :=
  s.rng.low ≤ s.rng.high && s.rng.high ≤ addrMax

/-- The paint map invariants stated by the specification: all segments are
non-empty and pairwise disjoint, ordered by lower bound, and no two adjacent
segments carry an equal colour. -/
def pmInv : PMap → Bool
  | [] => true
  | [s] => segOK s
  | s :: t :: rest =>
    segOK s && s.rng.high < t.rng.low &&
      !(s.rng.high + 1 == t.rng.low && s.col == t.col) && pmInv (t :: rest)

/-! ### `Cn::IpSet` (src/cnip/cnip.h, src/cnip/cn-ip.cpp)

`IpSet` stores a `std::set<IpRange>` keyed by `operator <` on `IpRange`;
the set is modelled as its sorted element list and iterators as indices. -/

/-- The container of `Cn::IpSet`. -/
abbrev RSet := List IpRange

/-- Embedding of `std::set<IpRange>::insert(hint, value)`: no change when
the key is present; the returned iterator refers to the (inserted or
already present) element. -/
def setInsert (s : RSet) (r : IpRange) : RSet × Nat :=
  match s with
  | [] => ([r], 0)
  | t :: rest =>
    if r.lt t then (r :: t :: rest, 0)
    else if r = t then (t :: rest, 0)
    else
      let p := setInsert rest r
      (t :: p.1, p.2 + 1)

/-- Embedding of `IpRange::CalcOverlap(out, src)` in the case where the
overlap is known to be non-empty:
`out.m_high = min(m_high, src.m_high); out.m_low = max(src.m_low, m_low)`. -/
def calcOverlap (tmp range : IpRange) : IpRange :=
  ⟨max range.low tmp.low, min tmp.high range.high⟩

/-- Loop body iteration of `IpSet::Remove(const IpRange&)` with an explicit
iteration budget.  One pass of the source loop either advances the
iterator or erases the overlapping element and re-inserts fragments; note
that both fragment inserts in the source use
`IpRange(tmpRange.GetLowerBound(), overlap.GetLowerBound() - 1)` — the
second one (meant to be the upper fragment) re-inserts the *lower*
fragment, and it is skipped entirely when the iterator has reached the
end.  The source loop does not terminate for some inputs; the fuel models
its iteration budget and is chosen large enough for the inputs evaluated
here. -/
def ipSetRemoveAux (range : IpRange) : Nat → RSet → Nat → RSet
  | 0, s, _ => s
  | fuel + 1, s, iter =>
    match s.get? iter with
    | none => s
    | some cur =>
      if cur.hasOverlap range then
        let tmp := cur
        let s := s.eraseIdx iter
        let overlap := calcOverlap tmp range
        let lowFrag := IpRange.mk2 tmp.low (addrPred overlap.low)
        let p :=
          if tmp.low ≤ addrPred overlap.low then
            let q := setInsert s lowFrag
            (q.1, q.2 + 1)
          else (s, iter)
        let s := p.1
        let iter := p.2
        if iter ≠ s.length ∧ addrSucc overlap.high ≤ tmp.high then
          let q := setInsert s (IpRange.mk2 tmp.low (addrPred overlap.low))
          ipSetRemoveAux range fuel q.1 q.2
        else
          ipSetRemoveAux range fuel s iter
      else
        ipSetRemoveAux range fuel s (iter + 1)

/-- Embedding of `IpSet::Remove(const IpRange& range)`. -/
def ipSetRemove (range : IpRange) (s : RSet) : RSet :=
  ipSetRemoveAux range (4 * s.length + 4) s 0

/-! ### `ngeo::interval` (src/include/ngeo/interval.hpp)

The template is instantiated at a numeric metric; `Nat` stands for the
metric type.  Fields `_min` and `_max` are `imin` and `imax`. -/

/-- Embedding of `ngeo::interval<T>`. -/
structure NInterval where
  imin : Nat
  imax : Nat
deriving DecidableEq, Repr

/-- Embedding of the standard constructor `interval(x1, x2)`, which sorts
the two arguments (`_min(std::min(x1,x2)), _max(std::max(x1,x2))`). -/
def NInterval.mk2 (x1 x2 : Nat) : NInterval :=
  ⟨min x1 x2, max x1 x2⟩

/-- Embedding of `interval::has_intersection(that)`:
`(that._min <= _min && _min <= that._max) || (_min <= that._min && that._min <= _max)`. -/
def NInterval.hasIntersection (a that : NInterval) : Bool :=
  (that.imin ≤ a.imin && a.imin ≤ that.imax) ||
    (a.imin ≤ that.imin && that.imin ≤ a.imax)

/-- Embedding of `interval::intersection(that)`:
`self(std::max(_min, that._min), std::min(_max, that._max))` — built with
the sorting two argument constructor. -/
def NInterval.intersection (a that : NInterval) : NInterval :=
  NInterval.mk2 (max a.imin that.imin) (min a.imax that.imax)

/-- Embedding of `interval::is_empty()`: `_min > _max`. -/
def NInterval.isEmpty (a : NInterval) : Bool :=
  a.imax < a.imin

/-- Embedding of `interval::hull(that)`: empty inputs are absorbed,
otherwise the componentwise min / max interval. -/
def NInterval.hull (a that : NInterval) : NInterval :=
  if a.isEmpty then that
  else if that.isEmpty then a
  else ⟨min a.imin that.imin, max a.imax that.imax⟩

/-! ### IPv4 network generator (src/src/ip_base.cpp, src/include/ngeo/ip_base.hpp) -/

/-- Embedding of the loop of `ip4_addr::lsb_count(false)`: count the bits
from the LSB up that are zero, stopping at the first set bit or at
`WIDTH = 32`. -/
def lsbCountAux (a : Nat) : Nat → Nat → Nat
  | 0, zret => zret
  | fuel + 1, zret => if a.testBit zret then zret else lsbCountAux a fuel (zret + 1)

/-- Embedding of `ip4_addr::lsb_count(false)`. -/
def lsbCount (a : Nat) : Nat :=
  lsbCountAux a 32 0

/-- Embedding of `ip4_mask::host_order()`:
`_count ? ~0 << (WIDTH - _count) : 0`, computed in 32 bit unsigned
arithmetic (the shifted value is reduced modulo `2 ^ 32`). -/
def maskHost (c : Nat) : Nat :=
  if c = 0 then 0 else ((2 ^ 32 - 1) * 2 ^ (32 - c)) % 2 ^ 32

/-- Bitwise complement of a 32 bit value (`~x`): for `x < 2 ^ 32` this is
`2 ^ 32 - 1 - x`. -/
def addrNot (x : Nat) : Nat :=
  addrMax - x

/-- Embedding of `ip4_net`: the network address and the mask bit count. -/
structure Ip4Net where
  addr : Nat
  maskCount : Nat
deriving DecidableEq, Repr

/-- Embedding of `ip4_net::set(addr, mask)`: the stored address is
`addr & mask`. -/
def ip4netSet (a c : Nat) : Ip4Net :=
  ⟨a &&& maskHost c, c⟩

/-- Embedding of `ip4_net::max_addr()`: `m_addr | ~m_mask`. -/
def Ip4Net.maxAddr (n : Ip4Net) : Nat :=
  n.addr ||| addrNot (maskHost n.maskCount)

/-- The shrink loop of `ip4_range::extract_next_network`:
`while (net.max_addr() > _max) net = ip4_net(_min, net.mask() >> 1);`.
`mask >> 1` adds one to the bit count, clamped to 32
(`ip4_mask::bounded_count`).  The loop runs at most 33 times because at
count 32 the network is the single address `_min <= _max`. -/
def shrinkNet (lo hi : Nat) : Nat → Ip4Net → Ip4Net
  | 0, net => net
  | fuel + 1, net =>
    if hi < net.maxAddr then shrinkNet lo hi fuel (ip4netSet lo (min 32 (net.maskCount + 1)))
    else net

/-- Embedding of the non-empty-range body of
`ip4_range::extract_next_network(net)`: emit the extracted network and the
remaining range (`none` when the range is exhausted, i.e. the source
assigns the empty `ip4_range()`). -/
def extractNextNetwork (lo hi : Nat) : Ip4Net × Option (Nat × Nat) :=
  let width := lsbCount lo
  let net := shrinkNet lo hi 33 (ip4netSet lo (32 - width))
  let newMin := net.maxAddr
  if newMin = hi then (net, none) else (net, some (addrSucc newMin, hi))

/-- The network cover of `[lo, hi]` produced by iterating
`ip4_net_generator` (`operator++` calls `extract_next_network` until the
remaining range is empty).  The fuel bounds the number of emitted networks;
each step strictly shrinks the remaining range, so `hi + 1 - lo` steps
always suffice. -/
def genNetsAux (hi : Nat) : Nat → Nat → List Ip4Net
  | 0, _ => []
  | fuel + 1, lo =>
    let r := extractNextNetwork lo hi
    r.1 ::
      (match r.2 with
      | none => []
      | some p => genNetsAux hi fuel p.1)

/-- The full network cover sequence generated for the range `[lo, hi]`
(`copy(r.net_begin(), r.net_end(), ...)`); the empty range generates
nothing. -/
def genNets (lo hi : Nat) : List Ip4Net :=
  if lo ≤ hi then genNetsAux hi (hi + 1 - lo) lo else []

/-- Specification-side membership: the address `a` lies in the network `n`
(the network's address block is `[n.addr, n.maxAddr]`). -/
def netContains (n : Ip4Net) (a : Nat) : Prop :=
  n.addr ≤ a ∧ a ≤ n.maxAddr

/-- Specification-side predicate: the address span `[lo, hi]` is exactly
the block of one CIDR network, i.e. its size is a power of two and its
base is aligned to that size. -/
def isCidrSpan (lo hi : Nat) : Prop :=
  lo ≤ hi ∧ ∃ k, k ≤ 32 ∧ hi + 1 - lo = 2 ^ k ∧ 2 ^ k ∣ lo

/-- Specification-side predicate: two consecutive networks (the second
starting right after the first) can be unioned into a single network. -/
def netsUnionable (m n : Ip4Net) : Prop :=
  isCidrSpan m.addr n.maxAddr

/-- Characterisation of the network list the generator emits for the
remaining range `[lo, hi]`: the head is the maximal aligned network based
at `lo` that fits, and the tail covers the rest.  The third-to-last clause
records the greedy maximality used for the minimal-cover argument. -/
def coverChain (hi : Nat) : Nat → List Ip4Net → Prop
  | _, [] => False
  | lo, n :: rest =>
    ∃ k, k ≤ 32 ∧ 2 ^ k ∣ lo ∧ n = ⟨lo, 32 - k⟩ ∧
      n.maxAddr = lo + 2 ^ k - 1 ∧ lo + 2 ^ k - 1 ≤ hi ∧
      ((2 ^ (k + 1) ∣ lo ∧ k + 1 ≤ 32) → hi < lo + 2 ^ (k + 1) - 1) ∧
      (if lo + 2 ^ k - 1 = hi then rest = [] else coverChain hi (lo + 2 ^ k) rest)

/-! ### Flowspace layer: augmented red-black tree with cached subtree hulls

The outer tree of a flowspace layer (`layer::node` over `imp::node_base`)
keyed by the interval minimum (`m_metric`), with the inner map `m_maxima`
keyed by interval maxima and a cached convex hull `m_sti` of all intervals
in the subtree.  Payloads do not enter the hull bookkeeping and are omitted.
The pointer structure is modelled as a tree plus explicit path contexts
(zippers); the threaded `m_next` list is maintained by the source so that
the successor of a node with a right child is the leftmost node of the
right subtree, which is how the model computes it. -/

/-- Data of one outer-tree node: colour (`red = true` for RED), `m_metric`,
the sorted key list of `m_maxima`, and the cached hull `m_sti` as a
`(min, max)` pair. -/
structure NodeData where
  red : Bool
  metric : Int
  maxima : List Int
  sti : Int × Int
deriving Repr, DecidableEq

/-- The outer search tree of a flowspace layer. -/
inductive FT where
  | nil : FT
  | node (d : NodeData) (l r : FT) : FT
deriving Repr, DecidableEq

/-- `m_maxima.rbegin()->first`: the greatest key of the inner map.  The
source asserts the map is non-empty where this is read; the default value
never arises on such nodes. -/
def localMax (d : NodeData) : Int := d.maxima.getLast?.getD d.metric

/-- `local_interval()`: `[m_metric, m_maxima.rbegin()->first]`. -/
def localHull (d : NodeData) : Int × Int := (d.metric, localMax d)

/-- Interval hull `|=` of two `(min, max)` pairs. -/
def hullU (a b : Int × Int) : Int × Int := (min a.1 b.1, max a.2 b.2)

/-- The cached hull at the root of a subtree, if any. -/
def stiOf : FT → Option (Int × Int)
  | .nil => none
  | .node d _ _ => some d.sti

/-- Extend a hull by an optional child hull (`if (lc) m_sti |= ...`). -/
def hullO (s : Int × Int) : Option (Int × Int) → Int × Int
  | none => s
  | some x => hullU s x

/-- The `structure_fixup()` value: start from the local interval, extend by
the left child's cached hull, then by the right child's. -/
def fixStiO (d : NodeData) (lsti rsti : Option (Int × Int)) : Int × Int :=
  hullO (hullO (localHull d) lsti) rsti

def fixSti (d : NodeData) (l r : FT) : Int × Int := fixStiO d (stiOf l) (stiOf r)

def fixD (d : NodeData) (l r : FT) : NodeData := { d with sti := fixSti d l r }

/-- `structure_fixup()` applied at the root of a subtree. -/
def refixRoot : FT → FT
  | .nil => .nil
  | .node d l r => .node (fixD d l r) l r

def recolorRoot : FT → Bool → FT
  | .nil, _ => .nil
  | .node d l r, c => .node { d with red := c } l r

/-- Colour test treating NIL as BLACK (`operator == (handle, color)`). -/
def rootRed : FT → Bool
  | .nil => false
  | .node d _ _ => d.red

/-- The subtree hull invariant of the specification: every node's cached
`m_sti` equals the `structure_fixup` value computed from its local interval
and its children's cached hulls. -/
def hullInvB : FT → Bool
  | .nil => true
  | .node d l r => (d.sti == fixSti d l r) && hullInvB l && hullInvB r

/-- One level of a path context: the data of an ancestor, which side the
path descends (`hl = true`: the hole is the left child) and the sibling
subtree on the other side. -/
structure Frame where
  d : NodeData
  hl : Bool
  other : FT
deriving Repr, DecidableEq

def plugF (t : FT) (f : Frame) : FT :=
  if f.hl then .node f.d t f.other else .node f.d f.other t

/-- Reassemble a subtree from a focus and frames listed outermost first. -/
def plugOI (t : FT) : List Frame → FT
  | [] => t
  | f :: rest => plugF (plugOI t rest) f

/-- Reassemble the whole tree from a focus and frames listed innermost
first. -/
def plugAll (t : FT) : List Frame → FT
  | [] => t
  | f :: rest => plugAll (plugF t f) rest

/-- `ripple_structure_fixup` along a context (innermost first): plug one
level at a time, running `structure_fixup` at each node bottom-up. -/
def rippleCtx (t : FT) : List Frame → FT
  | [] => t
  | f :: rest => rippleCtx (refixRoot (plugF t f)) rest

/-- The cached hull at the root of the fragment `plugOI t below`. -/
def fragSti (t : FT) : List Frame → Option (Int × Int)
  | [] => stiOf t
  | f :: _ => some f.d.sti

/-- `node_base::rotate` on a whole subtree, promoting the `near`-side child
(`nearLeft = true`: near is left).  Used where the rotation point is off
the rebalance path (`protected_rotate(w, far, ...)`).  Fixups run in source
order: the promoted node first — reading the demoted node's old cached
hull — then the demoted node.  If there is no child to promote the
rotation fails and the subtree is unchanged. -/
def rotTree (w : FT) (nearLeft : Bool) : FT :=
  match w with
  | .nil => .nil
  | .node wD wl wr =>
    match nearLeft, wl, wr with
    | true, .node ncD ncl ncr, farC =>
      .node { ncD with sti := fixStiO ncD (stiOf ncl) (some wD.sti) } ncl
        (.node { wD with sti := fixStiO wD (stiOf ncr) (stiOf farC) } ncr farC)
    | false, farC, .node ncD ncl ncr =>
      .node { ncD with sti := fixStiO ncD (some wD.sti) (stiOf ncr) }
        (.node { wD with sti := fixStiO wD (stiOf farC) (stiOf ncl) } farC ncl)
        ncr
    | true, .nil, _ => .node wD wl wr
    | false, _, .nil => .node wD wl wr

/-- `rotate(near)` at the parent of the rebalance position, promoting the
sibling `w = pF.other`; `nSti` is the cached hull of the current child on
the hole side (`none` for the NIL pseudo-leaf).  Returns the two frames
that replace the parent frame (parent frame first, i.e. innermost).
Fixups in source order: the promoted `w` first — reading the parent's old
cached hull — then the parent.  `none` when `w` is NIL (the source asserts
`w`). -/
def rotUpSib (pF : Frame) (nSti : Option (Int × Int)) : Option (Frame × Frame) :=
  match pF.other with
  | .nil => none
  | .node wD wl wr =>
    if pF.hl then
      some (⟨{ pF.d with sti := fixStiO pF.d nSti (stiOf wl) }, true, wl⟩,
        ⟨{ wD with sti := fixStiO wD (some pF.d.sti) (stiOf wr) }, true, wr⟩)
    else
      some (⟨{ pF.d with sti := fixStiO pF.d (stiOf wr) nSti }, false, wr⟩,
        ⟨{ wD with sti := fixStiO wD (stiOf wl) (some pF.d.sti) }, false, wl⟩)

/-- Path rotation during insert rebalancing: rotation at the node of frame
`bF`, promoting its hole-side child, which is the fragment `plugOI t below`
containing the focus (the inserted node).  `bF` is consumed into the
returned frame list.  Fixups in source order: the promoted node first —
reading the demoted node's old cached hull — then the demoted node. -/
def rotUpPath (t : FT) (below : List Frame) (bF : Frame) : FT × List Frame :=
  match below with
  | [] =>
    match t with
    | .nil => (.nil, bF :: below)
    | .node aD al ar =>
      if bF.hl then
        (.node { aD with sti := fixStiO aD (stiOf al) (some bF.d.sti) } al
          (.node { bF.d with sti := fixStiO bF.d (stiOf ar) (stiOf bF.other) } ar bF.other), [])
      else
        (.node { aD with sti := fixStiO aD (some bF.d.sti) (stiOf ar) }
          (.node { bF.d with sti := fixStiO bF.d (stiOf bF.other) (stiOf al) } bF.other al)
          ar, [])
  | aF :: rest =>
    if aF.hl = (!bF.hl) then
      let aD1 :=
        if bF.hl then { aF.d with sti := fixStiO aF.d (stiOf aF.other) (some bF.d.sti) }
        else { aF.d with sti := fixStiO aF.d (some bF.d.sti) (stiOf aF.other) }
      let bD2 :=
        if bF.hl then { bF.d with sti := fixStiO bF.d (fragSti t rest) (stiOf bF.other) }
        else { bF.d with sti := fixStiO bF.d (stiOf bF.other) (fragSti t rest) }
      (t, ⟨aD1, !bF.hl, aF.other⟩ :: ⟨bD2, bF.hl, bF.other⟩ :: rest)
    else
      let aD1 :=
        if aF.hl then { aF.d with sti := fixStiO aF.d (fragSti t rest) (some bF.d.sti) }
        else { aF.d with sti := fixStiO aF.d (some bF.d.sti) (fragSti t rest) }
      if bF.hl then
        (t, ⟨aD1, aF.hl,
          FT.node { bF.d with sti := fixStiO bF.d (stiOf aF.other) (stiOf bF.other) }
            aF.other bF.other⟩ :: rest)
      else
        (t, ⟨aD1, aF.hl,
          FT.node { bF.d with sti := fixStiO bF.d (stiOf bF.other) (stiOf aF.other) }
            bF.other aF.other⟩ :: rest)

/-- Recolour the root of the fragment `plugOI t below`. -/
def recolorFrag (t : FT) (below : List Frame) (c : Bool) : FT × List Frame :=
  match below with
  | [] => (recolorRoot t c, [])
  | f :: rest => (t, ⟨{ f.d with red := c }, f.hl, f.other⟩ :: rest)

/-- The `while` loop of `rebalance_after_insert`, tracked on a zipper of
the inserted node: `below` holds the frames between the inserted node and
the imbalance node `x` (outermost first, so `plugOI t below` is `x`'s
subtree) and `above` is `x`'s context (innermost first).  After either
rotation branch the loop condition is false (the new parent of `x` was
just coloured black), so the model returns directly. -/
def insLoop : Nat → FT → List Frame → List Frame → FT × List Frame × List Frame
  | 0, t, below, above => (t, below, above)
  | fuel + 1, t, below, above =>
    match above with
    | [] => (t, below, [])
    | pF :: above1 =>
      if !pF.d.red then (t, below, pF :: above1)
      else
        match above1 with
        | [] => (t, below, pF :: above1)
        | gF :: above2 =>
          if rootRed gF.other then
            let pF1 : Frame := ⟨{ pF.d with red := false }, pF.hl, pF.other⟩
            let gF1 : Frame := ⟨{ gF.d with red := true }, gF.hl, recolorRoot gF.other false⟩
            insLoop fuel t (gF1 :: pF1 :: below) above2
          else
            if pF.hl ≠ gF.hl then
              let r1 := rotUpPath t below pF
              let r2 := recolorFrag r1.1 r1.2 false
              let gF1 : Frame := ⟨{ gF.d with red := true }, gF.hl, gF.other⟩
              let r3 := rotUpPath r2.1 r2.2 gF1
              (r3.1, r3.2, above2)
            else
              let pF1 : Frame := ⟨{ pF.d with red := false }, pF.hl, pF.other⟩
              let gF1 : Frame := ⟨{ gF.d with red := true }, gF.hl, gF.other⟩
              let r1 := rotUpPath t (pF1 :: below) gF1
              (r1.1, r1.2, above2)

/-- `rebalance_after_insert` on the freshly inserted node: the loop, then
`ripple_structure_fixup` from the inserted node, then `root->m_color =
BLACK`. -/
def rebalAfterInsert (t : FT) (ctx : List Frame) : FT :=
  let r := insLoop (ctx.length + 1) t [] ctx
  recolorRoot (rippleCtx (refixRoot r.1) (r.2.1.reverse ++ r.2.2)) false

/-- The terminal rotation: rotate the parent away promoting the sibling of
frame `fr`; on the (asserted) NIL sibling the state is left with the
fallback frame `fb`. -/
def sibRotateOut (nSti : Option (Int × Int)) (nT : FT) (below : List Frame) (fr fb : Frame)
    (above1 : List Frame) : FT × List Frame × List Frame :=
  match rotUpSib fr nSti with
  | some (pF4, wF4) => (nT, below, pF4 :: wF4 :: above1)
  | none => (nT, below, fb :: above1)

/-- The terminal cases (the source's final `else`) of one iteration of the
`rebalance_after_remove` loop: recolour the sibling (possibly replaced by a
`w = parent->get_child(far)` reload after the inner rotation), rotate the
parent away in the `near` direction, and break. -/
def remCaseD (nSti : Option (Int × Int)) (nT : FT) (below : List Frame) (pF3 : Frame)
    (above1 : List Frame) : FT × List Frame × List Frame :=
  match pF3.other with
  | .nil => (nT, below, pF3 :: above1)
  | .node vD vl vr =>
    let vRe :=
      if pF3.hl then FT.node { vD with red := pF3.d.red } vl (recolorRoot vr false)
      else FT.node { vD with red := pF3.d.red } (recolorRoot vl false) vr
    sibRotateOut nSti nT below ⟨{ pF3.d with red := false }, pF3.hl, vRe⟩ pF3 above1

/-- The body of one iteration of the `rebalance_after_remove` loop after the
red-sibling pre-rotation: either both of the sibling's children are black
(recolour and climb, via `rec`), or the near child is red (inner rotation
at the sibling) followed by the terminal rotation at the parent. -/
def remTail (rec : List Frame → List Frame → FT × List Frame × List Frame)
    (nT : FT) (below : List Frame) (pF : Frame) (above1 : List Frame) :
    FT × List Frame × List Frame :=
  match pF.other with
  | .nil => (nT, below, pF :: above1)
  | .node wD wl wr =>
    let wNear := if pF.hl then wl else wr
    let wFar := if pF.hl then wr else wl
    if !rootRed wNear && !rootRed wFar then
      rec (⟨pF.d, pF.hl, recolorRoot (.node wD wl wr) true⟩ :: below) above1
    else
      let pF3 : Frame :=
        if !rootRed wFar then
          let wRe :=
            if pF.hl then FT.node { wD with red := true } (recolorRoot wl false) wr
            else FT.node { wD with red := true } wl (recolorRoot wr false)
          ⟨pF.d, pF.hl, rotTree wRe pF.hl⟩
        else ⟨pF.d, pF.hl, .node wD wl wr⟩
      remCaseD (fragSti nT below) nT below pF3 above1

/-- The red-sibling pre-rotation (`if (w->m_color == RED)`): recolour,
rotate the parent away, reload the sibling, and continue the iteration via
`remTail`. -/
def sibRotateIn (rec : List Frame → List Frame → FT × List Frame × List Frame)
    (nSti : Option (Int × Int)) (nT : FT) (below : List Frame) (fr fb : Frame)
    (above0 : List Frame) : FT × List Frame × List Frame :=
  match rotUpSib fr nSti with
  | some (pF1, wF1) => remTail rec nT below pF1 (wF1 :: above0)
  | none => remTail rec nT below fb above0

/-- Colour of the rebalance position `n = plugOI t below`: the outermost
frame of `below` if any, else the focus root (`n == RED`; NIL is black). -/
def fragRed (t : FT) : List Frame → Bool
  | [] => rootRed t
  | f :: _ => f.d.red

/-- The `while (parent)` loop of `rebalance_after_remove`, tracked on a
zipper of the rebalance position `n`: `below` holds the frames between the
original splice node (the ripple source) and `n` (outermost first; `nT` is
NIL below a cleared slot) and `above` is `n`'s context (innermost first).
The `n == RED` test reads the colour of the current rebalance position
(`fragRed`) and recolours that node.  A NIL sibling (the source asserts
`w`) stops the loop. -/
def remLoop : Nat → FT → List Frame → List Frame → FT × List Frame × List Frame
  | 0, nT, below, above => (nT, below, above)
  | fuel + 1, nT, below, above =>
    match above with
    | [] => (nT, below, [])
    | pF0 :: above0 =>
      if fragRed nT below then
        let r := recolorFrag nT below false
        (r.1, r.2, pF0 :: above0)
      else
        match pF0.other with
        | .nil => (nT, below, pF0 :: above0)
        | .node _ _ _ =>
          if rootRed pF0.other then
            sibRotateIn (remLoop fuel nT) (fragSti nT below) nT below
              ⟨{ pF0.d with red := true }, pF0.hl, recolorRoot pF0.other false⟩ pF0 above0
          else remTail (remLoop fuel nT) nT below pF0 above0

/-- `rebalance_after_remove(c, d)` followed by the final
`ripple_structure_fixup` from the original splice node: the loop runs only
when the removed colour was BLACK. -/
def rebalAfterRemove (removedRed : Bool) (nT : FT) (below above : List Frame) : FT :=
  let r :=
    if removedRed then (nT, below, above)
    else remLoop (2 * above.length + 4) nT below above
  rippleCtx (refixRoot r.1) (r.2.1.reverse ++ r.2.2)

/-- Descend to the leftmost node, accumulating frames (innermost first). -/
def leftmostZ : FT → List Frame → FT × List Frame
  | .nil, ctx => (.nil, ctx)
  | .node d .nil r, ctx => (.node d .nil r, ctx)
  | .node d (.node dl ll lr) r, ctx => leftmostZ (.node dl ll lr) (⟨d, true, r⟩ :: ctx)

/-- `node_base::remove()` on a zipper focused at the node to remove, plus
the caller's final `root->m_color = BLACK`.  The in-order successor of a
node with a right child (threaded `m_next`) is the leftmost node of the
right subtree.  `replace_with` copies only the colour to the promoted node
and unconditionally clears the promoted node's own children.  When the
physically removed node is childless (`d != NONE`), `rebalance_after_remove`
starts with the NIL pseudo-leaf as the rebalance position, so the splice
parent's frame heads the loop's `above` context and the sibling logic of
the first iteration runs at the splice parent. -/
def nodeRemove (dthis : NodeData) (l r : FT) (ctx : List Frame) : FT :=
  match ctx, l, r with
  | [], .nil, rr => recolorRoot rr false
  | [], .node dl a b, .nil => recolorRoot (.node dl a b) false
  | _, _, _ =>
    match l, r with
    | .node dl la lb, .node dr ra rb =>
      match leftmostZ (.node dr ra rb) [] with
      | (.node ds _ sr, ctxS) =>
        let newThisD : NodeData := { ds with red := dthis.red }
        match sr with
        | .node srD _ _ =>
          recolorRoot (rebalAfterRemove srD.red (.node { srD with red := ds.red } .nil .nil) []
            (ctxS ++ ⟨newThisD, false, .node dl la lb⟩ :: ctx)) false
        | .nil =>
          recolorRoot (rebalAfterRemove ds.red .nil []
            (ctxS ++ ⟨newThisD, false, .node dl la lb⟩ :: ctx)) false
      | (.nil, _) => .nil
    | .node cD _ _, _ =>
      recolorRoot (rebalAfterRemove cD.red (.node { cD with red := dthis.red } .nil .nil) [] ctx) false
    | .nil, .node cD _ _ =>
      recolorRoot (rebalAfterRemove cD.red (.node { cD with red := dthis.red } .nil .nil) [] ctx) false
    | .nil, .nil =>
      match ctx with
      | pf :: rest => recolorRoot (rebalAfterRemove dthis.red .nil [] (pf :: rest)) false
      | [] => .nil

/-- `layer::node::search` by `compare_metric`: a zipper descent.  A found
node is returned with its context; a missing node is returned as a NIL
focus whose context ends at the would-be parent slot. -/
def searchZ : FT → Int → List Frame → FT × List Frame
  | .nil, _, ctx => (.nil, ctx)
  | .node d l r, m, ctx =>
    if m > d.metric then searchZ r m (⟨d, false, l⟩ :: ctx)
    else if m < d.metric then searchZ l m (⟨d, true, r⟩ :: ctx)
    else (.node d l r, ctx)

/-- `std::map` key insert into the sorted key list (no overwrite). -/
def keyInsert : List Int → Int → List Int
  | [], k => [k]
  | x :: xs, k =>
    if k < x then k :: x :: xs
    else if k = x then x :: xs
    else x :: keyInsert xs k

/-- `layer::insert` of a region whose head interval is `[lo, hi]`: an empty
layer gets a fresh black root; a node with the same metric absorbs the key
into its inner map (extending its cached hull) and ripples; otherwise a
fresh red node is attached at the search leaf and the tree is rebalanced
(`insert_child` / `rebalance_after_insert`). -/
def layerInsert (T : FT) (lo hi : Int) : FT :=
  match T with
  | .nil => .node ⟨false, lo, [hi], (lo, hi)⟩ .nil .nil
  | .node d0 l0 r0 =>
    match searchZ (.node d0 l0 r0) lo [] with
    | (.node d l r, ctx) =>
      let d1 := { d with maxima := keyInsert d.maxima hi, sti := hullU d.sti (lo, hi) }
      rippleCtx (refixRoot (.node d1 l r)) ctx
    | (.nil, ctx) =>
      rebalAfterInsert (.node ⟨true, lo, [hi], (lo, hi)⟩ .nil .nil) ctx

/-- Erase of the element `[lo, hi]` through a cursor: the key is removed
from the inner map of the node with metric `lo`; an emptied node is removed
from the tree (`node::remove`), otherwise `ripple_structure_fixup` runs
from the node.  An invalid cursor (no such node) erases nothing. -/
def layerErase (T : FT) (lo hi : Int) : FT :=
  match searchZ T lo [] with
  | (.node d l r, ctx) =>
    let mx := d.maxima.erase hi
    if mx.isEmpty then nodeRemove { d with maxima := mx } l r ctx
    else rippleCtx (refixRoot (.node { d with maxima := mx } l r)) ctx
  | (.nil, _) => T

/-- All sibling subtrees of a context satisfy the hull invariant (the
ancestors' own cached hulls may be stale mid-operation). -/
def framesInv (fs : List Frame) : Prop := ∀ f ∈ fs, hullInvB f.other = true

/-- The children of the focus satisfy the hull invariant; the focus root's
own cached hull may be stale (it is about to be refixed). -/
def almostInv : FT → Prop
  | .nil => True
  | .node _ l r => hullInvB l = true ∧ hullInvB r = true


/-! ### Flowspace layer: region query iteration

`layer::begin(region)` locates the first intersecting node with
`find_intersecting` and then advances with the threaded in-order successor
and `cursor_base::scan`.  Pointer navigation (parent, next) is modelled on
zipper positions `(subtree, context)`; the threaded `m_next` is the
in-order successor. -/

/-- The source's `interval::has_intersection` test, as used through
`operator^`: `a ^ b` where `a` is the query interval. -/
def hitIvl (a b : Int × Int) : Bool :=
  (b.1 ≤ a.1 && a.1 ≤ b.2) || (a.1 ≤ b.1 && b.1 ≤ a.2)

/-- `node::intersects_local(intv)`: `intv ^ local_interval()`. -/
def hitD (q : Int × Int) (d : NodeData) : Bool := hitIvl q (localHull d)

/-- `node::intersects_tree(intv)`: `intv ^ m_sti` (the cached hull). -/
def hitT (q : Int × Int) : FT → Bool
  | .nil => false
  | .node d _ _ => hitIvl q d.sti

/-- A pointer to a node: the subtree it roots plus its context (innermost
first). -/
abbrev Pos : Type := FT × List Frame

/-- The in-order data sequence of a subtree. -/
def inorderD : FT → List NodeData
  | .nil => []
  | .node d l r => inorderD l ++ d :: inorderD r

/-- The data of the nodes that follow the whole subtree at a position, in
order. -/
def afterD : FT → List Frame → List NodeData
  | _, [] => []
  | t, f :: rest => (if f.hl then f.d :: inorderD f.other else []) ++ afterD (plugF t f) rest

/-- Descend to the leftmost node below a position. -/
def leftmostPos : FT → List Frame → Pos
  | .node d (.node dl ll lr) r, ctx => leftmostPos (.node dl ll lr) (⟨d, true, r⟩ :: ctx)
  | t, ctx => (t, ctx)

/-- Descend to the rightmost node below a position (`while (n = get_right())`). -/
def rightmostPos : FT → List Frame → Pos
  | .node d l (.node dr rl rr), ctx => rightmostPos (.node dr rl rr) (⟨d, false, l⟩ :: ctx)
  | t, ctx => (t, ctx)

/-- Ascend until the position is a left child; its parent is the in-order
successor once the right subtree is exhausted. -/
def upSucc : FT → List Frame → Option Pos
  | _, [] => none
  | t, f :: rest => if f.hl then some (plugF t f, rest) else upSucc (plugF t f) rest

/-- The in-order successor (`get_next`, the threaded list). -/
def succPos : Pos → Option Pos
  | (.node d l (.node dr rl rr), ctx) =>
    some (leftmostPos (.node dr rl rr) (⟨d, false, l⟩ :: ctx))
  | (.node d l .nil, ctx) => upSucc (.node d l .nil) ctx
  | (.nil, _) => none

/-- Size of a tree. -/
def sizeFT : FT → Nat
  | .nil => 0
  | .node _ l r => sizeFT l + sizeFT r + 1

/-- Cost of one context frame for the `find_intersecting` walk fuel. -/
def frameCost (f : Frame) : Nat := if f.hl then 4 * sizeFT f.other + 3 else 1

/-- Total fuel for the walk from a state. -/
def ctxCost : List Frame → Nat
  | [] => 0
  | f :: rest => frameCost f + ctxCost rest

/-- The `find_intersecting` walk.  `down = true` is the main loop body at
node `t`; `down = false` is the backtrack loop ascending from `t`.  The
candidate is the position of the best intersecting node seen; node-handle
comparisons (`n == candidate`) are position comparisons.  Backtracking off
the root with a candidate set dereferences the null parent in the source;
it cannot happen (the candidate is always an ancestor of the backtrack),
and the model returns the candidate. -/
def fiWalk (q : Int × Int) : Nat → Bool → FT → List Frame → Option Pos → Option Pos
  | 0, _, _, _, c => c
  | _ + 1, true, .nil, _, c => c
  | fuel + 1, true, .node d l r, ctx, c =>
    if hitD q d then fiWalk q fuel true l (⟨d, true, r⟩ :: ctx) (some (.node d l r, ctx))
    else if hitT q (.node d l r) then
      match l with
      | .node dl ll lr => fiWalk q fuel true (.node dl ll lr) (⟨d, true, r⟩ :: ctx) c
      | .nil => fiWalk q fuel true r (⟨d, false, .nil⟩ :: ctx) c
    else fiWalk q fuel false (.node d l r) ctx c
  | _ + 1, false, _, [], c => c
  | fuel + 1, false, t, f :: rest, c =>
    if c = some (plugF t f, rest) then c
    else
      match f.hl, f.other with
      | true, .node od ol or2 =>
        fiWalk q fuel true (.node od ol or2) (⟨f.d, false, t⟩ :: rest) c
      | true, .nil => fiWalk q fuel false (plugF t f) rest c
      | false, _ => fiWalk q fuel false (plugF t f) rest c

/-- `layer::find_intersecting(intv)` from the root. -/
def findIntersecting (q : Int × Int) (T : FT) : Option Pos :=
  fiWalk q (4 * sizeFT T + 1) true T [] none

/-- The loop of `cursor_base::scan`: at a non-intersecting node either
cancel (`metric > region.max`), or skip a hull-missing subtree by jumping
to its rightmost descendant, and move to the threaded successor. -/
def scanLoop (q : Int × Int) : Nat → Option Pos → Option Pos
  | 0, s => s
  | _ + 1, none => none
  | fuel + 1, some (t, ctx) =>
    match t with
    | .nil => none
    | .node d l r =>
      if hitD q d then some (.node d l r, ctx)
      else if q.2 < d.metric then none
      else
        let p2 := if hitT q (.node d l r) then (.node d l r, ctx) else rightmostPos (.node d l r) ctx
        scanLoop q fuel (succPos p2)

/-- `cursor_base::scan` from the current node position. -/
def scanFrom (q : Int × Int) (T : FT) (p : Pos) : Option Pos :=
  scanLoop q (sizeFT T + 1) (succPos p)

/-- The elements of a node visited for query `q`: the inner map from
`lower_bound(q.min)` on (`node::begin(metric)`), keys paired with the
shared metric. -/
def nodeElems (q : Int × Int) (d : NodeData) : List (Int × Int) :=
  (d.maxima.dropWhile (fun k => decide (k < q.1))).map (fun k => (d.metric, k))

/-- The sequence of intersecting nodes visited by the cursor: the node of
`find_intersecting`, then repeated `scan`. -/
def posStream (q : Int × Int) (T : FT) : Nat → Option Pos → List NodeData
  | 0, _ => []
  | _, none => []
  | _ + 1, some (.nil, _) => []
  | fuel + 1, some (.node d l r, ctx) =>
    d :: posStream q T fuel (scanFrom q T (.node d l r, ctx))

/-- All `(minimum, maximum)` interval pairs a query iteration visits, in
visit order. -/
def visitPairs (q : Int × Int) (T : FT) : List (Int × Int) :=
  ((posStream q T (sizeFT T + 1) (findIntersecting q T)).map (nodeElems q)).flatten

/-- All stored interval pairs in tree order. -/
def inorderPairs (T : FT) : List (Int × Int) :=
  ((inorderD T).map (fun d => d.maxima.map (fun k => (d.metric, k)))).flatten

/-- Well-formedness of a layer tree within optional metric bounds: strict
binary-search order on metrics, each inner map non-empty and sorted with
keys at least the metric (`is_valid` intervals). -/
def wfT (lo hi : Option Int) : FT → Prop
  | .nil => True
  | .node d l r =>
    (∀ a, lo = some a → a < d.metric) ∧ (∀ b, hi = some b → d.metric < b) ∧
    d.maxima ≠ [] ∧ d.maxima.Chain' (· ≤ ·) ∧ (∀ k ∈ d.maxima, d.metric ≤ k) ∧
    wfT lo (some d.metric) l ∧ wfT (some d.metric) hi r


/-- The data of the nodes that precede the whole subtree at a position. -/
def beforeD : FT → List Frame → List NodeData
  | _, [] => []
  | t, f :: rest => beforeD (plugF t f) rest ++ (if f.hl then [] else inorderD f.other ++ [f.d])

/-- Fuel measure of a `find_intersecting` walk state. -/
def fiMu (mode : Bool) (t : FT) (ctx : List Frame) : Nat :=
  (if mode then 4 * sizeFT t + 1 else 0) + ctxCost ctx

/-- Inner-map well-formedness of one node: non-empty, sorted, keys at least
the metric. -/
def dOK (d : NodeData) : Prop :=
  d.maxima ≠ [] ∧ List.Chain' (· ≤ ·) d.maxima ∧ ∀ k ∈ d.maxima, d.metric ≤ k

/-- Specification: the first intersecting position inside a subtree, in
order. -/
def firstHitIn (q : Int × Int) : FT → List Frame → Option Pos
  | .nil, _ => none
  | .node d l r, ctx =>
    match firstHitIn q l (⟨d, true, r⟩ :: ctx) with
    | some p => some p
    | none =>
      if hitD q d then some (.node d l r, ctx)
      else firstHitIn q r (⟨d, false, l⟩ :: ctx)

/-- Specification: the first intersecting position strictly after the whole
subtree at a position. -/
def firstHitAfter (q : Int × Int) : FT → List Frame → Option Pos
  | _, [] => none
  | t, f :: rest =>
    if f.hl then
      if hitD q f.d then some (plugF t f, rest)
      else
        match firstHitIn q f.other (⟨f.d, false, t⟩ :: rest) with
        | some p => some p
        | none => firstHitAfter q (plugF t f) rest
    else firstHitAfter q (plugF t f) rest

/-- First-some choice of two optional positions. -/
def oElse : Option Pos → Option Pos → Option Pos
  | some p, _ => some p
  | none, y => y

/-- Candidate invariant of the `find_intersecting` walk: either no
candidate is set and no hole-on-left ancestor intersects locally, or the
focus sits inside the left subtree of the intersecting candidate and no
hole-on-left ancestor strictly below the candidate intersects locally. -/
def fiCand (q : Int × Int) (t : FT) (ctx : List Frame) (c : Option Pos) : Prop :=
  (c = none ∧ ∀ f ∈ ctx, f.hl = true → hitD q f.d = false) ∨
  (∃ pre dc rc cc, ctx = pre ++ (⟨dc, true, rc⟩ : Frame) :: cc ∧
    c = some (FT.node dc (plugAll t pre) rc, cc) ∧ hitD q dc = true ∧
    ∀ f ∈ pre, f.hl = true → hitD q f.d = false)

/-- Full walk invariant: the candidate invariant, and a `nil` focus only
arises by stepping into the empty left child of a just-set candidate. -/
def fiInv (q : Int × Int) (t : FT) (ctx : List Frame) (c : Option Pos) : Prop :=
  fiCand q t ctx c ∧
  (t = .nil → (ctx = [] ∧ c = none) ∨ ∃ dc rc cc,
    ctx = (⟨dc, true, rc⟩ : Frame) :: cc ∧
    c = some (FT.node dc .nil rc, cc) ∧ hitD q dc = true)

/-- The intended value of the walk: in the main loop, the first intersecting
node at or after the focus subtree; in the backtrack loop, the first
intersecting node strictly after it. -/
def fiGoal : Bool → (Int × Int) → FT → List Frame → Option Pos
  | true, q, t, ctx => oElse (firstHitIn q t ctx) (firstHitAfter q t ctx)
  | false, q, t, ctx => firstHitAfter q t ctx

/-- Lexicographic order on stored `(minimum, maximum)` pairs: the layer sort
order. -/
def lexLE (a b : Int × Int) : Prop := a.1 < b.1 ∨ (a.1 = b.1 ∧ a.2 ≤ b.2)

/-! ## Theorems -/

/-! ### Flowspace hull invariant lemmas -/

theorem hullInvB_node {d : NodeData} {l r : FT} :
    hullInvB (.node d l r) = true ↔
      d.sti = fixSti d l r ∧ hullInvB l = true ∧ hullInvB r = true := by
  simp [hullInvB, Bool.and_eq_true, beq_iff_eq, and_assoc]

theorem fixStiO_red {d : NodeData} {c : Bool} {a b : Option (Int × Int)} :
    fixStiO { d with red := c } a b = fixStiO d a b := rfl

theorem fixStiO_sti {d : NodeData} {s : Int × Int} {a b : Option (Int × Int)} :
    fixStiO { d with sti := s } a b = fixStiO d a b := rfl

theorem stiOf_recolor {t : FT} {c : Bool} : stiOf (recolorRoot t c) = stiOf t := by
  cases t <;> rfl

theorem hullInvB_recolor {t : FT} {c : Bool} :
    hullInvB (recolorRoot t c) = hullInvB t := by
  cases t with
  | nil => rfl
  | node d l r => simp [recolorRoot, hullInvB, fixSti, fixStiO_red]

theorem refix_inv {d : NodeData} {l r : FT} (hl : hullInvB l = true)
    (hr : hullInvB r = true) : hullInvB (refixRoot (.node d l r)) = true := by
  simp [refixRoot, fixD, hullInvB_node, hl, hr, fixSti, fixStiO_sti]

theorem refix_almost {t : FT} (h : almostInv t) : hullInvB (refixRoot t) = true := by
  cases t with
  | nil => rfl
  | node d l r => exact refix_inv h.1 h.2

theorem plugF_almost {t : FT} {f : Frame} (ht : hullInvB t = true)
    (hf : hullInvB f.other = true) : almostInv (plugF t f) := by
  unfold plugF
  by_cases h : f.hl <;> simp [h, almostInv, ht, hf]

theorem framesInv_nil : framesInv [] := by
  intro f hf
  exact absurd hf (List.not_mem_nil f)

theorem framesInv_cons {f : Frame} {fs : List Frame} :
    framesInv (f :: fs) ↔ hullInvB f.other = true ∧ framesInv fs := by
  constructor
  · intro h
    exact ⟨h f (List.mem_cons_self f fs), fun g hg => h g (List.mem_cons_of_mem f hg)⟩
  · intro h g hg
    rcases List.mem_cons.mp hg with h1 | h2
    · rw [h1]; exact h.1
    · exact h.2 g h2

theorem framesInv_append {fs gs : List Frame} :
    framesInv (fs ++ gs) ↔ framesInv fs ∧ framesInv gs := by
  constructor
  · intro h
    exact ⟨fun f hf => h f (List.mem_append_left _ hf),
      fun f hf => h f (List.mem_append_right _ hf)⟩
  · intro h f hf
    rcases List.mem_append.mp hf with h1 | h2
    · exact h.1 f h1
    · exact h.2 f h2

theorem framesInv_reverse {fs : List Frame} :
    framesInv fs.reverse ↔ framesInv fs := by
  constructor <;> intro h f hf
  · exact h f (List.mem_reverse.mpr hf)
  · exact h f (List.mem_reverse.mp hf)

theorem rippleCtx_inv : ∀ (ctx : List Frame) (t : FT), hullInvB t = true →
    framesInv ctx → hullInvB (rippleCtx t ctx) = true
  | [], t, ht, _ => ht
  | f :: rest, t, ht, hctx => by
    rw [rippleCtx]
    have h := framesInv_cons.mp hctx
    exact rippleCtx_inv rest _ (refix_almost (plugF_almost ht h.1)) h.2

theorem hullO_none {s : Int × Int} : hullO s none = s := rfl

theorem hullO_some {s x : Int × Int} : hullO s (some x) = hullU s x := rfl

theorem hull_rot (u v : Int × Int) (a b c : Option (Int × Int)) :
    hullO (hullO u a) (some (hullO (hullO v (some (hullO (hullO u a) b))) c)) =
      hullO (hullO u a) (some (hullO (hullO v b) c)) := by
  obtain ⟨u1, u2⟩ := u
  obtain ⟨v1, v2⟩ := v
  rcases a with _ | ⟨a1, a2⟩ <;> rcases b with _ | ⟨b1, b2⟩ <;> rcases c with _ | ⟨c1, c2⟩ <;>
    (simp only [hullO_none, hullO_some, hullU, Prod.mk.injEq]; constructor <;> omega)

theorem hull_rot2 (u v : Int × Int) (a b c : Option (Int × Int)) :
    hullO (hullO u (some (hullO (hullO v c) (some (hullO (hullO u a) b))))) b =
      hullO (hullO u (some (hullO (hullO v c) a))) b := by
  obtain ⟨u1, u2⟩ := u
  obtain ⟨v1, v2⟩ := v
  rcases a with _ | ⟨a1, a2⟩ <;> rcases b with _ | ⟨b1, b2⟩ <;> rcases c with _ | ⟨c1, c2⟩ <;>
    (simp only [hullO_none, hullO_some, hullU, Prod.mk.injEq]; constructor <;> omega)

theorem rotTree_inv {w : FT} {nearLeft : Bool} (h : hullInvB w = true) :
    hullInvB (rotTree w nearLeft) = true := by
  match w, nearLeft with
  | .nil, _ => exact h
  | .node wD wl wr, true =>
    match wl with
    | .nil => exact h
    | .node ncD ncl ncr =>
      rw [hullInvB_node] at h
      obtain ⟨hw, hnc, hfar⟩ := h
      rw [hullInvB_node] at hnc
      obtain ⟨hncs, hncl, hncr⟩ := hnc
      have hw' : wD.sti = fixStiO wD (some ncD.sti) (stiOf wr) := hw
      have hncs' : ncD.sti = fixStiO ncD (stiOf ncl) (stiOf ncr) := hncs
      rw [rotTree, hullInvB_node]
      refine ⟨?_, hncl, ?_⟩
      · show fixStiO ncD (stiOf ncl) (some wD.sti) =
          fixStiO ncD (stiOf ncl) (some (fixStiO wD (stiOf ncr) (stiOf wr)))
        rw [hw', hncs']
        exact hull_rot (localHull ncD) (localHull wD) (stiOf ncl) (stiOf ncr) (stiOf wr)
      · rw [hullInvB_node]
        exact ⟨rfl, hncr, hfar⟩
  | .node wD wl wr, false =>
    match wr with
    | .nil => exact h
    | .node ncD ncl ncr =>
      rw [hullInvB_node] at h
      obtain ⟨hw, hfar, hnc⟩ := h
      rw [hullInvB_node] at hnc
      obtain ⟨hncs, hncl, hncr⟩ := hnc
      have hw' : wD.sti = fixStiO wD (stiOf wl) (some ncD.sti) := hw
      have hncs' : ncD.sti = fixStiO ncD (stiOf ncl) (stiOf ncr) := hncs
      rw [rotTree, hullInvB_node]
      refine ⟨?_, ?_, hncr⟩
      · show fixStiO ncD (some wD.sti) (stiOf ncr) =
          fixStiO ncD (some (fixStiO wD (stiOf wl) (stiOf ncl))) (stiOf ncr)
        rw [hw', hncs']
        exact hull_rot2 (localHull ncD) (localHull wD) (stiOf ncl) (stiOf ncr) (stiOf wl)
      · rw [hullInvB_node]
        exact ⟨rfl, hfar, hncl⟩

theorem rotUpSib_inv {pF : Frame} {nSti : Option (Int × Int)} {pF2 wF2 : Frame}
    (h : hullInvB pF.other = true) (he : rotUpSib pF nSti = some (pF2, wF2)) :
    hullInvB pF2.other = true ∧ hullInvB wF2.other = true := by
  match ho : pF.other with
  | .nil =>
    rw [rotUpSib, ho] at he
    exact absurd he (by simp)
  | .node wD wl wr =>
    rw [ho, hullInvB_node] at h
    rw [rotUpSib, ho] at he
    dsimp only at he
    by_cases hl : pF.hl
    · rw [if_pos hl] at he
      simp only [Option.some.injEq, Prod.mk.injEq] at he
      obtain ⟨h1, h2⟩ := he
      subst h1
      subst h2
      exact ⟨h.2.1, h.2.2⟩
    · rw [if_neg hl] at he
      simp only [Option.some.injEq, Prod.mk.injEq] at he
      obtain ⟨h1, h2⟩ := he
      subst h1
      subst h2
      exact ⟨h.2.2, h.2.1⟩

theorem fragSti_eq (t : FT) (below : List Frame) :
    fragSti t below = stiOf (plugOI t below) := by
  cases below with
  | nil => rfl
  | cons f rest =>
    rw [fragSti, plugOI, plugF]
    by_cases h : f.hl <;> simp [h, stiOf]

theorem rotUpPath_inv {t : FT} {below : List Frame} {bF : Frame}
    (ht : almostInv t) (hb : framesInv below) (hbf : hullInvB bF.other = true) :
    almostInv (rotUpPath t below bF).1 ∧ framesInv (rotUpPath t below bF).2 := by
  match below with
  | [] =>
    match t with
    | .nil =>
      rw [rotUpPath]
      exact ⟨trivial, framesInv_cons.mpr ⟨hbf, framesInv_nil⟩⟩
    | .node aD al ar =>
      obtain ⟨hal, har⟩ := ht
      rw [rotUpPath]
      by_cases h : bF.hl
      · rw [if_pos h]
        refine ⟨⟨hal, ?_⟩, framesInv_nil⟩
        rw [hullInvB_node]
        exact ⟨rfl, har, hbf⟩
      · rw [if_neg h]
        refine ⟨⟨?_, har⟩, framesInv_nil⟩
        rw [hullInvB_node]
        exact ⟨rfl, hbf, hal⟩
  | aF :: rest =>
    have haf := (framesInv_cons.mp hb).1
    have hrest := (framesInv_cons.mp hb).2
    rw [rotUpPath]
    by_cases h : aF.hl = (!bF.hl)
    · rw [if_pos h]
      exact ⟨ht, framesInv_cons.mpr ⟨haf, framesInv_cons.mpr ⟨hbf, hrest⟩⟩⟩
    · rw [if_neg h]
      by_cases h2 : bF.hl
      · rw [if_pos h2]
        refine ⟨ht, framesInv_cons.mpr ⟨?_, hrest⟩⟩
        rw [hullInvB_node]
        exact ⟨rfl, haf, hbf⟩
      · rw [if_neg h2]
        refine ⟨ht, framesInv_cons.mpr ⟨?_, hrest⟩⟩
        rw [hullInvB_node]
        exact ⟨rfl, hbf, haf⟩

theorem recolorFrag_inv {t : FT} {below : List Frame} {c : Bool}
    (ht : almostInv t) (hb : framesInv below) :
    almostInv (recolorFrag t below c).1 ∧ framesInv (recolorFrag t below c).2 := by
  match below with
  | [] =>
    refine ⟨?_, framesInv_nil⟩
    show almostInv (recolorRoot t c)
    cases t with
    | nil => trivial
    | node d l r => exact ht
  | f :: rest =>
    have h := framesInv_cons.mp hb
    exact ⟨ht, framesInv_cons.mpr ⟨h.1, h.2⟩⟩

theorem insLoop_inv : ∀ (fuel : Nat) (t : FT) (below above : List Frame),
    almostInv t → framesInv below → framesInv above →
    almostInv (insLoop fuel t below above).1 ∧
      framesInv (insLoop fuel t below above).2.1 ∧
      framesInv (insLoop fuel t below above).2.2
  | 0, t, below, above, ht, hb, ha => ⟨ht, hb, ha⟩
  | fuel + 1, t, below, above, ht, hb, ha => by
    match above with
    | [] =>
      rw [insLoop]
      exact ⟨ht, hb, framesInv_nil⟩
    | [pF] =>
      rw [insLoop, ite_self]
      exact ⟨ht, hb, ha⟩
    | pF :: gF :: above2 =>
      have hpf := (framesInv_cons.mp ha).1
      have ha1 := (framesInv_cons.mp ha).2
      have hgf := (framesInv_cons.mp ha1).1
      have ha2 := (framesInv_cons.mp ha1).2
      rw [insLoop]
      by_cases hred : pF.d.red
      · have hc : ¬((!pF.d.red) = true) := by simp [hred]
        rw [if_neg hc]
        by_cases hu : rootRed gF.other
        · rw [if_pos hu]
          refine insLoop_inv fuel t _ above2 ht ?_ ha2
          refine framesInv_cons.mpr ⟨?_, framesInv_cons.mpr ⟨hpf, hb⟩⟩
          show hullInvB (recolorRoot gF.other false) = true
          rw [hullInvB_recolor]
          exact hgf
        · rw [if_neg hu]
          by_cases hio : pF.hl ≠ gF.hl
          · rw [if_pos hio]
            dsimp only
            have h1 := @rotUpPath_inv t below pF ht hb hpf
            have h2 := @recolorFrag_inv (rotUpPath t below pF).1 (rotUpPath t below pF).2
              false h1.1 h1.2
            have h3 := @rotUpPath_inv
              (recolorFrag (rotUpPath t below pF).1 (rotUpPath t below pF).2 false).1
              (recolorFrag (rotUpPath t below pF).1 (rotUpPath t below pF).2 false).2
              ⟨{ gF.d with red := true }, gF.hl, gF.other⟩ h2.1 h2.2 hgf
            exact ⟨h3.1, h3.2, ha2⟩
          · rw [if_neg hio]
            dsimp only
            have h1 := @rotUpPath_inv t (⟨{ pF.d with red := false }, pF.hl, pF.other⟩ :: below)
              ⟨{ gF.d with red := true }, gF.hl, gF.other⟩ ht
              (framesInv_cons.mpr ⟨hpf, hb⟩) hgf
            exact ⟨h1.1, h1.2, ha2⟩
      · rw [Bool.not_eq_true] at hred
        have hc : (!pF.d.red) = true := by simp [hred]
        rw [if_pos hc]
        exact ⟨ht, hb, ha⟩

theorem rebalAfterInsert_inv {t : FT} {ctx : List Frame}
    (ht : almostInv t) (hctx : framesInv ctx) :
    hullInvB (rebalAfterInsert t ctx) = true := by
  rw [rebalAfterInsert]
  have h := insLoop_inv (ctx.length + 1) t [] ctx ht framesInv_nil hctx
  rw [hullInvB_recolor]
  refine rippleCtx_inv _ _ (refix_almost h.1) ?_
  rw [framesInv_append]
  exact ⟨framesInv_reverse.mpr h.2.1, h.2.2⟩

theorem almostInv_recolor {t : FT} {c : Bool} (h : almostInv t) :
    almostInv (recolorRoot t c) := by
  cases t with
  | nil => trivial
  | node d l r => exact h

theorem fixSti_congr {d d2 : NodeData} {l l2 r r2 : FT} (hd : localHull d = localHull d2)
    (hl : stiOf l = stiOf l2) (hr : stiOf r = stiOf r2) : fixSti d l r = fixSti d2 l2 r2 := by
  rw [fixSti, fixSti, fixStiO, fixStiO, hd, hl, hr]

theorem sibRotateOut_inv {nSti : Option (Int × Int)} {nT : FT} {below : List Frame}
    {fr fb : Frame} {above1 : List Frame} (hn : almostInv nT) (hb : framesInv below)
    (hf : hullInvB fr.other = true) (hfb : hullInvB fb.other = true) (ha1 : framesInv above1) :
    almostInv (sibRotateOut nSti nT below fr fb above1).1 ∧
      framesInv (sibRotateOut nSti nT below fr fb above1).2.1 ∧
      framesInv (sibRotateOut nSti nT below fr fb above1).2.2 := by
  rw [sibRotateOut]
  cases hrs : rotUpSib fr nSti with
  | none => exact ⟨hn, hb, framesInv_cons.mpr ⟨hfb, ha1⟩⟩
  | some p =>
    obtain ⟨pF4, wF4⟩ := p
    have h4 := rotUpSib_inv hf hrs
    exact ⟨hn, hb, framesInv_cons.mpr ⟨h4.1, framesInv_cons.mpr ⟨h4.2, ha1⟩⟩⟩

theorem remCaseD_inv {nSti : Option (Int × Int)} {nT : FT} {below : List Frame} {pF3 : Frame}
    {above1 : List Frame} (hn : almostInv nT) (hb : framesInv below)
    (hp : hullInvB pF3.other = true) (ha1 : framesInv above1) :
    almostInv (remCaseD nSti nT below pF3 above1).1 ∧
      framesInv (remCaseD nSti nT below pF3 above1).2.1 ∧
      framesInv (remCaseD nSti nT below pF3 above1).2.2 := by
  rw [remCaseD]
  match ho : pF3.other with
  | .nil => exact ⟨hn, hb, framesInv_cons.mpr ⟨hp, ha1⟩⟩
  | .node vD vl vr =>
    rw [ho, hullInvB_node] at hp
    obtain ⟨hps, hpl, hpr⟩ := hp
    have hfb : hullInvB pF3.other = true := by
      rw [ho, hullInvB_node]
      exact ⟨hps, hpl, hpr⟩
    dsimp only
    by_cases hhl : pF3.hl
    · simp only [if_pos hhl]
      refine sibRotateOut_inv hn hb ?_ hfb ha1
      show hullInvB (FT.node { vD with red := pF3.d.red } vl (recolorRoot vr false)) = true
      rw [hullInvB_node]
      refine ⟨?_, hpl, by rw [hullInvB_recolor]; exact hpr⟩
      calc ({ vD with red := pF3.d.red } : NodeData).sti = vD.sti := rfl
        _ = fixSti vD vl vr := hps
        _ = fixSti { vD with red := pF3.d.red } vl (recolorRoot vr false) :=
          fixSti_congr rfl rfl stiOf_recolor.symm
    · simp only [if_neg hhl]
      refine sibRotateOut_inv hn hb ?_ hfb ha1
      show hullInvB (FT.node { vD with red := pF3.d.red } (recolorRoot vl false) vr) = true
      rw [hullInvB_node]
      refine ⟨?_, by rw [hullInvB_recolor]; exact hpl, hpr⟩
      calc ({ vD with red := pF3.d.red } : NodeData).sti = vD.sti := rfl
        _ = fixSti vD vl vr := hps
        _ = fixSti { vD with red := pF3.d.red } (recolorRoot vl false) vr :=
          fixSti_congr rfl stiOf_recolor.symm rfl

theorem remTail_inv {rec : List Frame → List Frame → FT × List Frame × List Frame}
    {nT : FT} {below : List Frame} {pF : Frame} {above1 : List Frame}
    (hn : almostInv nT) (hb : framesInv below) (hp : hullInvB pF.other = true)
    (ha1 : framesInv above1)
    (hrec : ∀ b a, framesInv b → framesInv a →
      almostInv (rec b a).1 ∧ framesInv (rec b a).2.1 ∧ framesInv (rec b a).2.2) :
    almostInv (remTail rec nT below pF above1).1 ∧
      framesInv (remTail rec nT below pF above1).2.1 ∧
      framesInv (remTail rec nT below pF above1).2.2 := by
  rw [remTail]
  match ho : pF.other with
  | .nil => exact ⟨hn, hb, framesInv_cons.mpr ⟨hp, ha1⟩⟩
  | .node wD wl wr =>
    rw [ho, hullInvB_node] at hp
    obtain ⟨hps, hpl, hpr⟩ := hp
    have hw : hullInvB (FT.node wD wl wr) = true := by
      rw [hullInvB_node]
      exact ⟨hps, hpl, hpr⟩
    dsimp only
    by_cases hhl : pF.hl
    · simp only [if_pos hhl]
      by_cases hbb : (!rootRed wl && !rootRed wr) = true
      · rw [if_pos hbb]
        refine hrec _ _ (framesInv_cons.mpr ⟨?_, hb⟩) ha1
        show hullInvB (recolorRoot (FT.node wD wl wr) true) = true
        rw [hullInvB_recolor]
        exact hw
      · rw [if_neg hbb]
        by_cases hfar : (!rootRed wr) = true
        · simp only [if_pos hfar]
          refine remCaseD_inv hn hb ?_ ha1
          show hullInvB (rotTree (FT.node { wD with red := true } (recolorRoot wl false) wr) pF.hl) = true
          refine rotTree_inv ?_
          rw [hullInvB_node]
          refine ⟨?_, by rw [hullInvB_recolor]; exact hpl, hpr⟩
          calc ({ wD with red := true } : NodeData).sti = wD.sti := rfl
            _ = fixSti wD wl wr := hps
            _ = fixSti { wD with red := true } (recolorRoot wl false) wr :=
              fixSti_congr rfl stiOf_recolor.symm rfl
        · simp only [if_neg hfar]
          exact remCaseD_inv hn hb hw ha1
    · simp only [if_neg hhl]
      by_cases hbb : (!rootRed wr && !rootRed wl) = true
      · rw [if_pos hbb]
        refine hrec _ _ (framesInv_cons.mpr ⟨?_, hb⟩) ha1
        show hullInvB (recolorRoot (FT.node wD wl wr) true) = true
        rw [hullInvB_recolor]
        exact hw
      · rw [if_neg hbb]
        by_cases hfar : (!rootRed wl) = true
        · simp only [if_pos hfar]
          refine remCaseD_inv hn hb ?_ ha1
          show hullInvB (rotTree (FT.node { wD with red := true } wl (recolorRoot wr false)) pF.hl) = true
          refine rotTree_inv ?_
          rw [hullInvB_node]
          refine ⟨?_, hpl, by rw [hullInvB_recolor]; exact hpr⟩
          calc ({ wD with red := true } : NodeData).sti = wD.sti := rfl
            _ = fixSti wD wl wr := hps
            _ = fixSti { wD with red := true } wl (recolorRoot wr false) :=
              fixSti_congr rfl rfl stiOf_recolor.symm
        · simp only [if_neg hfar]
          exact remCaseD_inv hn hb hw ha1

theorem sibRotateIn_inv {rec : List Frame → List Frame → FT × List Frame × List Frame}
    {nSti : Option (Int × Int)} {nT : FT} {below : List Frame} {fr fb : Frame}
    {above0 : List Frame} (hn : almostInv nT) (hb : framesInv below)
    (hf : hullInvB fr.other = true) (hfb : hullInvB fb.other = true) (ha0 : framesInv above0)
    (hrec : ∀ b a, framesInv b → framesInv a →
      almostInv (rec b a).1 ∧ framesInv (rec b a).2.1 ∧ framesInv (rec b a).2.2) :
    almostInv (sibRotateIn rec nSti nT below fr fb above0).1 ∧
      framesInv (sibRotateIn rec nSti nT below fr fb above0).2.1 ∧
      framesInv (sibRotateIn rec nSti nT below fr fb above0).2.2 := by
  rw [sibRotateIn]
  cases hrs : rotUpSib fr nSti with
  | none => exact remTail_inv hn hb hfb ha0 hrec
  | some p =>
    obtain ⟨pF1, wF1⟩ := p
    have h4 := rotUpSib_inv hf hrs
    exact remTail_inv hn hb h4.1 (framesInv_cons.mpr ⟨h4.2, ha0⟩) hrec

theorem remLoop_inv : ∀ (fuel : Nat) (nT : FT) (below above : List Frame),
    almostInv nT → framesInv below → framesInv above →
    almostInv (remLoop fuel nT below above).1 ∧
      framesInv (remLoop fuel nT below above).2.1 ∧
      framesInv (remLoop fuel nT below above).2.2
  | 0, nT, below, above, hn, hb, ha => ⟨hn, hb, ha⟩
  | fuel + 1, nT, below, above, hn, hb, ha => by
    match above with
    | [] =>
      rw [remLoop]
      exact ⟨hn, hb, framesInv_nil⟩
    | pF0 :: above0 =>
      have hp0 := (framesInv_cons.mp ha).1
      have ha0 := (framesInv_cons.mp ha).2
      rw [remLoop]
      by_cases hnr : fragRed nT below
      · simp only [if_pos hnr]
        have h := @recolorFrag_inv nT below false hn hb
        exact ⟨h.1, h.2, ha⟩
      · simp only [if_neg hnr]
        have hrec : ∀ b a, framesInv b → framesInv a →
            almostInv (remLoop fuel nT b a).1 ∧ framesInv (remLoop fuel nT b a).2.1 ∧
              framesInv (remLoop fuel nT b a).2.2 :=
          fun b a hb2 ha2 => remLoop_inv fuel nT b a hn hb2 ha2
        match ho : pF0.other with
        | .nil => exact ⟨hn, hb, ha⟩
        | .node wD0 wl0 wr0 =>
          rw [ho] at hp0
          dsimp only
          by_cases hw0 : rootRed (FT.node wD0 wl0 wr0)
          · simp only [if_pos hw0]
            refine sibRotateIn_inv hn hb ?_ (by rw [ho]; exact hp0) ha0 hrec
            show hullInvB (recolorRoot (FT.node wD0 wl0 wr0) false) = true
            rw [hullInvB_recolor]
            exact hp0
          · simp only [if_neg hw0]
            exact remTail_inv hn hb (by rw [ho]; exact hp0) ha0 hrec

theorem rebalAfterRemove_inv {c : Bool} {nT : FT} {below above : List Frame}
    (hn : almostInv nT) (hb : framesInv below) (ha : framesInv above) :
    hullInvB (rebalAfterRemove c nT below above) = true := by
  rw [rebalAfterRemove]
  by_cases hc : c = true
  · simp only [if_pos hc]
    refine rippleCtx_inv _ _ (refix_almost hn) ?_
    rw [framesInv_append]
    exact ⟨framesInv_reverse.mpr hb, ha⟩
  · simp only [if_neg hc]
    have h := remLoop_inv (2 * above.length + 4) nT below above hn hb ha
    refine rippleCtx_inv _ _ (refix_almost h.1) ?_
    rw [framesInv_append]
    exact ⟨framesInv_reverse.mpr h.2.1, h.2.2⟩

theorem searchZ_inv : ∀ (t : FT) (m : Int) (acc : List Frame), hullInvB t = true →
    framesInv acc → hullInvB (searchZ t m acc).1 = true ∧ framesInv (searchZ t m acc).2
  | .nil, _, acc, _, hacc => ⟨rfl, hacc⟩
  | .node d l r, m, acc, ht, hacc => by
    rw [searchZ]
    have h := hullInvB_node.mp ht
    by_cases h1 : m > d.metric
    · simp only [if_pos h1]
      exact searchZ_inv r m _ h.2.2 (framesInv_cons.mpr ⟨h.2.1, hacc⟩)
    · simp only [if_neg h1]
      by_cases h2 : m < d.metric
      · simp only [if_pos h2]
        exact searchZ_inv l m _ h.2.1 (framesInv_cons.mpr ⟨h.2.2, hacc⟩)
      · simp only [if_neg h2]
        exact ⟨ht, hacc⟩

theorem leftmostZ_inv : ∀ (t : FT) (acc : List Frame), hullInvB t = true →
    framesInv acc → hullInvB (leftmostZ t acc).1 = true ∧ framesInv (leftmostZ t acc).2
  | .nil, acc, _, hacc => ⟨rfl, hacc⟩
  | .node d .nil r, acc, ht, hacc => by
    rw [leftmostZ]
    exact ⟨ht, hacc⟩
  | .node d (.node dl ll lr) r, acc, ht, hacc => by
    rw [leftmostZ]
    have h := hullInvB_node.mp ht
    exact leftmostZ_inv _ _ h.2.1 (framesInv_cons.mpr ⟨h.2.2, hacc⟩)

theorem nodeRemove_inv {dthis : NodeData} {l r : FT} {ctx : List Frame}
    (hli : hullInvB l = true) (hri : hullInvB r = true) (hctx : framesInv ctx) :
    hullInvB (nodeRemove dthis l r ctx) = true := by
  match ctx, l, r with
  | [], .nil, rr =>
    rw [nodeRemove, hullInvB_recolor]
    exact hri
  | [], .node dl a b, .nil =>
    rw [nodeRemove, hullInvB_recolor]
    exact hli
  | [], .node dl la lb, .node dr ra rb =>
    rw [nodeRemove]
    have hlm := leftmostZ_inv (.node dr ra rb) [] hri framesInv_nil
    match hl2 : leftmostZ (.node dr ra rb) [] with
    | (.nil, _) => exact rfl
    | (.node ds sl sr, ctxS) =>
      rw [hl2] at hlm
      have hsr := (hullInvB_node.mp hlm.1).2.2
      have hctxS := hlm.2
      match sr with
      | .node srD s1 s2 =>
        rw [hullInvB_recolor]
        refine rebalAfterRemove_inv ⟨rfl, rfl⟩ framesInv_nil ?_
        rw [framesInv_append]
        exact ⟨hctxS, framesInv_cons.mpr ⟨hli, framesInv_nil⟩⟩
      | .nil =>
        rw [hullInvB_recolor]
        refine rebalAfterRemove_inv trivial framesInv_nil ?_
        rw [framesInv_append]
        exact ⟨hctxS, framesInv_cons.mpr ⟨hli, framesInv_nil⟩⟩
    all_goals (intros; simp_all)
  | pf :: rest, ll, rr =>
    have hpf := (framesInv_cons.mp hctx).1
    have hrest := (framesInv_cons.mp hctx).2
    match ll, rr with
    | .node dl la lb, .node dr ra rb =>
      rw [nodeRemove]
      have hlm := leftmostZ_inv (.node dr ra rb) [] hri framesInv_nil
      match hl2 : leftmostZ (.node dr ra rb) [] with
      | (.nil, _) => exact rfl
      | (.node ds sl sr, ctxS) =>
        rw [hl2] at hlm
        have hsr := (hullInvB_node.mp hlm.1).2.2
        have hctxS := hlm.2
        match sr with
        | .node srD s1 s2 =>
          rw [hullInvB_recolor]
          refine rebalAfterRemove_inv ⟨rfl, rfl⟩ framesInv_nil ?_
          rw [framesInv_append]
          exact ⟨hctxS, framesInv_cons.mpr ⟨hli, hctx⟩⟩
        | .nil =>
          rw [hullInvB_recolor]
          refine rebalAfterRemove_inv trivial framesInv_nil ?_
          rw [framesInv_append]
          exact ⟨hctxS, framesInv_cons.mpr ⟨hli, hctx⟩⟩
      all_goals (intros; simp_all)
    | .node cD c1 c2, .nil =>
      rw [nodeRemove, hullInvB_recolor]
      exact rebalAfterRemove_inv ⟨rfl, rfl⟩ framesInv_nil hctx
      all_goals (intros; simp_all)
    | .nil, .node cD c1 c2 =>
      rw [nodeRemove, hullInvB_recolor]
      exact rebalAfterRemove_inv ⟨rfl, rfl⟩ framesInv_nil hctx
      all_goals (intros; simp_all)
    | .nil, .nil =>
      rw [nodeRemove, hullInvB_recolor]
      exact rebalAfterRemove_inv trivial framesInv_nil hctx

theorem layerInsert_inv {T : FT} {lo hi : Int} (h : hullInvB T = true) :
    hullInvB (layerInsert T lo hi) = true := by
  match T with
  | .nil =>
    rw [layerInsert, hullInvB_node]
    exact ⟨rfl, rfl, rfl⟩
  | .node d0 l0 r0 =>
    rw [layerInsert]
    have hs := searchZ_inv (.node d0 l0 r0) lo [] h framesInv_nil
    match h2 : searchZ (.node d0 l0 r0) lo [] with
    | (.node d l r, ctx) =>
      rw [h2] at hs
      have hd := hullInvB_node.mp hs.1
      exact rippleCtx_inv _ _ (refix_almost ⟨hd.2.1, hd.2.2⟩) hs.2
    | (.nil, ctx) =>
      rw [h2] at hs
      exact rebalAfterInsert_inv ⟨rfl, rfl⟩ hs.2

theorem layerErase_inv {T : FT} {lo hi : Int} (h : hullInvB T = true) :
    hullInvB (layerErase T lo hi) = true := by
  rw [layerErase]
  have hs := searchZ_inv T lo [] h framesInv_nil
  match h2 : searchZ T lo [] with
  | (.node d l r, ctx) =>
    rw [h2] at hs
    have hd := hullInvB_node.mp hs.1
    by_cases he : (d.maxima.erase hi).isEmpty = true
    · simp only [if_pos he]
      exact nodeRemove_inv hd.2.1 hd.2.2 hs.2
    · simp only [if_neg he]
      exact rippleCtx_inv _ _ (refix_almost ⟨hd.2.1, hd.2.2⟩) hs.2
  | (.nil, ctx) => exact h

/-- Claim C2: the subtree hull invariant — every node's cached `m_sti`
equals the hull of its local interval (`[m_metric, max key of m_maxima]`)
and its children's cached subtree hulls — is preserved by every
`layer::insert` and every erase through a cursor, including the red-black
rebalancing these trigger, in which every rotation recomputes the hulls of
the two rotated nodes (promoted child first, then the demoted parent) and
the change is rippled to the root by `ripple_structure_fixup`. -/
theorem flowspace_hull_invariant (T : FT) (lo hi : Int) (hT : hullInvB T = true) :
    hullInvB (layerInsert T lo hi) = true ∧ hullInvB (layerErase T lo hi) = true :=
  ⟨layerInsert_inv hT, layerErase_inv hT⟩

theorem flowspace_hull_invariant_witness :
    hullInvB (FT.node ⟨false, 0, [5], (0, 5)⟩ .nil .nil) = true ∧
      hullInvB (layerInsert (FT.node ⟨false, 0, [5], (0, 5)⟩ .nil .nil) 2 9) = true ∧
      hullInvB (layerErase (FT.node ⟨false, 0, [5], (0, 5)⟩ .nil .nil) 2 9) = true :=
  ⟨by decide, flowspace_hull_invariant (FT.node ⟨false, 0, [5], (0, 5)⟩ .nil .nil) 2 9 (by decide)⟩

/-! ### Query iteration lemmas -/

theorem inorderD_plugF (t : FT) (f : Frame) :
    inorderD (plugF t f) =
      if f.hl then inorderD t ++ f.d :: inorderD f.other
      else inorderD f.other ++ f.d :: inorderD t := by
  rw [plugF]
  by_cases h : f.hl <;> simp [h, inorderD]

theorem inorder_decomp : ∀ (ctx : List Frame) (t : FT),
    inorderD (plugAll t ctx) = beforeD t ctx ++ inorderD t ++ afterD t ctx
  | [], t => by simp [plugAll, beforeD, afterD]
  | f :: rest, t => by
    rw [plugAll, beforeD, afterD, inorder_decomp rest (plugF t f), inorderD_plugF]
    by_cases h : f.hl <;> simp [h]

theorem hullInvB_plug {t : FT} {f : Frame} (h : hullInvB (plugF t f) = true) :
    hullInvB t = true := by
  rw [plugF] at h
  by_cases hf : f.hl
  · rw [if_pos hf, hullInvB_node] at h
    exact h.2.1
  · rw [if_neg hf, hullInvB_node] at h
    exact h.2.2

theorem hullInvB_pos : ∀ (ctx : List Frame) (t : FT),
    hullInvB (plugAll t ctx) = true → hullInvB t = true
  | [], _, h => h
  | f :: rest, t, h => hullInvB_plug (hullInvB_pos rest (plugF t f) h)

theorem hitIvl_iff {a b : Int × Int} :
    hitIvl a b = true ↔ (b.1 ≤ a.1 ∧ a.1 ≤ b.2) ∨ (a.1 ≤ b.1 ∧ b.1 ≤ a.2) := by
  rw [hitIvl]
  simp [Bool.or_eq_true, Bool.and_eq_true, decide_eq_true_eq]

theorem fixSti_bounds {d : NodeData} {l r : FT} {s : Int × Int} (h : s = fixSti d l r) :
    (s.1 ≤ d.metric ∧ localMax d ≤ s.2) ∧
      (∀ d2 l2 r2, l = .node d2 l2 r2 → s.1 ≤ d2.sti.1 ∧ d2.sti.2 ≤ s.2) ∧
      (∀ d2 l2 r2, r = .node d2 l2 r2 → s.1 ≤ d2.sti.1 ∧ d2.sti.2 ≤ s.2) := by
  rw [fixSti] at h
  match l, r with
  | .nil, .nil =>
    refine ⟨?_, nofun, nofun⟩
    rw [h]
    exact ⟨le_refl _, le_refl _⟩
  | .nil, .node d2 l2 r2 =>
    rw [show stiOf FT.nil = none from rfl, show stiOf (FT.node d2 l2 r2) = some d2.sti from rfl,
      fixStiO, hullO, hullO, hullU] at h
    refine ⟨?_, nofun, fun d3 l3 r3 hh => ?_⟩
    · rw [h]
      exact ⟨min_le_left _ _, le_max_left _ _⟩
    · cases hh
      rw [h]
      exact ⟨min_le_right _ _, le_max_right _ _⟩
  | .node d2 l2 r2, .nil =>
    rw [show stiOf FT.nil = none from rfl, show stiOf (FT.node d2 l2 r2) = some d2.sti from rfl,
      fixStiO, hullO, hullO, hullU] at h
    refine ⟨?_, fun d3 l3 r3 hh => ?_, nofun⟩
    · rw [h]
      exact ⟨min_le_left _ _, le_max_left _ _⟩
    · cases hh
      rw [h]
      exact ⟨min_le_right _ _, le_max_right _ _⟩
  | .node d2 l2 r2, .node d3 l3 r3 =>
    rw [show stiOf (FT.node d2 l2 r2) = some d2.sti from rfl,
      show stiOf (FT.node d3 l3 r3) = some d3.sti from rfl,
      fixStiO, hullO, hullO, hullU, hullU] at h
    rw [h]
    refine ⟨⟨?_, ?_⟩, fun d4 l4 r4 hh => ?_, fun d4 l4 r4 hh => ?_⟩
    · simp [localHull]
    · simp [localHull]
    · cases hh
      constructor <;> simp
    · cases hh
      constructor <;> simp

theorem hull_covers : ∀ (t : FT) (d0 : NodeData) (l0 r0 : FT),
    hullInvB t = true → t = .node d0 l0 r0 →
    ∀ e ∈ inorderD t, d0.sti.1 ≤ e.metric ∧ localMax e ≤ d0.sti.2
  | .nil, _, _, _, _, hh => by cases hh
  | .node d l r, d0, l0, r0, hinv, heq => by
    cases heq
    rw [hullInvB_node] at hinv
    obtain ⟨hs, hl, hr⟩ := hinv
    have hb := fixSti_bounds hs
    intro e he
    rw [inorderD] at he
    rcases List.mem_append.mp he with he1 | he2
    · match l, he1, hl, hb with
      | .node dl ll lr, he1, hl, hb =>
        have hc := hull_covers _ dl ll lr hl rfl e he1
        have hb2 := hb.2.1 dl ll lr rfl
        exact ⟨le_trans hb2.1 hc.1, le_trans hc.2 hb2.2⟩
      | .nil, he1, _, _ => exact absurd he1 (by simp [inorderD])
    · rcases List.mem_cons.mp he2 with he3 | he4
      · rw [he3]
        exact hb.1
      · match r, he4, hr, hb with
        | .node dr rl rr, he4, hr, hb =>
          have hc := hull_covers _ dr rl rr hr rfl e he4
          have hb2 := hb.2.2 dr rl rr rfl
          exact ⟨le_trans hb2.1 hc.1, le_trans hc.2 hb2.2⟩
        | .nil, he4, _, _ => exact absurd he4 (by simp [inorderD])

theorem prune_sound {q : Int × Int} {t : FT} (hinv : hullInvB t = true)
    (hm : ∀ e ∈ inorderD t, e.metric ≤ localMax e) (hT : hitT q t = false) :
    ∀ e ∈ inorderD t, hitD q e = false := by
  intro e he
  match t with
  | .nil => cases he
  | .node d0 l0 r0 =>
    have hc := hull_covers _ d0 l0 r0 hinv rfl e he
    have hme := hm e he
    rw [hitT] at hT
    by_contra hfalse
    rw [Bool.not_eq_false] at hfalse
    rw [hitD, hitIvl_iff] at hfalse
    have : hitIvl q d0.sti = true := by
      rw [hitIvl_iff]
      rw [localHull] at hfalse
      dsimp only at hfalse
      omega
    rw [this] at hT
    cases hT

theorem dOK_localMax {d : NodeData} (h : dOK d) : d.metric ≤ localMax d := by
  obtain ⟨h1, _, h3⟩ := h
  rw [localMax]
  match hg : d.maxima.getLast? with
  | none =>
    exact absurd (List.getLast?_eq_none_iff.mp hg) h1
  | some a =>
    have hmem : a ∈ d.maxima := by
      obtain ⟨hne, hEq⟩ :=
        List.mem_getLast?_eq_getLast (show a ∈ d.maxima.getLast? by rw [Option.mem_def, hg])
      rw [hEq]
      exact List.getLast_mem hne
    exact h3 a hmem

theorem wfT_dOK : ∀ {lo hi : Option Int} {t : FT}, wfT lo hi t → ∀ e ∈ inorderD t, dOK e := by
  intro lo hi t
  match t with
  | .nil => intro _ e he; cases he
  | .node d l r =>
    intro hw e he
    rw [inorderD] at he
    rcases List.mem_append.mp he with h1 | h2
    · exact wfT_dOK hw.2.2.2.2.2.1 e h1
    · rcases List.mem_cons.mp h2 with h3 | h4
      · rw [h3]
        exact ⟨hw.2.2.1, hw.2.2.2.1, hw.2.2.2.2.1⟩
      · exact wfT_dOK hw.2.2.2.2.2.2 e h4

theorem wfT_bounds : ∀ {lo hi : Option Int} {t : FT}, wfT lo hi t →
    ∀ e ∈ inorderD t, (∀ a, lo = some a → a < e.metric) ∧ (∀ b, hi = some b → e.metric < b) := by
  intro lo hi t
  match t with
  | .nil => intro _ e he; cases he
  | .node d l r =>
    intro hw e he
    rw [inorderD] at he
    rcases List.mem_append.mp he with h1 | h2
    · have h := wfT_bounds hw.2.2.2.2.2.1 e h1
      exact ⟨h.1, fun b hb => lt_trans (h.2 d.metric rfl) (hw.2.1 b hb)⟩
    · rcases List.mem_cons.mp h2 with h3 | h4
      · rw [h3]
        exact ⟨hw.1, hw.2.1⟩
      · have h := wfT_bounds hw.2.2.2.2.2.2 e h4
        exact ⟨fun a ha => lt_trans (hw.1 a ha) (h.1 d.metric rfl), h.2⟩

theorem wfT_pairwise : ∀ {lo hi : Option Int} {t : FT}, wfT lo hi t →
    List.Pairwise (fun a b => a.metric < b.metric) (inorderD t) := by
  intro lo hi t
  match t with
  | .nil => intro _; exact List.Pairwise.nil
  | .node d l r =>
    intro hw
    rw [inorderD]
    rw [List.pairwise_append]
    refine ⟨wfT_pairwise hw.2.2.2.2.2.1, ?_, ?_⟩
    · rw [List.pairwise_cons]
      refine ⟨fun e he => (wfT_bounds hw.2.2.2.2.2.2 e he).1 d.metric rfl,
        wfT_pairwise hw.2.2.2.2.2.2⟩
    · intro a ha b hb
      have h1 := (wfT_bounds hw.2.2.2.2.2.1 a ha).2 d.metric rfl
      rcases List.mem_cons.mp hb with h2 | h3
      · rw [h2]
        exact h1
      · exact lt_trans h1 ((wfT_bounds hw.2.2.2.2.2.2 b h3).1 d.metric rfl)

theorem afterD_left (d : NodeData) (l r : FT) (ctx : List Frame) :
    afterD l (⟨d, true, r⟩ :: ctx) = d :: inorderD r ++ afterD (.node d l r) ctx := by
  rw [afterD]
  simp [plugF]

theorem afterD_right (d : NodeData) (l r : FT) (ctx : List Frame) :
    afterD r (⟨d, false, l⟩ :: ctx) = afterD (.node d l r) ctx := by
  rw [afterD]
  simp [plugF]

theorem plugAll_left (d : NodeData) (l r : FT) (ctx : List Frame) :
    plugAll l (⟨d, true, r⟩ :: ctx) = plugAll (.node d l r) ctx := by
  rw [plugAll]
  simp [plugF]

theorem plugAll_right (d : NodeData) (l r : FT) (ctx : List Frame) :
    plugAll r (⟨d, false, l⟩ :: ctx) = plugAll (.node d l r) ctx := by
  rw [plugAll]
  simp [plugF]

theorem plugF_hl {f : Frame} (hf : f.hl = true) (t : FT) :
    plugF t f = .node f.d t f.other := by
  rw [plugF, if_pos hf]

theorem plugF_nhl {f : Frame} (hf : f.hl = false) (t : FT) :
    plugF t f = .node f.d f.other t := by
  simp [plugF, hf]

theorem afterD_cons_hl {f : Frame} (hf : f.hl = true) (t : FT) (rest : List Frame) :
    afterD t (f :: rest) = f.d :: inorderD f.other ++ afterD (plugF t f) rest := by
  rw [afterD]
  simp [hf]

theorem afterD_cons_nhl {f : Frame} (hf : f.hl = false) (t : FT) (rest : List Frame) :
    afterD t (f :: rest) = afterD (plugF t f) rest := by
  rw [afterD]
  simp [hf]

theorem firstHitIn_none {q : Int × Int} : ∀ (t : FT) (ctx : List Frame),
    firstHitIn q t ctx = none ↔ ∀ e ∈ inorderD t, hitD q e = false
  | .nil, ctx => by simp [firstHitIn, inorderD]
  | .node d l r, ctx => by
    rw [firstHitIn]
    cases h1 : firstHitIn q l (⟨d, true, r⟩ :: ctx) with
    | some p1 =>
      constructor
      · intro hh
        exact Option.noConfusion (show some p1 = none from hh)
      · intro hall
        have h2 := (firstHitIn_none l (⟨d, true, r⟩ :: ctx)).mpr
          (fun e he => hall e (by simp [inorderD, he]))
        rw [h1] at h2
        exact Option.noConfusion h2
    | none =>
      have hl := (firstHitIn_none l (⟨d, true, r⟩ :: ctx)).mp h1
      by_cases hd : hitD q d = true
      · rw [if_pos hd]
        constructor
        · intro hh
          exact Option.noConfusion (show some _ = none from hh)
        · intro hall
          have h0 := hall d (by simp [inorderD])
          rw [hd] at h0
          cases h0
      · rw [Bool.not_eq_true] at hd
        rw [if_neg (by simp [hd])]
        rw [firstHitIn_none r (⟨d, false, l⟩ :: ctx)]
        constructor
        · intro hall e he
          rw [inorderD] at he
          rcases List.mem_append.mp he with h2 | h3
          · exact hl e h2
          · rcases List.mem_cons.mp h3 with h4 | h5
            · rw [h4]
              exact hd
            · exact hall e h5
        · intro hall e he
          exact hall e (by simp [inorderD, he])

theorem firstHitIn_some {q : Int × Int} : ∀ (t : FT) (ctx : List Frame) (p : Pos),
    firstHitIn q t ctx = some p →
    ∃ d2 l2 r2 ctx2, p = (FT.node d2 l2 r2, ctx2) ∧ hitD q d2 = true ∧
      plugAll (FT.node d2 l2 r2) ctx2 = plugAll t ctx ∧
      (inorderD t ++ afterD t ctx).filter (hitD q) =
        d2 :: (inorderD r2 ++ afterD (FT.node d2 l2 r2) ctx2).filter (hitD q)
  | .nil, ctx, p, h => by rw [firstHitIn] at h; cases h
  | .node d l r, ctx, p, h => by
    rw [firstHitIn] at h
    cases h1 : firstHitIn q l (⟨d, true, r⟩ :: ctx) with
    | some p1 =>
      rw [h1] at h
      have h2 : p1 = p := Option.some.inj h
      subst h2
      obtain ⟨d2, l2, r2, ctx2, he, hhit, hplug, hfilter⟩ := firstHitIn_some l _ p1 h1
      refine ⟨d2, l2, r2, ctx2, he, hhit, by rw [hplug, plugAll_left], ?_⟩
      rw [← hfilter, afterD_left, inorderD]
      simp [List.append_assoc]
    | none =>
      rw [h1] at h
      have hl := (firstHitIn_none l (⟨d, true, r⟩ :: ctx)).mp h1
      have hlnil : (inorderD l).filter (hitD q) = [] :=
        List.filter_eq_nil_iff.mpr (fun e he => by rw [hl e he]; exact Bool.false_ne_true)
      by_cases hd : hitD q d = true
      · rw [if_pos hd] at h
        have h2 : (FT.node d l r, ctx) = p := Option.some.inj h
        subst h2
        refine ⟨d, l, r, ctx, rfl, hd, rfl, ?_⟩
        rw [inorderD]
        simp only [List.append_assoc, List.filter_append, hlnil, List.nil_append,
          List.filter_cons, hd]
        rfl
      · rw [Bool.not_eq_true] at hd
        rw [if_neg (by simp [hd])] at h
        obtain ⟨d2, l2, r2, ctx2, he, hhit, hplug, hfilter⟩ := firstHitIn_some r _ p h
        refine ⟨d2, l2, r2, ctx2, he, hhit, by rw [hplug, plugAll_right], ?_⟩
        rw [afterD_right] at hfilter
        rw [← hfilter, inorderD]
        simp only [List.append_assoc, List.filter_append, hlnil, List.nil_append,
          List.filter_cons, hd]
        rfl

theorem firstHitAfter_none {q : Int × Int} : ∀ (ctx : List Frame) (t : FT),
    firstHitAfter q t ctx = none ↔ ∀ e ∈ afterD t ctx, hitD q e = false
  | [], t => by simp [firstHitAfter, afterD]
  | f :: rest, t => by
    rw [firstHitAfter]
    by_cases hf : f.hl = true
    · rw [if_pos hf, afterD_cons_hl hf]
      by_cases hd : hitD q f.d = true
      · rw [if_pos hd]
        constructor
        · intro hh
          exact Option.noConfusion (show some _ = none from hh)
        · intro hall
          have h0 := hall f.d (by simp)
          rw [hd] at h0
          cases h0
      · rw [Bool.not_eq_true] at hd
        rw [if_neg (by simp [hd])]
        cases h1 : firstHitIn q f.other (⟨f.d, false, t⟩ :: rest) with
        | some p1 =>
          constructor
          · intro hh
            exact Option.noConfusion (show some p1 = none from hh)
          · intro hall
            have h2 := (firstHitIn_none f.other (⟨f.d, false, t⟩ :: rest)).mpr
              (fun e he => hall e (by simp [he]))
            rw [h1] at h2
            exact Option.noConfusion h2
        | none =>
          have ho := (firstHitIn_none f.other (⟨f.d, false, t⟩ :: rest)).mp h1
          rw [firstHitAfter_none rest (plugF t f)]
          constructor
          · intro hall e he
            rcases List.mem_cons.mp he with h2 | h3
            · rw [h2]
              exact hd
            · rcases List.mem_append.mp h3 with h4 | h5
              · exact ho e h4
              · exact hall e h5
          · intro hall e he
            exact hall e (by simp [he])
    · have hf0 : f.hl = false := by revert hf; cases f.hl <;> simp
      rw [if_neg hf, afterD_cons_nhl hf0]
      exact firstHitAfter_none rest (plugF t f)

theorem firstHitAfter_some {q : Int × Int} : ∀ (ctx : List Frame) (t : FT) (p : Pos),
    firstHitAfter q t ctx = some p →
    ∃ d2 l2 r2 ctx2, p = (FT.node d2 l2 r2, ctx2) ∧ hitD q d2 = true ∧
      plugAll (FT.node d2 l2 r2) ctx2 = plugAll t ctx ∧
      (afterD t ctx).filter (hitD q) =
        d2 :: (inorderD r2 ++ afterD (FT.node d2 l2 r2) ctx2).filter (hitD q)
  | [], t, p, h => by rw [firstHitAfter] at h; cases h
  | f :: rest, t, p, h => by
    rw [firstHitAfter] at h
    by_cases hf : f.hl = true
    · rw [if_pos hf] at h
      by_cases hd : hitD q f.d = true
      · rw [if_pos hd] at h
        have h2 : (plugF t f, rest) = p := Option.some.inj h
        subst h2
        refine ⟨f.d, t, f.other, rest, by rw [plugF_hl hf], hd, ?_, ?_⟩
        · rw [plugAll, plugF_hl hf]
        · rw [afterD_cons_hl hf, plugF_hl hf, List.cons_append,
            @List.filter_cons_of_pos _ (hitD q) f.d _ hd]
      · rw [Bool.not_eq_true] at hd
        rw [if_neg (by simp [hd])] at h
        cases h1 : firstHitIn q f.other (⟨f.d, false, t⟩ :: rest) with
        | some p1 =>
          rw [h1] at h
          have h2 : p1 = p := Option.some.inj h
          subst h2
          obtain ⟨d2, l2, r2, ctx2, he, hhit, hplug, hfilter⟩ :=
            firstHitIn_some f.other _ p1 h1
          refine ⟨d2, l2, r2, ctx2, he, hhit, ?_, ?_⟩
          · rw [hplug, plugAll_right, plugAll, plugF_hl hf]
          · rw [afterD_right] at hfilter
            rw [afterD_cons_hl hf, plugF_hl hf, List.cons_append,
              @List.filter_cons_of_neg _ (hitD q) f.d _ (by simp [hd])]
            exact hfilter
        | none =>
          rw [h1] at h
          have h2 : firstHitAfter q (plugF t f) rest = some p := h
          obtain ⟨d2, l2, r2, ctx2, he, hhit, hplug, hfilter⟩ :=
            firstHitAfter_some rest (plugF t f) p h2
          refine ⟨d2, l2, r2, ctx2, he, hhit, ?_, ?_⟩
          · rw [hplug, plugAll]
          · have ho := (firstHitIn_none f.other (⟨f.d, false, t⟩ :: rest)).mp h1
            have honil : (inorderD f.other).filter (hitD q) = [] :=
              List.filter_eq_nil_iff.mpr
                (fun e he2 => by rw [ho e he2]; exact Bool.false_ne_true)
            rw [afterD_cons_hl hf, List.cons_append,
              @List.filter_cons_of_neg _ (hitD q) f.d _ (by simp [hd]),
              List.filter_append, honil, List.nil_append]
            exact hfilter
    · have hf0 : f.hl = false := by revert hf; cases f.hl <;> simp
      rw [if_neg hf] at h
      obtain ⟨d2, l2, r2, ctx2, he, hhit, hplug, hfilter⟩ :=
        firstHitAfter_some rest (plugF t f) p h
      refine ⟨d2, l2, r2, ctx2, he, hhit, ?_, ?_⟩
      · rw [hplug, plugAll]
      · rw [afterD_cons_nhl hf0]
        exact hfilter

theorem plugF_ne_nil (t : FT) (f : Frame) : plugF t f ≠ .nil := by
  rw [plugF]
  by_cases h : f.hl = true
  · rw [if_pos h]; nofun
  · rw [if_neg h]; nofun

theorem mem_inorder_plug {t : FT} {ctx : List Frame} {e : NodeData}
    (he : e ∈ inorderD t) : e ∈ inorderD (plugAll t ctx) := by
  rw [inorder_decomp]
  simp [he]

theorem prune_none {q : Int × Int} {T t : FT} {ctx : List Frame}
    (hG : hullInvB T = true) (hDom : ∀ e ∈ inorderD T, e.metric ≤ localMax e)
    (hT : plugAll t ctx = T) (hmiss : hitT q t = false) :
    firstHitIn q t ctx = none := by
  refine (firstHitIn_none t ctx).mpr (prune_sound ?_ ?_ hmiss)
  · exact hullInvB_pos ctx t (by rw [hT]; exact hG)
  · intro e he
    exact hDom e (by rw [← hT]; exact mem_inorder_plug he)

theorem leaf_hitT {q : Int × Int} {d : NodeData}
    (hinv : hullInvB (.node d .nil .nil) = true)
    (hT : hitT q (.node d .nil .nil) = true) : hitD q d = true := by
  have hs : d.sti = fixSti d .nil .nil := (hullInvB_node.mp hinv).1
  rw [hitT, hs] at hT
  exact hT

theorem fiCand_up {q : Int × Int} {t : FT} {f : Frame} {rest : List Frame}
    {c : Option Pos} (hd : fiCand q t (f :: rest) c)
    (hne : ¬ c = some (plugF t f, rest)) :
    (f.hl = true → hitD q f.d = false) ∧ fiCand q (plugF t f) rest c := by
  rcases hd with ⟨hc0, hall⟩ | ⟨pre, dc, rc, cc, hctx, hc, hdc, hpre⟩
  · exact ⟨fun hfl => hall f (by simp) hfl,
      Or.inl ⟨hc0, fun g hg => hall g (by simp [hg])⟩⟩
  · cases pre with
    | nil =>
      exfalso
      apply hne
      rw [List.nil_append] at hctx
      injection hctx with hf hrest
      subst hf
      subst hrest
      rw [hc]
      rfl
    | cons g pre2 =>
      rw [List.cons_append] at hctx
      injection hctx with hf hrest
      subst hf
      refine ⟨fun hfl => hpre f (by simp) hfl,
        Or.inr ⟨pre2, dc, rc, cc, hrest, ?_, hdc,
          fun x hx => hpre x (by simp [hx])⟩⟩
      exact hc

theorem fiCand_stop {q : Int × Int} {t : FT} {f : Frame} {rest : List Frame}
    {c : Option Pos} (hd : fiCand q t (f :: rest) c)
    (he : c = some (plugF t f, rest)) :
    firstHitAfter q t (f :: rest) = c := by
  rcases hd with ⟨hc0, _⟩ | ⟨pre, dc, rc, cc, hctx, hc, hdc, hpre⟩
  · rw [hc0] at he
    cases he
  · cases pre with
    | cons g pre2 =>
      exfalso
      rw [List.cons_append] at hctx
      injection hctx with hf hrest
      rw [he] at hc
      have h2 : rest = cc := congrArg (fun z => z.2) (Option.some.inj hc)
      have h3 := congrArg List.length hrest
      rw [h2] at h3
      simp at h3
      omega
    | nil =>
      rw [List.nil_append] at hctx
      injection hctx with hf hrest
      subst hf
      subst hrest
      rw [firstHitAfter, if_pos rfl, if_pos hdc, he]

theorem frame_d_mk (d : NodeData) (b : Bool) (o : FT) : Frame.d ⟨d, b, o⟩ = d := rfl

theorem frame_hl_mk (d : NodeData) (b : Bool) (o : FT) : Frame.hl ⟨d, b, o⟩ = b := rfl

theorem frame_other_mk (d : NodeData) (b : Bool) (o : FT) : Frame.other ⟨d, b, o⟩ = o := rfl

theorem fiMu_true (t : FT) (ctx : List Frame) :
    fiMu true t ctx = 4 * sizeFT t + 1 + ctxCost ctx := by
  simp [fiMu]

theorem fiMu_false (t : FT) (ctx : List Frame) : fiMu false t ctx = ctxCost ctx := by
  simp [fiMu]

theorem frameCost_pos (f : Frame) : 1 ≤ frameCost f := by
  rw [frameCost]
  split <;> omega

theorem frameCost_hl {f : Frame} (h : f.hl = true) :
    frameCost f = 4 * sizeFT f.other + 3 := by
  rw [frameCost, if_pos h]

theorem frameCost_nhl {f : Frame} (h : f.hl = false) : frameCost f = 1 := by
  rw [frameCost]
  simp [h]

theorem fiCand_down {q : Int × Int} {t2 : FT} {g : Frame} {rest : List Frame}
    {c : Option Pos} (h : fiCand q (plugF t2 g) rest c)
    (hg : g.hl = true → hitD q g.d = false) :
    fiCand q t2 (g :: rest) c := by
  rcases h with ⟨hc0, hall⟩ | ⟨pre, dc, rc, cc, hctx, hc, hdc, hpre⟩
  · refine Or.inl ⟨hc0, ?_⟩
    intro x hx hxl
    rcases List.mem_cons.mp hx with h1 | h2
    · subst h1
      exact hg hxl
    · exact hall x h2 hxl
  · refine Or.inr ⟨g :: pre, dc, rc, cc, by rw [List.cons_append, hctx], hc, hdc, ?_⟩
    intro x hx hxl
    rcases List.mem_cons.mp hx with h1 | h2
    · subst h1
      exact hg hxl
    · exact hpre x h2 hxl

theorem fiTarget_hit {q : Int × Int} {d : NodeData} {l r : FT} {ctx : List Frame}
    (hd : hitD q d = true) :
    oElse (firstHitIn q l ((⟨d, true, r⟩ : Frame) :: ctx))
        (firstHitAfter q l ((⟨d, true, r⟩ : Frame) :: ctx)) =
      oElse (firstHitIn q (.node d l r) ctx) (firstHitAfter q (.node d l r) ctx) := by
  rw [firstHitIn]
  cases h1 : firstHitIn q l ((⟨d, true, r⟩ : Frame) :: ctx) with
  | some p => simp [oElse]
  | none => simp [oElse, firstHitAfter, plugF, hd]

theorem fiTarget_goleft {q : Int × Int} {d : NodeData} {l r : FT} {ctx : List Frame}
    (hd : hitD q d = false) :
    oElse (firstHitIn q l ((⟨d, true, r⟩ : Frame) :: ctx))
        (firstHitAfter q l ((⟨d, true, r⟩ : Frame) :: ctx)) =
      oElse (firstHitIn q (.node d l r) ctx) (firstHitAfter q (.node d l r) ctx) := by
  rw [firstHitIn]
  cases h1 : firstHitIn q l ((⟨d, true, r⟩ : Frame) :: ctx) with
  | some p => simp [oElse]
  | none =>
    cases h2 : firstHitIn q r ((⟨d, false, l⟩ : Frame) :: ctx) with
    | some p => simp [oElse, firstHitAfter, plugF, hd, h2]
    | none => simp [oElse, firstHitAfter, plugF, hd, h2]

theorem fiTarget_goright {q : Int × Int} {d : NodeData} {r : FT} {ctx : List Frame}
    (hd : hitD q d = false) :
    oElse (firstHitIn q r ((⟨d, false, FT.nil⟩ : Frame) :: ctx))
        (firstHitAfter q r ((⟨d, false, FT.nil⟩ : Frame) :: ctx)) =
      oElse (firstHitIn q (.node d .nil r) ctx) (firstHitAfter q (.node d .nil r) ctx) := by
  rw [firstHitIn]
  simp [oElse, firstHitIn, firstHitAfter, plugF, hd]

theorem fiTarget_back {q : Int × Int} {fd : NodeData} {t o : FT} {rest : List Frame}
    (hd : hitD q fd = false) :
    oElse (firstHitIn q o ((⟨fd, false, t⟩ : Frame) :: rest))
        (firstHitAfter q o ((⟨fd, false, t⟩ : Frame) :: rest)) =
      firstHitAfter q t ((⟨fd, true, o⟩ : Frame) :: rest) := by
  cases h1 : firstHitIn q o ((⟨fd, false, t⟩ : Frame) :: rest) with
  | some p => simp [oElse, firstHitAfter, plugF, hd, h1]
  | none => simp [oElse, firstHitAfter, plugF, hd, h1]

theorem fiTarget_upnil {q : Int × Int} {fd : NodeData} {t : FT} {rest : List Frame}
    (hd : hitD q fd = false) :
    firstHitAfter q (.node fd t .nil) rest =
      firstHitAfter q t ((⟨fd, true, FT.nil⟩ : Frame) :: rest) := by
  rw [firstHitAfter]
  simp [firstHitIn, plugF, hd]

theorem fiTarget_upr {q : Int × Int} {fd : NodeData} {t o : FT} {rest : List Frame} :
    firstHitAfter q (.node fd o t) rest =
      firstHitAfter q t ((⟨fd, false, o⟩ : Frame) :: rest) := by
  rw [firstHitAfter]
  simp [plugF]

theorem fiWalk_node (q : Int × Int) (fuel : Nat) (d : NodeData) (l r : FT)
    (ctx : List Frame) (c : Option Pos) :
    fiWalk q (fuel + 1) true (.node d l r) ctx c =
      if hitD q d then fiWalk q fuel true l (⟨d, true, r⟩ :: ctx) (some (.node d l r, ctx))
      else if hitT q (.node d l r) then
        match l with
        | .node dl ll lr => fiWalk q fuel true (.node dl ll lr) (⟨d, true, r⟩ :: ctx) c
        | .nil => fiWalk q fuel true r (⟨d, false, .nil⟩ :: ctx) c
      else fiWalk q fuel false (.node d l r) ctx c := by
  cases l <;> rfl

theorem fiWalk_back (q : Int × Int) (fuel : Nat) (t : FT) (f : Frame)
    (rest : List Frame) (c : Option Pos) :
    fiWalk q (fuel + 1) false t (f :: rest) c =
      if c = some (plugF t f, rest) then c
      else
        match f.hl, f.other with
        | true, .node od ol or2 =>
          fiWalk q fuel true (.node od ol or2) (⟨f.d, false, t⟩ :: rest) c
        | true, .nil => fiWalk q fuel false (plugF t f) rest c
        | false, _ => fiWalk q fuel false (plugF t f) rest c := by
  obtain ⟨fd, fhl, fo⟩ := f
  cases fhl <;> cases fo <;> rfl

theorem fiWalk_spec {q : Int × Int} {T : FT} (hG : hullInvB T = true)
    (hDom : ∀ e ∈ inorderD T, e.metric ≤ localMax e) :
    ∀ (fuel : Nat) (mode : Bool) (t : FT) (ctx : List Frame) (c : Option Pos),
      plugAll t ctx = T → fiMu mode t ctx ≤ fuel → fiInv q t ctx c →
      fiWalk q fuel mode t ctx c = fiGoal mode q t ctx
  | 0, true, t, ctx, c, hT, hfu, hinv => by
    exfalso
    rw [fiMu_true] at hfu
    omega
  | 0, false, t, f :: rest, c, hT, hfu, hinv => by
    exfalso
    rw [fiMu_false, ctxCost] at hfu
    have := frameCost_pos f
    omega
  | 0, false, t, [], c, hT, hfu, hinv => by
    rcases hinv.1 with ⟨hc0, _⟩ | ⟨pre, dc, rc, cc, hctx, _, _, _⟩
    · rw [fiWalk, hc0, fiGoal, firstHitAfter]
    · exact absurd hctx (by simp)
  | _ + 1, false, t, [], c, hT, hfu, hinv => by
    rcases hinv.1 with ⟨hc0, _⟩ | ⟨pre, dc, rc, cc, hctx, _, _, _⟩
    · rw [fiWalk, hc0, fiGoal, firstHitAfter]
    · exact absurd hctx (by simp)
  | fuel + 1, true, .nil, ctx, c, hT, hfu, hinv => by
    rcases hinv.2 rfl with ⟨hctx, hc⟩ | ⟨dc, rc, cc, hctx, hc, hdc⟩
    · subst hctx
      rw [fiWalk, hc, fiGoal, firstHitIn, firstHitAfter]
      rfl
    · subst hctx
      rw [fiWalk, hc, fiGoal, firstHitIn, firstHitAfter, if_pos rfl, if_pos hdc]
      rfl
  | fuel + 1, true, .node d l r, ctx, c, hT, hfu, hinv => by
    rw [fiWalk_node]
    by_cases hd : hitD q d = true
    · rw [if_pos hd]
      have hT2 : plugAll l ((⟨d, true, r⟩ : Frame) :: ctx) = T := by
        rw [plugAll_left]
        exact hT
      have hfu2 : fiMu true l ((⟨d, true, r⟩ : Frame) :: ctx) ≤ fuel := by
        rw [fiMu_true] at hfu ⊢
        rw [sizeFT] at hfu
        rw [ctxCost, @frameCost_hl ⟨d, true, r⟩ rfl, frame_other_mk]
        omega
      have hinv2 : fiInv q l ((⟨d, true, r⟩ : Frame) :: ctx)
          (some (.node d l r, ctx)) := by
        refine ⟨Or.inr ⟨[], d, r, ctx, by rw [List.nil_append], rfl, hd, ?_⟩, ?_⟩
        · intro x hx
          cases hx
        · intro h0
          exact Or.inr ⟨d, r, ctx, rfl, by rw [← h0], hd⟩
      rw [fiWalk_spec hG hDom fuel true l _ _ hT2 hfu2 hinv2, fiGoal, fiGoal]
      exact fiTarget_hit hd
    · rw [Bool.not_eq_true] at hd
      rw [if_neg (by simp [hd])]
      by_cases ht2 : hitT q (.node d l r) = true
      · rw [if_pos ht2]
        cases l with
        | node dl ll lr =>
          show fiWalk q fuel true (.node dl ll lr) ((⟨d, true, r⟩ : Frame) :: ctx) c =
            fiGoal true q (.node d (.node dl ll lr) r) ctx
          have hT2 : plugAll (FT.node dl ll lr) ((⟨d, true, r⟩ : Frame) :: ctx) = T := by
            rw [plugAll_left]
            exact hT
          have hfu2 : fiMu true (FT.node dl ll lr) ((⟨d, true, r⟩ : Frame) :: ctx) ≤ fuel := by
            rw [fiMu_true] at hfu ⊢
            rw [sizeFT] at hfu
            rw [ctxCost, @frameCost_hl ⟨d, true, r⟩ rfl, frame_other_mk]
            omega
          have hinv2 : fiInv q (FT.node dl ll lr) ((⟨d, true, r⟩ : Frame) :: ctx) c := by
            refine ⟨fiCand_down ?_ ?_, nofun⟩
            · exact hinv.1
            · intro _
              exact hd
          rw [fiWalk_spec hG hDom fuel true _ _ _ hT2 hfu2 hinv2, fiGoal, fiGoal]
          exact fiTarget_goleft hd
        | nil =>
          cases r with
          | nil =>
            exfalso
            have hinvB : hullInvB (FT.node d .nil .nil) = true :=
              hullInvB_pos ctx _ (by rw [hT]; exact hG)
            rw [leaf_hitT hinvB ht2] at hd
            cases hd
          | node dr rl rr =>
            show fiWalk q fuel true (.node dr rl rr)
                ((⟨d, false, FT.nil⟩ : Frame) :: ctx) c =
              fiGoal true q (.node d .nil (.node dr rl rr)) ctx
            have hT2 : plugAll (FT.node dr rl rr)
                ((⟨d, false, FT.nil⟩ : Frame) :: ctx) = T := by
              rw [plugAll_right]
              exact hT
            have hfu2 : fiMu true (FT.node dr rl rr)
                ((⟨d, false, FT.nil⟩ : Frame) :: ctx) ≤ fuel := by
              rw [fiMu_true] at hfu ⊢
              rw [sizeFT] at hfu
              rw [ctxCost, @frameCost_nhl ⟨d, false, FT.nil⟩ rfl]
              omega
            have hinv2 : fiInv q (FT.node dr rl rr)
                ((⟨d, false, FT.nil⟩ : Frame) :: ctx) c := by
              refine ⟨fiCand_down ?_ ?_, nofun⟩
              · exact hinv.1
              · intro hx
                exact absurd hx (by simp)
            rw [fiWalk_spec hG hDom fuel true _ _ _ hT2 hfu2 hinv2, fiGoal, fiGoal]
            exact fiTarget_goright hd
      · rw [if_neg ht2]
        rw [Bool.not_eq_true] at ht2
        have hfu2 : fiMu false (FT.node d l r) ctx ≤ fuel := by
          rw [fiMu_true] at hfu
          rw [fiMu_false]
          omega
        rw [fiWalk_spec hG hDom fuel false _ _ _ hT hfu2 ⟨hinv.1, nofun⟩, fiGoal, fiGoal]
        simp [prune_none hG hDom hT ht2, oElse]
  | fuel + 1, false, t, f :: rest, c, hT, hfu, hinv => by
    obtain ⟨fd, fhl, fo⟩ := f
    rw [fiWalk_back]
    by_cases heq : c = some (plugF t ⟨fd, fhl, fo⟩, rest)
    · rw [if_pos heq, fiGoal]
      exact (fiCand_stop hinv.1 heq).symm
    · rw [if_neg heq]
      obtain ⟨hfd, hcand2⟩ := fiCand_up hinv.1 heq
      cases fhl with
      | false =>
        show fiWalk q fuel false (plugF t (⟨fd, false, fo⟩ : Frame)) rest c =
          fiGoal false q t ((⟨fd, false, fo⟩ : Frame) :: rest)
        have hfu2 : fiMu false (plugF t (⟨fd, false, fo⟩ : Frame)) rest ≤ fuel := by
          rw [fiMu_false] at hfu ⊢
          rw [ctxCost] at hfu
          have := frameCost_pos (⟨fd, false, fo⟩ : Frame)
          omega
        rw [fiWalk_spec hG hDom fuel false (plugF t (⟨fd, false, fo⟩ : Frame)) rest c hT
          hfu2 ⟨hcand2, fun h => absurd h (plugF_ne_nil t ⟨fd, false, fo⟩)⟩, fiGoal, fiGoal]
        exact fiTarget_upr
      | true =>
        cases fo with
        | nil =>
          show fiWalk q fuel false (plugF t (⟨fd, true, FT.nil⟩ : Frame)) rest c =
            fiGoal false q t ((⟨fd, true, FT.nil⟩ : Frame) :: rest)
          have hfu2 : fiMu false (plugF t (⟨fd, true, FT.nil⟩ : Frame)) rest ≤ fuel := by
            rw [fiMu_false] at hfu ⊢
            rw [ctxCost] at hfu
            have := frameCost_pos (⟨fd, true, FT.nil⟩ : Frame)
            omega
          rw [fiWalk_spec hG hDom fuel false (plugF t (⟨fd, true, FT.nil⟩ : Frame)) rest c hT
            hfu2 ⟨hcand2, fun h => absurd h (plugF_ne_nil t ⟨fd, true, FT.nil⟩)⟩, fiGoal, fiGoal]
          exact fiTarget_upnil (hfd rfl)
        | node od ol or2 =>
          show fiWalk q fuel true (.node od ol or2) ((⟨fd, false, t⟩ : Frame) :: rest) c =
            fiGoal false q t ((⟨fd, true, .node od ol or2⟩ : Frame) :: rest)
          have hT2 : plugAll (FT.node od ol or2) ((⟨fd, false, t⟩ : Frame) :: rest) = T := by
            rw [plugAll_right]
            exact hT
          have hfu2 : fiMu true (FT.node od ol or2)
              ((⟨fd, false, t⟩ : Frame) :: rest) ≤ fuel := by
            rw [fiMu_true, ctxCost, @frameCost_nhl ⟨fd, false, t⟩ rfl]
            rw [fiMu_false, ctxCost, @frameCost_hl ⟨fd, true, FT.node od ol or2⟩ rfl] at hfu
            rw [frame_other_mk] at hfu
            omega
          have hinv2 : fiInv q (FT.node od ol or2)
              ((⟨fd, false, t⟩ : Frame) :: rest) c := by
            refine ⟨fiCand_down ?_ ?_, nofun⟩
            · exact hcand2
            · intro _
              exact hfd rfl
          rw [fiWalk_spec hG hDom fuel true _ _ _ hT2 hfu2 hinv2, fiGoal, fiGoal]
          exact fiTarget_back (hfd rfl)

theorem findIntersecting_spec {q : Int × Int} {T : FT} (hG : hullInvB T = true)
    (hDom : ∀ e ∈ inorderD T, e.metric ≤ localMax e) :
    findIntersecting q T = firstHitIn q T [] := by
  rw [findIntersecting]
  rw [fiWalk_spec hG hDom (4 * sizeFT T + 1) true T [] none (by rw [plugAll])
    (by rw [fiMu_true, ctxCost]) ⟨Or.inl ⟨rfl, by simp⟩, fun _ => Or.inl ⟨rfl, rfl⟩⟩]
  rw [fiGoal]
  cases h1 : firstHitIn q T [] with
  | some p => simp [oElse]
  | none => simp [oElse, firstHitAfter]

theorem inorderD_length : ∀ t : FT, (inorderD t).length = sizeFT t
  | .nil => rfl
  | .node d l r => by
    rw [inorderD, sizeFT]
    simp [inorderD_length l, inorderD_length r]
    omega

theorem hitD_gt {q : Int × Int} {d : NodeData} (hq : q.1 ≤ q.2)
    (hm : q.2 < d.metric) : hitD q d = false := by
  rw [hitD, localHull, hitIvl]
  simp only [Bool.or_eq_false_iff, Bool.and_eq_false_iff, decide_eq_false_iff_not, not_le]
  omega

theorem metric_lt_after {T : FT} {d : NodeData} {l r : FT} {ctx : List Frame}
    (hT : plugAll (.node d l r) ctx = T)
    (hS : List.Pairwise (fun a b : NodeData => a.metric < b.metric) (inorderD T)) :
    ∀ e ∈ inorderD r ++ afterD (.node d l r) ctx, d.metric < e.metric := by
  rw [← hT, inorder_decomp, inorderD, List.append_assoc] at hS
  have h2 := (List.pairwise_append.mp hS).2.1
  rw [List.append_assoc] at h2
  have h3 := (List.pairwise_append.mp h2).2.1
  rw [List.cons_append] at h3
  exact (List.pairwise_cons.mp h3).1

theorem fiTarget_left {q : Int × Int} {d : NodeData} {l r : FT} {ctx : List Frame} :
    oElse (firstHitIn q l ((⟨d, true, r⟩ : Frame) :: ctx))
        (firstHitAfter q l ((⟨d, true, r⟩ : Frame) :: ctx)) =
      oElse (firstHitIn q (.node d l r) ctx) (firstHitAfter q (.node d l r) ctx) := by
  by_cases hd : hitD q d = true
  · exact fiTarget_hit hd
  · rw [Bool.not_eq_true] at hd
    exact fiTarget_goleft hd

theorem fiGoal_nil {q : Int × Int} (ctx : List Frame) :
    fiGoal true q .nil ctx = firstHitAfter q .nil ctx := by
  rw [fiGoal, firstHitIn]
  rfl

theorem scanLoop_none {q : Int × Int} : ∀ fuel, scanLoop q fuel none = none
  | 0 => rfl
  | _ + 1 => rfl

theorem leftmost_target {q : Int × Int} :
    ∀ (l : FT) (d : NodeData) (r : FT) (ctx : List Frame),
    ∃ d4 r4 ctx4, leftmostPos (.node d l r) ctx = (.node d4 .nil r4, ctx4) ∧
      plugAll (.node d4 .nil r4) ctx4 = plugAll (.node d l r) ctx ∧
      fiGoal true q (.node d l r) ctx =
        (if hitD q d4 = true then some (FT.node d4 .nil r4, ctx4)
         else fiGoal true q r4 ((⟨d4, false, FT.nil⟩ : Frame) :: ctx4)) ∧
      inorderD (.node d l r) ++ afterD (.node d l r) ctx =
        d4 :: (inorderD r4 ++ afterD (.node d4 .nil r4) ctx4)
  | .nil, d, r, ctx => by
    refine ⟨d, r, ctx, rfl, rfl, ?_, ?_⟩
    · by_cases hd : hitD q d = true
      · rw [if_pos hd, fiGoal, firstHitIn, firstHitIn]
        simp [oElse, hd]
      · rw [Bool.not_eq_true] at hd
        rw [if_neg (by simp [hd]), fiGoal, fiGoal, firstHitIn, firstHitIn]
        cases h5 : firstHitIn q r ((⟨d, false, FT.nil⟩ : Frame) :: ctx) with
        | some p => simp [oElse, hd, h5]
        | none => simp [oElse, hd, h5, firstHitAfter, plugF]
    · rw [inorderD, inorderD]
      rfl
  | .node dl ll lr, d, r, ctx => by
    rw [leftmostPos]
    obtain ⟨d4, r4, ctx4, h1, h2, h3, h4⟩ :=
      leftmost_target ll dl lr ((⟨d, true, r⟩ : Frame) :: ctx)
    refine ⟨d4, r4, ctx4, h1, ?_, ?_, ?_⟩
    · rw [h2, plugAll_left]
    · rw [← h3, fiGoal, fiGoal]
      exact fiTarget_left.symm
    · rw [inorderD, List.append_assoc, ← afterD_left]
      exact h4

theorem upSucc_none {q : Int × Int} : ∀ (ctx : List Frame) (t : FT),
    upSucc t ctx = none → firstHitAfter q t ctx = none
  | [], t, _ => rfl
  | f :: rest, t, h => by
    obtain ⟨fd, fhl, fo⟩ := f
    cases fhl with
    | true =>
      rw [upSucc, if_pos rfl] at h
      cases h
    | false =>
      rw [upSucc, if_neg (by simp)] at h
      have h2 := @upSucc_none q rest (plugF t (⟨fd, false, fo⟩ : Frame)) h
      exact (fiTarget_upr).symm.trans h2

theorem upSucc_some {q : Int × Int} : ∀ (ctx : List Frame) (t : FT) (p5 : Pos),
    upSucc t ctx = some p5 → ∃ d5 l5 r5 ctx5, p5 = (FT.node d5 l5 r5, ctx5) ∧
      plugAll (FT.node d5 l5 r5) ctx5 = plugAll t ctx ∧
      firstHitAfter q t ctx =
        (if hitD q d5 = true then some p5
         else fiGoal true q r5 ((⟨d5, false, l5⟩ : Frame) :: ctx5)) ∧
      afterD t ctx = d5 :: (inorderD r5 ++ afterD (FT.node d5 l5 r5) ctx5)
  | [], t, p5, h => by rw [upSucc] at h; cases h
  | f :: rest, t, p5, h => by
    obtain ⟨fd, fhl, fo⟩ := f
    cases fhl with
    | true =>
      rw [upSucc, if_pos rfl] at h
      have h2 : (plugF t (⟨fd, true, fo⟩ : Frame), rest) = p5 := Option.some.inj h
      subst h2
      refine ⟨fd, t, fo, rest, by rw [plugF_hl rfl], by rw [plugAll, plugF_hl rfl], ?_, ?_⟩
      · by_cases hd : hitD q fd = true
        · rw [if_pos hd, firstHitAfter, if_pos rfl, if_pos hd]
        · rw [Bool.not_eq_true] at hd
          rw [if_neg (by simp [hd]), fiGoal]
          exact (fiTarget_back hd).symm
      · rw [afterD_cons_hl rfl, plugF_hl rfl, List.cons_append]
    | false =>
      rw [upSucc, if_neg (by simp)] at h
      obtain ⟨d5, l5, r5, ctx5, he, hplug, hfa, haft⟩ :=
        upSucc_some rest (plugF t (⟨fd, false, fo⟩ : Frame)) p5 h
      refine ⟨d5, l5, r5, ctx5, he, ?_, ?_, ?_⟩
      · rw [hplug, plugAll]
      · rw [← hfa]
        exact fiTarget_upr.symm
      · rw [afterD_cons_nhl rfl]
        exact haft

theorem rightmost_target {q : Int × Int} :
    ∀ (r : FT) (d : NodeData) (l : FT) (ctx : List Frame),
    ∃ d6 l6 ctx6, rightmostPos (.node d l r) ctx = (.node d6 l6 .nil, ctx6) ∧
      plugAll (.node d6 l6 .nil) ctx6 = plugAll (.node d l r) ctx ∧
      firstHitAfter q (.node d6 l6 .nil) ctx6 = firstHitAfter q (.node d l r) ctx ∧
      afterD (.node d6 l6 .nil) ctx6 = afterD (.node d l r) ctx
  | .nil, d, l, ctx => ⟨d, l, ctx, rfl, rfl, rfl, rfl⟩
  | .node dr rl rr, d, l, ctx => by
    rw [rightmostPos]
    obtain ⟨d6, l6, ctx6, h1, h2, h3, h4⟩ :=
      rightmost_target rr dr rl ((⟨d, false, l⟩ : Frame) :: ctx)
    refine ⟨d6, l6, ctx6, h1, ?_, ?_, ?_⟩
    · rw [h2, plugAll_right]
    · rw [h3]
      exact fiTarget_upr.symm
    · rw [h4, afterD_right]

theorem prune_sub {q : Int × Int} {T : FT} {d : NodeData} {l r : FT} {ctx : List Frame}
    (hG : hullInvB T = true) (hDom : ∀ e ∈ inorderD T, e.metric ≤ localMax e)
    (hT : plugAll (.node d l r) ctx = T) (hmiss : hitT q (.node d l r) = false) :
    firstHitIn q r ((⟨d, false, l⟩ : Frame) :: ctx) = none := by
  refine (firstHitIn_none _ _).mpr ?_
  have hall := prune_sound (hullInvB_pos ctx _ (by rw [hT]; exact hG))
    (fun e he => hDom e (by rw [← hT]; exact mem_inorder_plug he)) hmiss
  intro e he
  exact hall e (by rw [inorderD]; simp [he])

theorem scanLoop_node (q : Int × Int) (fuel : Nat) (d : NodeData) (l r : FT)
    (ctx : List Frame) :
    scanLoop q (fuel + 1) (some (.node d l r, ctx)) =
      if hitD q d then some (FT.node d l r, ctx)
      else if q.2 < d.metric then none
      else scanLoop q fuel (succPos
        (if hitT q (.node d l r) then (FT.node d l r, ctx)
         else rightmostPos (.node d l r) ctx)) := rfl

theorem succPos_right (d : NodeData) (l : FT) (dr : NodeData) (rl rr : FT)
    (ctx : List Frame) :
    succPos (.node d l (.node dr rl rr), ctx) =
      some (leftmostPos (.node dr rl rr) ((⟨d, false, l⟩ : Frame) :: ctx)) := rfl

theorem succPos_nilr (d : NodeData) (l : FT) (ctx : List Frame) :
    succPos (.node d l .nil, ctx) = upSucc (.node d l .nil) ctx := rfl

theorem scanLoop_spec {q : Int × Int} {T : FT} (hq : q.1 ≤ q.2) (hG : hullInvB T = true)
    (hDom : ∀ e ∈ inorderD T, e.metric ≤ localMax e)
    (hS : List.Pairwise (fun a b : NodeData => a.metric < b.metric) (inorderD T)) :
    ∀ (fuel : Nat) (d : NodeData) (l r : FT) (ctx : List Frame),
      plugAll (.node d l r) ctx = T →
      (inorderD r ++ afterD (.node d l r) ctx).length + 1 ≤ fuel →
      scanLoop q fuel (some (.node d l r, ctx)) =
        if hitD q d = true then some (FT.node d l r, ctx)
        else fiGoal true q r ((⟨d, false, l⟩ : Frame) :: ctx)
  | 0, d, l, r, ctx, hT, hfu => by omega
  | fuel + 1, d, l, r, ctx, hT, hfu => by
    rw [scanLoop_node]
    by_cases hd : hitD q d = true
    · rw [if_pos hd, if_pos hd]
    · rw [Bool.not_eq_true] at hd
      have hd2 : ¬(hitD q d = true) := by simp [hd]
      rw [if_neg hd2, if_neg hd2]
      by_cases hc : q.2 < d.metric
      · rw [if_pos hc, fiGoal]
        have hnone : ∀ e ∈ inorderD r ++ afterD (.node d l r) ctx, hitD q e = false :=
          fun e he => hitD_gt hq (lt_trans hc (metric_lt_after hT hS e he))
        rw [(firstHitIn_none r _).mpr
          (fun e he => hnone e (List.mem_append.mpr (Or.inl he)))]
        rw [(firstHitAfter_none _ r).mpr (fun e he => hnone e (List.mem_append.mpr
          (Or.inr (by rw [afterD_right] at he; exact he))))]
        rfl
      · rw [if_neg hc]
        by_cases ht : hitT q (.node d l r) = true
        · rw [if_pos ht]
          cases r with
          | node dr rl rr =>
            rw [succPos_right]
            obtain ⟨d4, r4, ctx4, h1, h2, h3, h4⟩ :=
              @leftmost_target q rl dr rr ((⟨d, false, l⟩ : Frame) :: ctx)
            rw [h1]
            have hT2 : plugAll (.node d4 .nil r4) ctx4 = T := by
              rw [h2, plugAll_right]
              exact hT
            have hlen : ((inorderD r4 ++ afterD (.node d4 .nil r4) ctx4).length + 1 ≤ fuel) := by
              have h5 := congrArg List.length h4
              rw [← afterD_right] at hfu
              simp only [List.length_append, List.length_cons, inorderD] at h5 hfu ⊢
              omega
            rw [scanLoop_spec hq hG hDom hS fuel d4 FT.nil r4 ctx4 hT2 hlen]
            exact h3.symm
          | nil =>
            rw [succPos_nilr]
            cases hu : upSucc (FT.node d l FT.nil) ctx with
            | none =>
              rw [scanLoop_none, fiGoal_nil, ← fiTarget_upr, upSucc_none ctx _ hu]
            | some p5 =>
              obtain ⟨d5, l5, r5, ctx5, he, hplug, hfa, haft⟩ := @upSucc_some q ctx _ p5 hu
              subst he
              have hT2 : plugAll (.node d5 l5 r5) ctx5 = T := hplug.trans hT
              have hlen : ((inorderD r5 ++ afterD (.node d5 l5 r5) ctx5).length + 1 ≤ fuel) := by
                have h5 := congrArg List.length haft
                simp only [List.length_append, List.length_cons, inorderD,
                  List.length_nil] at h5 hfu ⊢
                omega
              rw [scanLoop_spec hq hG hDom hS fuel d5 l5 r5 ctx5 hT2 hlen]
              rw [fiGoal_nil, ← fiTarget_upr, hfa]
        · rw [if_neg ht]
          rw [Bool.not_eq_true] at ht
          obtain ⟨d6, l6, ctx6, h1, h2, h3, h4⟩ := @rightmost_target q r d l ctx
          rw [h1, succPos_nilr]
          cases hu : upSucc (FT.node d6 l6 FT.nil) ctx6 with
          | none =>
            rw [scanLoop_none, fiGoal, prune_sub hG hDom hT ht, ← fiTarget_upr, ← h3,
              upSucc_none ctx6 _ hu]
            rfl
          | some p5 =>
            obtain ⟨d5, l5, r5, ctx5, he, hplug, hfa, haft⟩ := @upSucc_some q ctx6 _ p5 hu
            subst he
            have hT2 : plugAll (.node d5 l5 r5) ctx5 = T := hplug.trans (h2.trans hT)
            have hlen : ((inorderD r5 ++ afterD (.node d5 l5 r5) ctx5).length + 1 ≤ fuel) := by
              have h5 := congrArg List.length haft
              have h6 := congrArg List.length h4
              simp only [List.length_append, List.length_cons, inorderD,
                List.length_nil] at h5 h6 hfu ⊢
              omega
            rw [scanLoop_spec hq hG hDom hS fuel d5 l5 r5 ctx5 hT2 hlen]
            conv_rhs => rw [fiGoal]
            rw [prune_sub hG hDom hT ht, ← fiTarget_upr, ← h3, hfa]
            rfl

theorem seq_length_le {T t : FT} {ctx : List Frame} (hT : plugAll t ctx = T) :
    (inorderD t).length + (afterD t ctx).length ≤ sizeFT T := by
  have h := congrArg List.length (inorder_decomp ctx t)
  rw [hT, inorderD_length] at h
  simp only [List.length_append] at h
  omega

theorem scanFrom_spec {q : Int × Int} {T : FT} (hq : q.1 ≤ q.2) (hG : hullInvB T = true)
    (hDom : ∀ e ∈ inorderD T, e.metric ≤ localMax e)
    (hS : List.Pairwise (fun a b : NodeData => a.metric < b.metric) (inorderD T))
    {d : NodeData} {l r : FT} {ctx : List Frame}
    (hT : plugAll (.node d l r) ctx = T) :
    scanFrom q T (.node d l r, ctx) = fiGoal true q r ((⟨d, false, l⟩ : Frame) :: ctx) := by
  rw [scanFrom]
  cases r with
  | node dr rl rr =>
    rw [succPos_right]
    obtain ⟨d4, r4, ctx4, h1, h2, h3, h4⟩ :=
      @leftmost_target q rl dr rr ((⟨d, false, l⟩ : Frame) :: ctx)
    rw [h1]
    have hT2 : plugAll (.node d4 .nil r4) ctx4 = T := by
      rw [h2, plugAll_right]
      exact hT
    have hlen : (inorderD r4 ++ afterD (.node d4 .nil r4) ctx4).length + 1 ≤ sizeFT T + 1 := by
      have h6 := seq_length_le hT2
      simp only [List.length_append, inorderD, List.length_cons, List.length_nil,
        List.nil_append] at h6 ⊢
      omega
    rw [scanLoop_spec hq hG hDom hS _ d4 FT.nil r4 ctx4 hT2 hlen]
    exact h3.symm
  | nil =>
    rw [succPos_nilr]
    cases hu : upSucc (FT.node d l FT.nil) ctx with
    | none =>
      rw [scanLoop_none, fiGoal_nil, ← fiTarget_upr, upSucc_none ctx _ hu]
    | some p5 =>
      obtain ⟨d5, l5, r5, ctx5, he, hplug, hfa, haft⟩ := @upSucc_some q ctx _ p5 hu
      subst he
      have hT2 : plugAll (.node d5 l5 r5) ctx5 = T := hplug.trans hT
      have hlen : (inorderD r5 ++ afterD (.node d5 l5 r5) ctx5).length + 1 ≤ sizeFT T + 1 := by
        have h6 := seq_length_le hT2
        simp only [List.length_append, inorderD, List.length_cons] at h6 ⊢
        omega
      rw [scanLoop_spec hq hG hDom hS _ d5 l5 r5 ctx5 hT2 hlen]
      rw [fiGoal_nil, ← fiTarget_upr, hfa]

theorem fiGoal_none {q : Int × Int} {t : FT} {ctx : List Frame}
    (h : fiGoal true q t ctx = none) :
    (inorderD t ++ afterD t ctx).filter (hitD q) = [] := by
  rw [fiGoal] at h
  cases h1 : firstHitIn q t ctx with
  | some p =>
    rw [h1] at h
    have h2 : some p = none := h
    cases h2
  | none =>
    rw [h1] at h
    have h2 : firstHitAfter q t ctx = none := h
    rw [List.filter_append]
    rw [List.filter_eq_nil_iff.mpr (fun e he => by
      rw [(firstHitIn_none t ctx).mp h1 e he]
      exact Bool.false_ne_true)]
    rw [List.filter_eq_nil_iff.mpr (fun e he => by
      rw [(firstHitAfter_none ctx t).mp h2 e he]
      exact Bool.false_ne_true)]
    rfl

theorem fiGoal_some {q : Int × Int} {t : FT} {ctx : List Frame} {p : Pos}
    (h : fiGoal true q t ctx = some p) :
    ∃ d2 l2 r2 ctx2, p = (FT.node d2 l2 r2, ctx2) ∧ hitD q d2 = true ∧
      plugAll (FT.node d2 l2 r2) ctx2 = plugAll t ctx ∧
      (inorderD t ++ afterD t ctx).filter (hitD q) =
        d2 :: (inorderD r2 ++ afterD (FT.node d2 l2 r2) ctx2).filter (hitD q) := by
  rw [fiGoal] at h
  cases h1 : firstHitIn q t ctx with
  | some p1 =>
    rw [h1] at h
    have h2 : p1 = p := Option.some.inj h
    subst h2
    exact firstHitIn_some t ctx p1 h1
  | none =>
    rw [h1] at h
    have h2 : firstHitAfter q t ctx = some p := h
    obtain ⟨d2, l2, r2, ctx2, he, hhit, hplug, hfilter⟩ := firstHitAfter_some ctx t p h2
    refine ⟨d2, l2, r2, ctx2, he, hhit, hplug, ?_⟩
    rw [List.filter_append]
    rw [List.filter_eq_nil_iff.mpr (fun e he2 => by
      rw [(firstHitIn_none t ctx).mp h1 e he2]
      exact Bool.false_ne_true)]
    rw [List.nil_append]
    exact hfilter

theorem posStream_node (q : Int × Int) (T : FT) (fuel : Nat) (d : NodeData) (l r : FT)
    (ctx : List Frame) :
    posStream q T (fuel + 1) (some (.node d l r, ctx)) =
      d :: posStream q T fuel (scanFrom q T (.node d l r, ctx)) := rfl

theorem posStream_eq {q : Int × Int} {T : FT} (hq : q.1 ≤ q.2) (hG : hullInvB T = true)
    (hDom : ∀ e ∈ inorderD T, e.metric ≤ localMax e)
    (hS : List.Pairwise (fun a b : NodeData => a.metric < b.metric) (inorderD T)) :
    ∀ (fuel : Nat) (t : FT) (ctx : List Frame), plugAll t ctx = T →
      ((inorderD t ++ afterD t ctx).filter (hitD q)).length < fuel →
      posStream q T fuel (fiGoal true q t ctx) =
        (inorderD t ++ afterD t ctx).filter (hitD q)
  | 0, t, ctx, hT, hfu => absurd hfu (by omega)
  | fuel + 1, t, ctx, hT, hfu => by
    cases h1 : fiGoal true q t ctx with
    | none =>
      rw [fiGoal_none h1]
      rfl
    | some p =>
      obtain ⟨d2, l2, r2, ctx2, he, hhit, hplug, hfilter⟩ := fiGoal_some h1
      subst he
      have hT2 : plugAll r2 ((⟨d2, false, l2⟩ : Frame) :: ctx2) = T := by
        rw [plugAll_right]
        exact hplug.trans hT
      have hlen2 : ((inorderD r2 ++
          afterD r2 ((⟨d2, false, l2⟩ : Frame) :: ctx2)).filter (hitD q)).length < fuel := by
        rw [afterD_right]
        have h5 := congrArg List.length hfilter
        simp only [List.length_cons] at h5
        omega
      rw [hfilter, posStream_node, scanFrom_spec hq hG hDom hS (hplug.trans hT)]
      rw [posStream_eq hq hG hDom hS fuel r2 ((⟨d2, false, l2⟩ : Frame) :: ctx2) hT2 hlen2]
      rw [afterD_right]

theorem stream_final {q : Int × Int} {T : FT} (hq : q.1 ≤ q.2) (hG : hullInvB T = true)
    (hDom : ∀ e ∈ inorderD T, e.metric ≤ localMax e)
    (hS : List.Pairwise (fun a b : NodeData => a.metric < b.metric) (inorderD T)) :
    posStream q T (sizeFT T + 1) (findIntersecting q T) = (inorderD T).filter (hitD q) := by
  have h1 : findIntersecting q T = fiGoal true q T [] := by
    rw [findIntersecting_spec hG hDom, fiGoal]
    cases h2 : firstHitIn q T [] with
    | some p => rfl
    | none =>
      rw [firstHitAfter]
      rfl
  rw [h1]
  rw [posStream_eq hq hG hDom hS (sizeFT T + 1) T [] rfl (by
    rw [afterD, List.append_nil]
    have h4 := List.length_filter_le (hitD q) (inorderD T)
    have h5 := inorderD_length T
    omega)]
  rw [afterD, List.append_nil]

theorem chain_le_last : ∀ {l : List Int}, List.Chain' (· ≤ ·) l →
    ∀ a ∈ l, ∀ b, l.getLast? = some b → a ≤ b
  | [], _, a, ha, _, _ => absurd ha (List.not_mem_nil a)
  | [x], _, a, ha, b, hb => by
    rw [List.mem_singleton] at ha
    have hb2 : x = b := Option.some.inj hb
    rw [ha, hb2]
  | x :: y :: ys, hc, a, ha, b, hb => by
    rw [List.getLast?_cons_cons] at hb
    rcases List.mem_cons.mp ha with h1 | h2
    · have hxy : x ≤ y := (List.chain'_cons.mp hc).1
      have hyb := chain_le_last (List.chain'_cons.mp hc).2 y (List.mem_cons_self y ys) b hb
      rw [h1]
      exact le_trans hxy hyb
    · exact chain_le_last (List.chain'_cons.mp hc).2 a h2 b hb

theorem mem_le_localMax {d : NodeData} (h : dOK d) {k : Int} (hk : k ∈ d.maxima) :
    k ≤ localMax d := by
  cases hg : d.maxima.getLast? with
  | none => exact absurd (List.getLast?_eq_none_iff.mp hg) h.1
  | some a =>
    rw [localMax, hg]
    exact chain_le_last h.2.1 k hk a hg

theorem sorted_dropWhile_filter {c : Int} :
    ∀ {l : List Int}, List.Chain' (· ≤ ·) l →
      l.dropWhile (fun k => decide (k < c)) = l.filter (fun k => decide (c ≤ k))
  | [], _ => rfl
  | x :: xs, hc => by
    by_cases hx : x < c
    · rw [List.dropWhile_cons_of_pos (by
          simp only [decide_eq_true_eq]
          exact hx),
        @List.filter_cons_of_neg _ (fun k => decide (c ≤ k)) x xs (by
          simp only [decide_eq_true_eq]
          omega)]
      exact sorted_dropWhile_filter (List.Chain'.tail hc)
    · rw [List.dropWhile_cons_of_neg (by
          simp only [decide_eq_true_eq]
          exact hx),
        @List.filter_cons_of_pos _ (fun k => decide (c ≤ k)) x xs (by
          simp only [decide_eq_true_eq]
          omega)]
      congr 1
      refine (List.filter_eq_self.mpr ?_).symm
      intro a ha
      have hxa : x ≤ a := (List.pairwise_cons.mp (List.chain'_iff_pairwise.mp hc)).1 a ha
      simp only [decide_eq_true_eq]
      omega

theorem hitD_true_elems {q : Int × Int} {d : NodeData} (hq : q.1 ≤ q.2) (hd : dOK d)
    (hh : hitD q d = true) :
    nodeElems q d = (d.maxima.map (fun k => (d.metric, k))).filter (hitIvl q) := by
  have hm2 : d.metric ≤ q.2 := by
    rw [hitD, hitIvl_iff] at hh
    have h1 := dOK_localMax hd
    have e1 : (localHull d).1 = d.metric := rfl
    have e2 : (localHull d).2 = localMax d := rfl
    rw [e1, e2] at hh
    omega
  have hcg : d.maxima.filter (hitIvl q ∘ fun k => (d.metric, k)) =
      d.maxima.filter (fun k => decide (q.1 ≤ k)) := by
    refine List.filter_congr ?_
    intro k hk
    have h1 : d.metric ≤ k := hd.2.2 k hk
    show hitIvl q (d.metric, k) = decide (q.1 ≤ k)
    rw [Bool.eq_iff_iff, hitIvl_iff, decide_eq_true_eq]
    show (d.metric ≤ q.1 ∧ q.1 ≤ k) ∨ (q.1 ≤ d.metric ∧ d.metric ≤ q.2) ↔ q.1 ≤ k
    constructor
    · intro h
      omega
    · intro h
      omega
  rw [nodeElems, List.filter_map, hcg, sorted_dropWhile_filter hd.2.1]

theorem hitD_false_elems {q : Int × Int} {d : NodeData} (hd : dOK d)
    (hh : hitD q d = false) :
    (d.maxima.map (fun k => (d.metric, k))).filter (hitIvl q) = [] := by
  refine List.filter_eq_nil_iff.mpr ?_
  intro p hp
  obtain ⟨k, hk, hpk⟩ := List.mem_map.mp hp
  have h1 : d.metric ≤ k := hd.2.2 k hk
  have h2 : k ≤ localMax d := mem_le_localMax hd hk
  have hh2 : ¬(hitIvl q (localHull d) = true) := by
    rw [show hitIvl q (localHull d) = hitD q d from rfl, hh]
    exact Bool.false_ne_true
  rw [hitIvl_iff] at hh2
  have e1 : (localHull d).1 = d.metric := rfl
  have e2 : (localHull d).2 = localMax d := rfl
  rw [e1, e2] at hh2
  intro hcon
  rw [← hpk, hitIvl_iff] at hcon
  have e3 : ((d.metric, k) : Int × Int).1 = d.metric := rfl
  have e4 : ((d.metric, k) : Int × Int).2 = k := rfl
  rw [e3, e4] at hcon
  exact hh2 (by omega)

theorem elems_filter {q : Int × Int} :
    ∀ {l : List NodeData}, q.1 ≤ q.2 → (∀ d ∈ l, dOK d) →
    ((l.filter (hitD q)).map (nodeElems q)).flatten =
      ((l.map (fun d => d.maxima.map (fun k => (d.metric, k)))).flatten).filter (hitIvl q)
  | [], _, _ => rfl
  | d :: ds, hq, hOK => by
    rw [List.map_cons, List.flatten_cons, List.filter_append]
    cases hd : hitD q d with
    | true =>
      rw [@List.filter_cons_of_pos _ (hitD q) d ds hd, List.map_cons, List.flatten_cons]
      rw [hitD_true_elems hq (hOK d (List.mem_cons_self d ds)) hd]
      rw [elems_filter hq (fun e he => hOK e (List.mem_cons_of_mem d he))]
    | false =>
      rw [@List.filter_cons_of_neg _ (hitD q) d ds (by
        rw [hd]
        exact Bool.false_ne_true)]
      rw [hitD_false_elems (hOK d (List.mem_cons_self d ds)) hd, List.nil_append]
      exact elems_filter hq (fun e he => hOK e (List.mem_cons_of_mem d he))

theorem visitPairs_eq {q : Int × Int} {T : FT} (hq : q.1 ≤ q.2) (hw : wfT none none T)
    (hG : hullInvB T = true) :
    visitPairs q T = (inorderPairs T).filter (hitIvl q) := by
  rw [visitPairs, inorderPairs]
  rw [stream_final hq hG (fun e he => dOK_localMax (wfT_dOK hw e he)) (wfT_pairwise hw)]
  exact elems_filter hq (wfT_dOK hw)

theorem inorderPairs_pairwise {T : FT} (hw : wfT none none T) :
    List.Pairwise lexLE (inorderPairs T) := by
  rw [inorderPairs, List.pairwise_flatten]
  constructor
  · intro l hl
    obtain ⟨d, hd, hld⟩ := List.mem_map.mp hl
    rw [← hld, List.pairwise_map]
    have hOK := wfT_dOK hw d hd
    exact (List.chain'_iff_pairwise.mp hOK.2.1).imp (fun h => Or.inr ⟨rfl, h⟩)
  · rw [List.pairwise_map]
    refine (wfT_pairwise hw).imp ?_
    intro a b hab x hx y hy
    obtain ⟨k1, hk1m, hk1⟩ := List.mem_map.mp hx
    obtain ⟨k2, hk2m, hk2⟩ := List.mem_map.mp hy
    rw [← hk1, ← hk2]
    exact Or.inl hab

/-- Claim C1: for every well-formed flowspace layer tree with valid cached
hulls and every non-empty query interval, the cursor iteration started by
`find_intersecting` and advanced by `scan` visits exactly the stored
`(minimum, maximum)` pairs that intersect the query — each stored
intersecting pair exactly once, none other — and visits them in ascending
lexicographic order of (interval minimum, then interval maximum). -/
theorem flowspace_query_complete {q : Int × Int} {T : FT} (hq : q.1 ≤ q.2)
    (hw : wfT none none T) (hG : hullInvB T = true) :
    visitPairs q T = (inorderPairs T).filter (hitIvl q) ∧
      List.Pairwise lexLE (visitPairs q T) := by
  refine ⟨visitPairs_eq hq hw hG, ?_⟩
  rw [visitPairs_eq hq hw hG]
  exact List.Pairwise.sublist (List.filter_sublist _) (inorderPairs_pairwise hw)

theorem flowspace_query_complete_witness :
    visitPairs (0, 1) (FT.node ⟨false, 0, [0], (0, 0)⟩ .nil .nil) =
        (inorderPairs (FT.node ⟨false, 0, [0], (0, 0)⟩ .nil .nil)).filter (hitIvl (0, 1)) ∧
      List.Pairwise lexLE (visitPairs (0, 1) (FT.node ⟨false, 0, [0], (0, 0)⟩ .nil .nil)) :=
  flowspace_query_complete (by decide)
    ⟨nofun, nofun, by decide, List.chain'_singleton 0, by decide, trivial, trivial⟩ (by decide)

theorem testBit_false_of_dvd {a k i : Nat} (hd : 2 ^ k ∣ a) (hi : i < k) :
    a.testBit i = false := by
  have h0 : a % 2 ^ k = 0 := Nat.mod_eq_zero_of_dvd hd
  have h := Nat.testBit_mod_two_pow a k i
  rw [h0, Nat.zero_testBit] at h
  simp [hi] at h
  exact h

theorem lor_of_aligned {a r k : Nat} (hd : 2 ^ k ∣ a) (hr : r < 2 ^ k) :
    a ||| r = a + r := by
  apply Nat.eq_of_testBit_eq
  intro i
  rw [Nat.testBit_lor]
  rcases lt_or_le i k with hik | hik
  · have ha : a.testBit i = false := testBit_false_of_dvd hd hik
    have hmod : (a + r) % 2 ^ k = r := by
      rw [Nat.add_mod, Nat.mod_eq_zero_of_dvd hd, Nat.zero_add, Nat.mod_mod_of_dvd,
        Nat.mod_eq_of_lt hr]
      exact dvd_refl _
    have h := Nat.testBit_mod_two_pow (a + r) k i
    rw [hmod] at h
    simp [hik] at h
    rw [← h, ha]
    simp
  · have hr' : r.testBit i = false :=
      Nat.testBit_eq_false_of_lt (lt_of_lt_of_le hr (Nat.pow_le_pow_right (by norm_num) hik))
    have hsr : (a + r) >>> k = a >>> k := by
      rw [Nat.shiftRight_eq_div_pow, Nat.shiftRight_eq_div_pow]
      rcases hd with ⟨q, hq⟩
      subst hq
      rw [Nat.mul_add_div (Nat.pos_pow_of_pos _ (by norm_num)),
        Nat.div_eq_of_lt hr, Nat.mul_div_cancel_left _ (Nat.pos_pow_of_pos _ (by norm_num)),
        Nat.add_zero]
    have h1 := Nat.testBit_shiftRight (i := k) (j := i - k) (a + r)
    have h2 := Nat.testBit_shiftRight (i := k) (j := i - k) a
    rw [hsr] at h1
    have hki : k + (i - k) = i := by omega
    rw [hki] at h1 h2
    rw [← h1, h2, hr']
    simp

theorem land_mask_of_aligned {a k w : Nat} (ha : a < 2 ^ w) (hd : 2 ^ k ∣ a) (hk : k ≤ w) :
    a &&& (2 ^ w - 2 ^ k) = a := by
  have hmask : ∀ i, (2 ^ w - 2 ^ k).testBit i = (decide (k ≤ i) && decide (i < w)) := by
    intro i
    have he : 2 ^ w - 2 ^ k = (2 ^ (w - k) - 1) <<< k := by
      rw [Nat.shiftLeft_eq, Nat.sub_mul, Nat.one_mul, ← Nat.pow_add,
        Nat.sub_add_cancel hk]
    rw [he, Nat.testBit_shiftLeft, Nat.testBit_two_pow_sub_one]
    rcases le_or_lt k i with h | h
    · simp [h, ge_iff_le]
      constructor <;> intro hh <;> omega
    · simp [ge_iff_le, Nat.not_le.mpr h]
  apply Nat.eq_of_testBit_eq
  intro i
  rw [Nat.testBit_land, hmask i]
  rcases lt_or_le i k with hik | hik
  · rw [testBit_false_of_dvd hd hik]
    simp
  · rcases lt_or_le i w with hiw | hiw
    · simp [hik, hiw]
    · have hz : a.testBit i = false :=
        Nat.testBit_eq_false_of_lt (lt_of_lt_of_le ha (Nat.pow_le_pow_right (by norm_num) hiw))
      simp [hz]

theorem two_pow_add_two_pow_eq {a b c : Nat} (h : 2 ^ a + 2 ^ b = 2 ^ c) : a = b := by
  by_contra hne
  rcases Nat.lt_or_ge a b with hab | hab
  · have h1 : 2 ^ b < 2 ^ c := by
      have := Nat.pos_pow_of_pos a (show 0 < 2 by norm_num)
      omega
    have h2 : 2 ^ c < 2 ^ (b + 1) := by
      have hpow : 2 ^ a < 2 ^ b := Nat.pow_lt_pow_right (by norm_num) hab
      have : 2 ^ (b + 1) = 2 ^ b + 2 ^ b := by ring
      omega
    have hbc : b < c := (Nat.pow_lt_pow_iff_right (a := 2) (by norm_num)).mp h1
    have hcb : c < b + 1 := (Nat.pow_lt_pow_iff_right (a := 2) (by norm_num)).mp h2
    omega
  · have hba : b < a := by omega
    have h1 : 2 ^ a < 2 ^ c := by
      have := Nat.pos_pow_of_pos b (show 0 < 2 by norm_num)
      omega
    have h2 : 2 ^ c < 2 ^ (a + 1) := by
      have hpow : 2 ^ b < 2 ^ a := Nat.pow_lt_pow_right (by norm_num) hba
      have : 2 ^ (a + 1) = 2 ^ a + 2 ^ a := by ring
      omega
    have hac : a < c := (Nat.pow_lt_pow_iff_right (a := 2) (by norm_num)).mp h1
    have hca : c < a + 1 := (Nat.pow_lt_pow_iff_right (a := 2) (by norm_num)).mp h2
    omega

/-! ### Generator spec -/

theorem lsbCountAux_spec (a : Nat) : ∀ fuel z,
    z ≤ lsbCountAux a fuel z ∧ lsbCountAux a fuel z ≤ z + fuel ∧
    (∀ i, z ≤ i → i < lsbCountAux a fuel z → a.testBit i = false) ∧
    (lsbCountAux a fuel z < z + fuel → a.testBit (lsbCountAux a fuel z) = true) := by
  intro fuel
  induction fuel with
  | zero =>
    intro z
    have e : lsbCountAux a 0 z = z := rfl
    rw [e]
    exact ⟨le_refl _, by omega, fun i h1 h2 => ((by omega : False)).elim,
      fun h => ((by omega : False)).elim⟩
  | succ f ih =>
    intro z
    by_cases hb : a.testBit z
    · have e : lsbCountAux a (f + 1) z = z := by simp [lsbCountAux, hb]
      rw [e]
      exact ⟨le_refl _, by omega, fun i h1 h2 => ((by omega : False)).elim, fun _ => hb⟩
    · have heq : lsbCountAux a (f + 1) z = lsbCountAux a f (z + 1) := by
        simp [lsbCountAux, hb]
      obtain ⟨ih1, ih2, ih3, ih4⟩ := ih (z + 1)
      rw [heq]
      refine ⟨by omega, by omega, ?_, fun h => ih4 (by omega)⟩
      intro i h1 h2
      rcases Nat.eq_or_lt_of_le h1 with h | h
      · rw [← h]
        simpa using hb
      · exact ih3 i (by omega) h2

theorem dvd_of_low_bits {a k : Nat} (h : ∀ i, i < k → a.testBit i = false) :
    2 ^ k ∣ a := by
  apply Nat.dvd_of_mod_eq_zero
  apply Nat.zero_of_testBit_eq_false
  intro i
  rw [Nat.testBit_mod_two_pow]
  rcases lt_or_le i k with hik | hik
  · simp [hik, h i hik]
  · simp [Nat.not_lt.mpr hik]

theorem lsbCount_spec (a : Nat) :
    lsbCount a ≤ 32 ∧ 2 ^ lsbCount a ∣ a ∧
      (lsbCount a < 32 → a.testBit (lsbCount a) = true) := by
  obtain ⟨h1, h2, h3, h4⟩ := lsbCountAux_spec a 32 0
  refine ⟨by simpa using h2, ?_, ?_⟩
  · exact dvd_of_low_bits fun i hi => h3 i (Nat.zero_le _) hi
  · intro h
    exact h4 (by simpa using h)

theorem maskHost_eq {c : Nat} (hc : c ≤ 32) : maskHost c = 2 ^ 32 - 2 ^ (32 - c) := by
  rcases Nat.eq_zero_or_pos c with h0 | h0
  · subst h0
    simp [maskHost]
  · have hcne : c ≠ 0 := by omega
    have hP1 : 1 ≤ 2 ^ (32 - c) := Nat.one_le_two_pow
    have hPT : 2 ^ (32 - c) ≤ 2 ^ 32 := Nat.pow_le_pow_right (by norm_num) (by omega)
    have hsplit : (2 ^ 32 - 1) * 2 ^ (32 - c) =
        2 ^ 32 * (2 ^ (32 - c) - 1) + (2 ^ 32 - 2 ^ (32 - c)) := by
      have h32 : (2 : Nat) ^ 32 = 4294967296 := by norm_num
      simp only [h32] at hP1 hPT ⊢
      omega
    rw [maskHost, if_neg hcne, hsplit, Nat.mul_add_mod, Nat.mod_eq_of_lt (by omega)]

theorem addrNot_maskHost {c : Nat} (hc : c ≤ 32) :
    addrNot (maskHost c) = 2 ^ (32 - c) - 1 := by
  have h := maskHost_eq hc
  have hP1 : 1 ≤ 2 ^ (32 - c) := Nat.one_le_two_pow
  have hPT : 2 ^ (32 - c) ≤ 2 ^ 32 := Nat.pow_le_pow_right (by norm_num) (by omega)
  rw [addrNot, h, addrMax, addrCard]
  omega

theorem ip4netSet_addr {lo c : Nat} (hlo : lo < 2 ^ 32) (hd : 2 ^ (32 - c) ∣ lo)
    (hc : c ≤ 32) : (ip4netSet lo c).addr = lo := by
  show lo &&& maskHost c = lo
  rw [maskHost_eq hc]
  exact land_mask_of_aligned hlo hd (by omega)

theorem ip4netSet_maxAddr {lo c : Nat} (hlo : lo < 2 ^ 32) (hd : 2 ^ (32 - c) ∣ lo)
    (hc : c ≤ 32) : (ip4netSet lo c).maxAddr = lo + 2 ^ (32 - c) - 1 := by
  show (ip4netSet lo c).addr ||| addrNot (maskHost c) = _
  rw [ip4netSet_addr hlo hd hc, addrNot_maskHost hc,
    lor_of_aligned hd (by have h1 : 1 ≤ 2 ^ (32 - c) := Nat.one_le_two_pow; omega)]
  have h1 : 1 ≤ 2 ^ (32 - c) := Nat.one_le_two_pow
  omega

theorem shrinkNet_spec {lo hi : Nat} (hlo : lo < 2 ^ 32) (hle : lo ≤ hi) :
    ∀ fuel c, c ≤ 32 → 2 ^ (32 - c) ∣ lo → 33 - c ≤ fuel →
      ∃ c', c ≤ c' ∧ c' ≤ 32 ∧ 2 ^ (32 - c') ∣ lo ∧
        shrinkNet lo hi fuel (ip4netSet lo c) = ip4netSet lo c' ∧
        lo + 2 ^ (32 - c') - 1 ≤ hi ∧
        (∀ c'', c ≤ c'' → c'' < c' → hi < lo + 2 ^ (32 - c'') - 1) := by
  intro fuel
  induction fuel with
  | zero =>
    intro c hc _ hfu
    exact absurd hfu (by omega)
  | succ f ih =>
    intro c hc hd hfu
    have hmax := ip4netSet_maxAddr hlo hd hc
    by_cases hbig : hi < (ip4netSet lo c).maxAddr
    · rw [hmax] at hbig
      have hc32 : c < 32 := by
        by_contra hcc
        have h : c = 32 := by omega
        subst h
        norm_num at hbig
        omega
      have hd' : 2 ^ (32 - (c + 1)) ∣ lo :=
        dvd_trans (Nat.pow_dvd_pow 2 (by omega)) hd
      have hstep : shrinkNet lo hi (f + 1) (ip4netSet lo c) =
          shrinkNet lo hi f (ip4netSet lo (c + 1)) := by
        rw [shrinkNet, if_pos (by rw [hmax]; exact hbig)]
        congr 2
        show min 32 (c + 1) = c + 1
        omega
      obtain ⟨c', hcc', hc'32, hdc', heq, hfit, hmaxi⟩ := ih (c + 1) (by omega) hd' (by omega)
      refine ⟨c', by omega, hc'32, hdc', by rw [hstep, heq], hfit, ?_⟩
      intro c'' h1 h2
      rcases Nat.eq_or_lt_of_le h1 with h | h
      · rw [← h]
        exact hbig
      · exact hmaxi c'' (by omega) h2
    · rw [hmax] at hbig
      refine ⟨c, le_refl _, hc, hd, ?_, by omega, fun c'' h1 h2 => ((by omega : False)).elim⟩
      rw [shrinkNet, if_neg (by rw [hmax]; omega)]

theorem extractNextNetwork_spec {lo hi : Nat} (h1 : lo ≤ hi) (h2 : hi < 2 ^ 32) :
    ∃ k, k ≤ 32 ∧ 2 ^ k ∣ lo ∧ lo + 2 ^ k - 1 ≤ hi ∧
      (extractNextNetwork lo hi).1 = ⟨lo, 32 - k⟩ ∧
      (extractNextNetwork lo hi).1.maxAddr = lo + 2 ^ k - 1 ∧
      ((2 ^ (k + 1) ∣ lo ∧ k + 1 ≤ 32) → hi < lo + 2 ^ (k + 1) - 1) ∧
      (extractNextNetwork lo hi).2 =
        (if lo + 2 ^ k - 1 = hi then none else some (lo + 2 ^ k, hi)) := by
  have hlo : lo < 2 ^ 32 := lt_of_le_of_lt h1 h2
  obtain ⟨ht32, htd, htbit⟩ := lsbCount_spec lo
  have hc0 : 32 - (32 - lsbCount lo) = lsbCount lo := by omega
  have hd0 : 2 ^ (32 - (32 - lsbCount lo)) ∣ lo := by rw [hc0]; exact htd
  obtain ⟨c', hcc', hc'32, hdc', heq, hfit, hmaxi⟩ :=
    shrinkNet_spec hlo h1 33 (32 - lsbCount lo) (by omega) hd0 (by omega)
  have hnet : ip4netSet lo c' = (⟨lo, c'⟩ : Ip4Net) := by
    unfold ip4netSet
    rw [maskHost_eq hc'32, land_mask_of_aligned hlo hdc' (by omega)]
  have hmaxa := ip4netSet_maxAddr hlo hdc' hc'32
  have hm2 : (⟨lo, c'⟩ : Ip4Net).maxAddr = lo + 2 ^ (32 - c') - 1 := hnet ▸ hmaxa
  have hext : extractNextNetwork lo hi =
      if lo + 2 ^ (32 - c') - 1 = hi then ((⟨lo, c'⟩ : Ip4Net), none)
      else (⟨lo, c'⟩, some (addrSucc (lo + 2 ^ (32 - c') - 1), hi)) := by
    simp only [extractNextNetwork]
    rw [heq, hnet, hm2]
  have hone : (1 : Nat) ≤ 2 ^ (32 - c') := Nat.one_le_two_pow
  refine ⟨32 - c', by omega, hdc', hfit, ?_, ?_, ?_, ?_⟩
  · rw [hext]
    have hck : 32 - (32 - c') = c' := by omega
    split <;> simp [hck]
  · rw [hext]
    split <;> simpa using hm2
  · rintro ⟨hdv, hkle⟩
    have hc'pos : 1 ≤ c' := by omega
    rcases Nat.eq_or_lt_of_le hcc' with hce | hclt
    · -- the shrink loop never ran: the width is capped by the trailing zero count
      have ht : 32 - c' = lsbCount lo := by omega
      have htlt : lsbCount lo < 32 := by omega
      have hbit := htbit htlt
      have hfalse := testBit_false_of_dvd (a := lo) (k := 32 - c' + 1)
        (i := lsbCount lo) hdv (by omega)
      rw [hbit] at hfalse
      exact absurd hfalse (by simp)
    · have := hmaxi (c' - 1) (by omega) (by omega)
      have hck : 32 - (c' - 1) = 32 - c' + 1 := by omega
      rw [hck] at this
      exact this
  · rw [hext]
    by_cases hcond : lo + 2 ^ (32 - c') - 1 = hi
    · rw [if_pos hcond, if_pos hcond]
    · rw [if_neg hcond, if_neg hcond]
      have hlt : lo + 2 ^ (32 - c') - 1 < hi := by omega
      have hsucc : addrSucc (lo + 2 ^ (32 - c') - 1) = lo + 2 ^ (32 - c') := by
        unfold addrSucc addrCard
        have he : lo + 2 ^ (32 - c') - 1 + 1 = lo + 2 ^ (32 - c') := by omega
        rw [he, Nat.mod_eq_of_lt (by omega)]
      rw [hsucc]

theorem genNetsAux_chain {hi : Nat} (hhi : hi < 2 ^ 32) :
    ∀ fuel lo, lo ≤ hi → hi + 1 - lo ≤ fuel →
      coverChain hi lo (genNetsAux hi fuel lo) := by
  intro fuel
  induction fuel with
  | zero =>
    intro lo h1 h2
    exact absurd h2 (by omega)
  | succ f ih =>
    intro lo h1 h2
    obtain ⟨k, hk32, hkd, hkfit, he1, he2, hmax, he3⟩ := extractNextNetwork_spec h1 hhi
    have hone : (1 : Nat) ≤ 2 ^ k := Nat.one_le_two_pow
    have hgen : genNetsAux hi (f + 1) lo =
        (extractNextNetwork lo hi).1 ::
          (match (extractNextNetwork lo hi).2 with
            | none => []
            | some p => genNetsAux hi f p.1) := rfl
    rw [hgen, he1, he3]
    by_cases hcond : lo + 2 ^ k - 1 = hi
    · rw [if_pos hcond]
      show coverChain hi lo [⟨lo, 32 - k⟩]
      refine ⟨k, hk32, hkd, rfl, he1 ▸ he2, hkfit, hmax, ?_⟩
      rw [if_pos hcond]
    · rw [if_neg hcond]
      show coverChain hi lo (Ip4Net.mk lo (32 - k) :: genNetsAux hi f (lo + 2 ^ k))
      refine ⟨k, hk32, hkd, rfl, he1 ▸ he2, hkfit, hmax, ?_⟩
      rw [if_neg hcond]
      exact ih (lo + 2 ^ k) (by omega) (by omega)

theorem coverChain_covers {hi : Nat} :
    ∀ ns lo, coverChain hi lo ns →
      ∀ a, (∃ n ∈ ns, netContains n a) ↔ (lo ≤ a ∧ a ≤ hi) := by
  intro ns
  induction ns with
  | nil => intro lo h; exact h.elim
  | cons n rest ih =>
    intro lo h a
    obtain ⟨k, hk32, hkd, hne, hmaxa, hfit, hmax, htail⟩ := h
    have hone : (1 : Nat) ≤ 2 ^ k := Nat.one_le_two_pow
    have haddr : n.addr = lo := by rw [hne]
    by_cases hcond : lo + 2 ^ k - 1 = hi
    · rw [if_pos hcond] at htail
      subst htail
      constructor
      · rintro ⟨m, hm, hc⟩
        have hmn : m = n := by simpa using hm
        subst hmn
        unfold netContains at hc
        omega
      · intro hh
        refine ⟨n, by simp, ?_⟩
        unfold netContains
        omega
    · rw [if_neg hcond] at htail
      have hrest := ih (lo + 2 ^ k) htail a
      constructor
      · rintro ⟨m, hm, hc⟩
        rcases List.mem_cons.mp hm with hh | hh
        · subst hh
          unfold netContains at hc
          omega
        · have := hrest.mp ⟨m, hh, hc⟩
          omega
      · intro hh
        by_cases hsplit : a ≤ lo + 2 ^ k - 1
        · refine ⟨n, List.mem_cons_self _ _, ?_⟩
          unfold netContains
          omega
        · obtain ⟨m, hm, hc⟩ := hrest.mpr ⟨by omega, hh.2⟩
          exact ⟨m, List.mem_cons_of_mem _ hm, hc⟩

theorem coverChain_bounds {hi : Nat} :
    ∀ ns lo, coverChain hi lo ns →
      ∀ n ∈ ns, lo ≤ n.addr ∧ n.addr ≤ n.maxAddr ∧ n.maxAddr ≤ hi := by
  intro ns
  induction ns with
  | nil => intro lo h; exact h.elim
  | cons n rest ih =>
    intro lo h m hm
    obtain ⟨k, hk32, hkd, hne, hmaxa, hfit, hmax, htail⟩ := h
    have hone : (1 : Nat) ≤ 2 ^ k := Nat.one_le_two_pow
    have haddr : n.addr = lo := by rw [hne]
    rcases List.mem_cons.mp hm with hh | hh
    · subst hh
      omega
    · by_cases hcond : lo + 2 ^ k - 1 = hi
      · rw [if_pos hcond] at htail
        subst htail
        simp at hh
      · rw [if_neg hcond] at htail
        have := ih (lo + 2 ^ k) htail m hh
        omega

theorem coverChain_pairwise {hi : Nat} :
    ∀ ns lo, coverChain hi lo ns →
      List.Pairwise (fun m n => m.maxAddr < n.addr) ns := by
  intro ns
  induction ns with
  | nil => intro lo h; exact h.elim
  | cons n rest ih =>
    intro lo h
    obtain ⟨k, hk32, hkd, hne, hmaxa, hfit, hmax, htail⟩ := h
    have hone : (1 : Nat) ≤ 2 ^ k := Nat.one_le_two_pow
    by_cases hcond : lo + 2 ^ k - 1 = hi
    · rw [if_pos hcond] at htail
      subst htail
      simp
    · rw [if_neg hcond] at htail
      refine List.Pairwise.cons ?_ (ih (lo + 2 ^ k) htail)
      intro m hm
      have := (coverChain_bounds rest (lo + 2 ^ k) htail m hm).1
      rw [hmaxa]
      omega

theorem coverChain_minimal {hi : Nat} :
    ∀ ns lo, coverChain hi lo ns →
      List.Chain' (fun m n => ¬ netsUnionable m n) ns := by
  intro ns
  induction ns with
  | nil => intro lo h; exact h.elim
  | cons n rest ih =>
    intro lo h
    obtain ⟨k, hk32, hkd, hne, hmaxa, hfit, hmax, htail⟩ := h
    have hone : (1 : Nat) ≤ 2 ^ k := Nat.one_le_two_pow
    have haddr : n.addr = lo := by rw [hne]
    by_cases hcond : lo + 2 ^ k - 1 = hi
    · rw [if_pos hcond] at htail
      subst htail
      simp
    · rw [if_neg hcond] at htail
      have hchain := ih (lo + 2 ^ k) htail
      refine List.chain'_cons'.mpr ⟨?_, hchain⟩
      revert htail
      cases rest with
      | nil =>
        intro _ n2 hn2
        simp at hn2
      | cons n2 rest2 =>
        intro htail n2' hn2'
        have hh : n2' = n2 := by
          have h := hn2'
          simp at h
          exact h.symm
        subst hh
        obtain ⟨k2, hk232, hk2d, hn2e, hmaxa2, hfit2, hmax2, _⟩ := htail
        have hone2 : (1 : Nat) ≤ 2 ^ k2 := Nat.one_le_two_pow
        rintro ⟨hle, m, hm32, hsize, hdvd⟩
        rw [haddr] at hsize hdvd
        rw [hmaxa2] at hsize
        have hsz : 2 ^ k + 2 ^ k2 = 2 ^ m := by omega
        have hkk : k = k2 := two_pow_add_two_pow_eq hsz
        subst hkk
        have hmk : m = k + 1 := by
          have h2 : (2 : Nat) ^ (k + 1) = 2 ^ k + 2 ^ k := by ring
          have h3 : (2 : Nat) ^ (k + 1) = 2 ^ m := by omega
          exact (Nat.pow_right_injective (by norm_num) h3).symm
        subst hmk
        have hcontr := hmax ⟨hdvd, hm32⟩
        have hpow : (2 : Nat) ^ (k + 1) = 2 ^ k + 2 ^ k := by ring
        omega

/-- Claim C3 (code bug): the claimed two-paint scenario is not guaranteed
by the program.  Both `Paint` calls run `Pt_middle` to its post-loop
overlap test `range.HasOverlap(pos->first)` with `pos == m_map.end()`: an
out-of-bounds dereference of the end iterator (undefined behaviour), on
which the claimed final segments depend.  The first conjunct is the first
call on the empty map, the second fixes that call's (benignly resolved)
result, and the third is the second call on it. -/
theorem paint_then_overwrite_oob :
    paintMidOob ⟨0, 10⟩ [] = true ∧
      Paint ⟨0, 10⟩ 1 [] = [⟨⟨0, 10⟩, 1⟩] ∧
      paintMidOob ⟨5, 7⟩ [⟨⟨0, 10⟩, 1⟩] = true := by
  refine ⟨by decide, by decide, by decide⟩

/-- Claim C5 (code bug): the claimed two-blend scenario is not guaranteed
by the program.  Both `Blend` calls run `Bd_middle` to its post-loop
overlap test with `pos == m_map.end()`: an out-of-bounds dereference of
the end iterator (undefined behaviour); the `[5..6]` segment of the
claimed result is inserted on the modelled continuation of that access.
The first conjunct is the first call on the empty map, the second fixes
that call's (benignly resolved) result, and the third is the second call
on it. -/
theorem blend_across_gap_oob :
    blendMidOob ⟨0, 4⟩ 1 [] = true ∧
      Blend ⟨0, 4⟩ 1 [] = [⟨⟨0, 4⟩, 1⟩] ∧
      blendMidOob ⟨2, 6⟩ 2 [⟨⟨0, 4⟩, 1⟩] = true := by
  refine ⟨by decide, by decide, by decide⟩

/-- Claim C4 (code bug): `Paint` can break the paint map invariants.  On
the invariant-satisfying map `{[0..5] -> 1}`, `Paint([0..10], 2)` routes the
straddling predecessor through `LeftSkew`, which computes
`range.GetLowerBound() - 1 = 0 - 1` with unchecked 32 bit arithmetic and
re-inserts the segment `[0 .. 2^32-1]`; the result holds two overlapping
segments. -/
theorem paint_wrap_breaks_invariants :
    pmInv [⟨⟨0, 5⟩, 1⟩] = true ∧
      Paint ⟨0, 10⟩ 2 [⟨⟨0, 5⟩, 1⟩] = [⟨⟨0, 10⟩, 2⟩, ⟨⟨0, addrMax⟩, 1⟩] ∧
      pmInv (Paint ⟨0, 10⟩ 2 [⟨⟨0, 5⟩, 1⟩]) = false := by
  refine ⟨by decide, by decide, by decide⟩

/-- Claim C7 (counterexample): the generator does not produce the claimed
list `10.0.0.5/32, 10.0.0.6/31, 10.0.0.8/30` for `10.0.0.5 .. 10.0.0.10`
(the claimed cover would reach 10.0.0.11, outside the range). -/
theorem network_cover_edge_counterexample :
    genNets 167772165 167772170 ≠
      [⟨167772165, 32⟩, ⟨167772166, 31⟩, ⟨167772168, 30⟩] := by decide

/-- Claim C7 (amended): the range `10.0.0.5 .. 10.0.0.10` yields the
networks `10.0.0.5/32, 10.0.0.6/31, 10.0.0.8/31, 10.0.0.10/32`. -/
theorem network_cover_edge :
    genNets 167772165 167772170 =
      [⟨167772165, 32⟩, ⟨167772166, 31⟩, ⟨167772168, 31⟩, ⟨167772170, 32⟩] := by decide

/-- Claim C8 (code bug): `IpSet::Remove` does not replace an enclosing
range by its complement: on the set `{[0..10]}`, `Remove([3..7])` leaves
only the lower fragment `{[0..2]}` and drops `[8..10]`. -/
theorem ipset_remove_drops_upper :
    ipSetRemove ⟨3, 7⟩ [⟨0, 10⟩] = [⟨0, 2⟩] ∧
      ipSetRemove ⟨3, 7⟩ [⟨0, 10⟩] ≠ [⟨0, 2⟩, ⟨8, 10⟩] := by
  refine ⟨by decide, by decide⟩

/-- Claim C9 (code bug): `interval::intersection` builds its result with
the sorting two argument constructor, so for the disjoint non-empty
intervals `[0,1]` and `[3,4]` it returns the non-empty interval `[1,3]`
even though `has_intersection` is false; the claimed equivalence
`intersection(a,b).is_empty() iff not has_intersection(a,b)` fails. -/
theorem intersection_empty_iff_fails :
    NInterval.hasIntersection ⟨0, 1⟩ ⟨3, 4⟩ = false ∧
      NInterval.intersection ⟨0, 1⟩ ⟨3, 4⟩ = ⟨1, 3⟩ ∧
      (NInterval.intersection ⟨0, 1⟩ ⟨3, 4⟩).isEmpty = false ∧
      ¬ ((NInterval.intersection ⟨0, 1⟩ ⟨3, 4⟩).isEmpty =
          ! NInterval.hasIntersection ⟨0, 1⟩ ⟨3, 4⟩) := by
  refine ⟨by decide, by decide, by decide, by decide⟩

/-- Claim C10 (counterexample): the middle phase position can be the end of
the map at the point of dereference — already on the empty map (which
satisfies the paint map invariants) `Pt_middle` reaches its overlap test
with `pos == end()`. -/
theorem mid_end_deref_counterexample :
    ¬ (∀ (m : PMap) (r : IpRange), pmInv m = true → paintMidOob r m = false) := by
  intro h
  exact absurd (h [] ⟨3, 7⟩ (by decide)) (by decide)

/-- Claim C10 (amended): in each of the five single range operations the
middle phase helper can reach its final overlap test with the current
position equal to the end of the map, so the out-of-bounds dereference is
reachable; the empty map (which satisfies the invariants) and any range
exhibit it for all four middle helpers. -/
theorem mid_end_deref_reachable :
    pmInv [] = true ∧
      paintMidOob ⟨3, 7⟩ [] = true ∧
      unpaintMidOob ⟨3, 7⟩ 1 [] = true ∧
      blendMidOob ⟨3, 7⟩ 1 [] = true ∧
      unblendMidOob ⟨3, 7⟩ 1 [] = true := by
  refine ⟨by decide, by decide, by decide, by decide, by decide⟩

/-- Claim C6: for every non-empty IPv4 range the generator emits a
non-empty sequence of pairwise disjoint networks in increasing address
order whose union is exactly the range; no two consecutive networks can be
unioned into a single network; and the whole space yields exactly
`0.0.0.0/0`. -/
theorem network_cover_exact (lo hi : Nat) (h1 : lo ≤ hi) (h2 : hi < 2 ^ 32) :
    genNets lo hi ≠ [] ∧
      (∀ a, (∃ n ∈ genNets lo hi, netContains n a) ↔ (lo ≤ a ∧ a ≤ hi)) ∧
      (∀ n ∈ genNets lo hi, n.addr ≤ n.maxAddr) ∧
      List.Pairwise (fun m n => m.maxAddr < n.addr) (genNets lo hi) ∧
      List.Chain' (fun m n => ¬ netsUnionable m n) (genNets lo hi) ∧
      genNets 0 (2 ^ 32 - 1) = [⟨0, 0⟩] := by
  have hgen : genNets lo hi = genNetsAux hi (hi + 1 - lo) lo := by
    rw [genNets, if_pos h1]
  have hchain : coverChain hi lo (genNets lo hi) := by
    rw [hgen]
    exact genNetsAux_chain h2 _ lo h1 (le_refl _)
  refine ⟨?_, coverChain_covers _ _ hchain,
    fun n hn => (coverChain_bounds _ _ hchain n hn).2.1,
    coverChain_pairwise _ _ hchain, coverChain_minimal _ _ hchain, by decide⟩
  intro hnil
  rw [hnil] at hchain
  exact hchain

theorem network_cover_exact_witness :
    (5 : Nat) ≤ 10 ∧ (10 : Nat) < 2 ^ 32 ∧
      (∀ a, (∃ n ∈ genNets 5 10, netContains n a) ↔ (5 ≤ a ∧ a ≤ 10)) :=
  ⟨by decide, by decide, (network_cover_exact 5 10 (by decide) (by decide)).2.1⟩
